import Mathlib

/-!
# Bidirectional concurrent BFS (`main.go`)

A shallow embedding of the search core of `main.go`: the Go maps, `pathFrom`,
`reverse`, `copyMap`, the body of the goroutine started by `bfsPeer`, and the
coordinator `Bfs`.

The two peers and the coordinator run concurrently and share nothing but
channels (`Bfs` hands the two peers two different maps), so the program is
modelled as an interleaving transition system.  One transition is one channel
operation of one goroutine (a `select`, a send, a `close`) together with the
goroutine-local statements next to it; a scheduler label says who moves and,
whenever a `select` has several ready cases, which of them is taken.  "Under
every interleaving" is "for every schedule", a list of such labels.

A panic in any goroutine ends the process: the state is frozen from then on.
The calls of `fmt.Println` are left out.

Statements about one peer alone run `bfsPeer` against an arbitrary
environment: a sequence of events, each a transition of the peer or an
operation of somebody else on one of its channels.  Statements about `copyMap`
as a copy keep the maps in a store, since a Go map variable is a reference.
-/

namespace BidirectionalBfs

/-! ## Go maps with `int` keys -/

/-- A Go `map[int]β`, kept as an association list; the first binding of a key
is the one that counts. -/
abbrev GoMap (β : Type) := List (Int × β)

namespace GoMap

variable {β : Type}

/-- The comma-ok lookup `v, ok := m[k]`. -/
def get? (m : GoMap β) (k : Int) : Option β := List.lookup k m

/-- The assignment `m[k] = v`. -/
def set (m : GoMap β) (k : Int) (v : β) : GoMap β :=
  (k, v) :: m.filter (fun e => e.1 != k)

/-- The builtin `delete(m, k)`. -/
def del (m : GoMap β) (k : Int) : GoMap β := m.filter (fun e => e.1 != k)

/-- The keys of the map, each listed once: what `for k := range m` visits. -/
def keys (m : GoMap β) : List Int := (m.map Prod.fst).dedup

end GoMap

/-- The read `graph[n]` of an adjacency map: a missing key yields the nil slice. -/
def neighborsOf (graph : GoMap (List Int)) (n : Int) : List Int :=
  (graph.get? n).getD []

/-- The read `visited[n]` of a `map[int]bool`: a missing key yields `false`. -/
def isVisited (visited : GoMap Bool) (n : Int) : Bool :=
  (visited.get? n).getD false

/-- The presence test `_, ok := visited[n]`. -/
def hasKey {β : Type} (m : GoMap β) (n : Int) : Bool := (m.get? n).isSome

/-- The read `pred[n]` of a `map[int]int`: a missing key yields `0`. -/
def predOf (pred : GoMap Int) (n : Int) : Int := (pred.get? n).getD 0

/-! ## `pathFrom` -/

/-- What a call of `pathFrom` does: it returns a slice, or it panics with
"predecessor array contained a cycle".  `outOfFuel` is the placeholder of the
fuel-indexed loop below. -/
inductive PathResult where
  | path (nodes : List Int)
  | cycleFault
  | outOfFuel
  deriving DecidableEq, Repr

/-- The `for` loop of `pathFrom`, with the loop state `seen`, `curr`, `result`. -/
def pathFromLoop (pred : GoMap Int) (v : Int) :
    Nat → GoMap Bool → Int → List Int → PathResult
  | 0, _, _, _ => PathResult.outOfFuel
  | fuel + 1, seen, curr, result =>
    if isVisited seen curr then PathResult.cycleFault
    else
      if curr = v then PathResult.path (result ++ [curr])
      else pathFromLoop pred v fuel (seen.set curr true) (predOf pred curr) (result ++ [curr])

/-- The function `pathFrom(pred, u, v)`.  The loop is run with `len(pred) + 3`
units of fuel. -/
def pathFrom (pred : GoMap Int) (u v : Int) : PathResult :=
  pathFromLoop pred v (pred.length + 3) [] u []

/-- The node reached from `u` after `i` reads of the predecessor map (a missing
key reads as node `0`). -/
def follow (pred : GoMap Int) (u : Int) (i : Nat) : Int := (predOf pred)^[i] u

/-- Following the predecessor map from `u` meets some node a second time
before it reaches `v`: positions `i < j` of the walk hold the same node, and
no position before `j` holds `v`. -/
def RepeatsBefore (pred : GoMap Int) (u v : Int) : Prop :=
  ∃ i j : Nat, i < j ∧ follow pred u i = follow pred u j ∧ ∀ k < j, follow pred u k ≠ v

/-! ## `reverse` and `copyMap` -/

/-- The swap `slice[i], slice[j] = slice[j], slice[i]`. -/
def swapAt (slice : List Int) (i j : Nat) : List Int :=
  (slice.set i (slice.getD j 0)).set j (slice.getD i 0)

/-- The loop `for i := 0; i < n/2; i++` of `reverse`, from index `i` on. -/
def reverseLoop (n : Nat) : Nat → Nat → List Int → List Int
  | 0, _, slice => slice
  | fuel + 1, i, slice =>
    if i < n / 2 then reverseLoop n fuel (i + 1) (swapAt slice i (n - i - 1)) else slice

/-- The function `reverse(slice)`. -/
def reverse (slice : List Int) : List Int :=
  reverseLoop slice.length slice.length 0 slice

/-- The function `copyMap(source)`: for every key, `result[k] = append(result[k], v...)`. -/
def copyMap (source : GoMap (List Int)) : GoMap (List Int) :=
  source.keys.foldl
    (fun result k => result.set k (neighborsOf result k ++ neighborsOf source k)) []

/-! ## Channels -/

/-- A buffered channel of `int`: the queued values and whether it was closed. -/
structure Chan where
  buf : List Int
  closed : Bool
  deriving DecidableEq, Repr

/-- The buffer size `64*1024` of `uChan` and `vChan`. -/
def chanCap : Nat := 64 * 1024

/-- A fresh channel. -/
def Chan.empty : Chan := { buf := [], closed := false }

/-- A receive can proceed: a value is queued, or the channel is closed. -/
def Chan.ready (c : Chan) : Bool := !c.buf.isEmpty || c.closed

/-- The value a receive yields: the oldest queued value, and the zero value
once a closed channel is drained. -/
def Chan.front (c : Chan) : Int := c.buf.headD 0

/-- The channel after a receive. -/
def Chan.pop (c : Chan) : Chan := { c with buf := c.buf.tail }

/-- A send can proceed: the buffer has room. -/
def Chan.hasRoom (c : Chan) : Bool := decide (c.buf.length < chanCap)

/-- The channel after a send. -/
def Chan.push (c : Chan) (x : Int) : Chan := { c with buf := c.buf ++ [x] }

/-! ## One search peer (`bfsPeer`) -/

/-- Where the goroutine of `bfsPeer` stands. -/
inductive Pc where
  /-- At the `select` at the top of the loop. -/
  | select
  /-- In the `for` loop over `neighbors`; `rest` is what is left of it. -/
  | expand (next : Int) (rest : List Int)
  /-- About to run `done <- other`. -/
  | announce (other : Int)
  /-- About to run `result <- pathFrom(pred, meet, start)`. -/
  | report (meet : Int)
  /-- The result is sent; the deferred `close(peerOut)` is pending. -/
  | exiting
  /-- The goroutine has returned. -/
  | halted
  deriving DecidableEq, Repr

/-- The local variables of the goroutine of `bfsPeer`. -/
structure Peer where
  start : Int
  frontier : List Int
  visited : GoMap Bool
  pred : GoMap Int
  graph : GoMap (List Int)
  edgeCount : Nat
  pc : Pc
  deriving DecidableEq, Repr

/-- The state of a peer when its goroutine starts. -/
def Peer.init (start : Int) (graph : GoMap (List Int)) : Peer :=
  { start := start, frontier := [start], visited := [], pred := [], graph := graph,
    edgeCount := 0, pc := Pc.select }

/-- A run-time panic; any of them ends the whole process. -/
inductive Fault where
  /-- The `log.Panicln` of `pathFrom`. -/
  | predCycle
  /-- The read `frontier[0]` of an empty frontier. -/
  | frontierIndex
  /-- The slice `vPath[1:]` of a nil slice in `Bfs`. -/
  | sliceBounds
  deriving DecidableEq, Repr

/-- Everything the goroutine of one peer can read or write: its locals, its
two notification channels, the shared channel `done`, what it has sent on its
`result` channel (`none`: nothing yet; `some none`: the nil slice), and the
process-wide panic flag. -/
structure PeerCtx where
  me : Peer
  peerIn : Chan
  peerOut : Chan
  done : Option Int
  result : Option (Option (List Int))
  fault : Option Fault
  deriving DecidableEq, Repr

/-- One transition of the goroutine of `bfsPeer`.  `pickDone` is the choice of
the `select` when both `done` and `peerIn` are ready; `default` is taken only
when neither is.  A transition that cannot proceed (a send on a full channel,
a returned goroutine, a dead process) leaves the state as it is; the
assignments that precede a blocked send `peerOut <- neighbors[i]` are local to
the blocked goroutine and are made together with the send. -/
def peerStep (pickDone : Bool) (c : PeerCtx) : PeerCtx :=
  if c.fault.isSome then c else
  match c.me.pc with
  | Pc.select =>
    match c.done with
    | some meetNode =>
      if !c.peerIn.ready || pickDone then
        { c with done := none, me := { c.me with pc := Pc.report meetNode } }
      else
        let other := c.peerIn.front
        { c with peerIn := c.peerIn.pop,
                 me := { c.me with
                   pc := if isVisited c.me.visited other then Pc.announce other else Pc.select } }
    | none =>
      if c.peerIn.ready then
        let other := c.peerIn.front
        { c with peerIn := c.peerIn.pop,
                 me := { c.me with
                   pc := if isVisited c.me.visited other then Pc.announce other else Pc.select } }
      else
        match c.me.frontier with
        | [] => { c with fault := some Fault.frontierIndex }
        | next :: rest =>
          { c with me := { c.me with frontier := rest,
                                     pc := Pc.expand next (neighborsOf c.me.graph next) } }
  | Pc.expand next (n :: rest) =>
    if hasKey c.me.visited n then
      { c with me := { c.me with pc := Pc.expand next rest } }
    else if c.peerOut.hasRoom then
      { c with peerOut := c.peerOut.push n,
               me := { c.me with edgeCount := c.me.edgeCount + 1,
                                 pred := c.me.pred.set n next,
                                 frontier := c.me.frontier ++ [n],
                                 graph := c.me.graph.del next,
                                 pc := Pc.expand next rest } }
    else c
  | Pc.expand next [] =>
    if c.me.frontier.isEmpty then
      { c with result := some none,
               me := { c.me with visited := c.me.visited.set next true, pc := Pc.exiting } }
    else
      { c with me := { c.me with visited := c.me.visited.set next true, pc := Pc.select } }
  | Pc.announce other =>
    match c.done with
    | none => { c with done := some other, me := { c.me with pc := Pc.report other } }
    | some _ => c
  | Pc.report meet =>
    match pathFrom c.me.pred meet c.me.start with
    | PathResult.path p => { c with result := some (some p), me := { c.me with pc := Pc.exiting } }
    | _ => { c with fault := some Fault.predCycle }
  | Pc.exiting =>
    { c with peerOut := { c.peerOut with closed := true }, me := { c.me with pc := Pc.halted } }
  | Pc.halted => c

/-! ## The coordinator (`Bfs`) -/

/-- Where the body of `Bfs` stands after the two peers are started. -/
inductive Coord where
  /-- At the `select` over `uResult` and `vResult`. -/
  | selecting
  /-- At `vPath = <-vResult`, holding a non-nil `uPath`. -/
  | awaitV (uPath : List Int)
  /-- At `uPath = <-uResult`, holding a non-nil `vPath`. -/
  | awaitU (vPath : List Int)
  /-- After a `return`; `none` is the nil slice. -/
  | returned (path : Option (List Int))
  deriving DecidableEq, Repr

/-- The builtin `append(s, xs...)` where `s` may be the nil slice. -/
def goAppend (s : Option (List Int)) (xs : List Int) : Option (List Int) :=
  match s, xs with
  | none, [] => none
  | none, x :: rest => some (x :: rest)
  | some l, xs => some (l ++ xs)

/-- The last line of `Bfs`, `return append(reverse(uPath), vPath[1:]...)`: the
slice expression `vPath[1:]` panics on a slice of length zero. -/
def joinPaths (uPath vPath : Option (List Int)) : Except Fault (Option (List Int)) :=
  match vPath with
  | none => Except.error Fault.sliceBounds
  | some [] => Except.error Fault.sliceBounds
  | some (_ :: vTail) => Except.ok (goAppend (uPath.map reverse) vTail)

/-- The whole program state while `Bfs` runs.  The u-peer sends on `vChan` and
receives on `uChan`, the v-peer the other way round; `uPeer.graph` is the map
of the caller, which `Bfs` hands to the u-peer as it is. -/
structure Sys where
  uPeer : Peer
  vPeer : Peer
  uChan : Chan
  vChan : Chan
  done : Option Int
  uResult : Option (Option (List Int))
  vResult : Option (Option (List Int))
  coord : Coord
  fault : Option Fault
  deriving DecidableEq, Repr

/-- The state right after `Bfs` has started both peers. -/
def Bfs.init (graph : GoMap (List Int)) (u v : Int) : Sys :=
  { uPeer := Peer.init u graph, vPeer := Peer.init v (copyMap graph),
    uChan := Chan.empty, vChan := Chan.empty, done := none,
    uResult := none, vResult := none, coord := Coord.selecting, fault := none }

/-- What the u-peer sees of the program state. -/
def Sys.ctxU (s : Sys) : PeerCtx :=
  { me := s.uPeer, peerIn := s.uChan, peerOut := s.vChan, done := s.done,
    result := s.uResult, fault := s.fault }

/-- What the v-peer sees of the program state. -/
def Sys.ctxV (s : Sys) : PeerCtx :=
  { me := s.vPeer, peerIn := s.vChan, peerOut := s.uChan, done := s.done,
    result := s.vResult, fault := s.fault }

/-- Write the view of the u-peer back. -/
def Sys.putU (s : Sys) (c : PeerCtx) : Sys :=
  { s with uPeer := c.me, uChan := c.peerIn, vChan := c.peerOut, done := c.done,
           uResult := c.result, fault := c.fault }

/-- Write the view of the v-peer back. -/
def Sys.putV (s : Sys) (c : PeerCtx) : Sys :=
  { s with vPeer := c.me, vChan := c.peerIn, uChan := c.peerOut, done := c.done,
           vResult := c.result, fault := c.fault }

/-- The coordinator finishes with the two half-paths. -/
def Sys.finish (s : Sys) (uPath vPath : Option (List Int)) : Sys :=
  match joinPaths uPath vPath with
  | Except.ok r => { s with coord := Coord.returned r }
  | Except.error f => { s with fault := some f }

/-- The coordinator takes the case `uPath = <-uResult` of its `select`. -/
def Sys.takeU (s : Sys) (uRes : Option (List Int)) : Sys :=
  match uRes with
  | none => { s with coord := Coord.returned none }
  | some p => { s with coord := Coord.awaitV p }

/-- The coordinator takes the case `vPath = <-vResult` of its `select`. -/
def Sys.takeV (s : Sys) (vRes : Option (List Int)) : Sys :=
  match vRes with
  | none => { s with coord := Coord.returned none }
  | some p => { s with coord := Coord.awaitU p }

/-- One transition of the coordinator.  `pickU` is the choice of its `select`
when both results are there. -/
def coordStep (pickU : Bool) (s : Sys) : Sys :=
  if s.fault.isSome then s else
  match s.coord with
  | Coord.selecting =>
    match s.uResult, s.vResult with
    | some uRes, some vRes => if pickU then s.takeU uRes else s.takeV vRes
    | some uRes, none => s.takeU uRes
    | none, some vRes => s.takeV vRes
    | none, none => s
  | Coord.awaitV uPath =>
    match s.vResult with
    | some vRes => s.finish (some uPath) vRes
    | none => s
  | Coord.awaitU vPath =>
    match s.uResult with
    | some uRes => s.finish uRes (some vPath)
    | none => s
  | Coord.returned _ => s

/-- The body of `Bfs` from its `select` on, as a function of the two results
and of which of them the `select` receives first. -/
def Bfs.collect (uFirst : Bool) (uRes vRes : Option (List Int)) :
    Except Fault (Option (List Int)) :=
  if uFirst then
    match uRes with
    | none => Except.ok none
    | some uPath => joinPaths (some uPath) vRes
  else
    match vRes with
    | none => Except.ok none
    | some vPath => joinPaths uRes (some vPath)

/-- Who moves. -/
inductive Actor where
  | u
  | v
  | coord
  deriving DecidableEq, Repr

/-- A scheduler decision: who moves, and which ready case its `select` takes
(`pick = true`: the case written first). -/
structure Label where
  actor : Actor
  pick : Bool
  deriving DecidableEq, Repr

/-- One transition of the program. -/
def step (s : Sys) (l : Label) : Sys :=
  match l.actor with
  | Actor.u => s.putU (peerStep l.pick s.ctxU)
  | Actor.v => s.putV (peerStep l.pick s.ctxV)
  | Actor.coord => coordStep l.pick s

/-- The state reached from `s` under a schedule. -/
def run (s : Sys) (sched : List Label) : Sys := sched.foldl step s

/-- The map of the caller, as it stands in state `s`. -/
def Sys.callerGraph (s : Sys) : GoMap (List Int) := s.uPeer.graph

/-- The u-peer moves; its `select` prefers `done`. -/
def U : Label := { actor := Actor.u, pick := true }

/-- The v-peer moves; its `select` prefers `done`. -/
def V : Label := { actor := Actor.v, pick := true }

/-- The coordinator moves; its `select` prefers `uResult`. -/
def C : Label := { actor := Actor.coord, pick := true }


/-! ## The transitions of a peer, one by one -/

/-- The transitions of `peerStep` that change the state, each with the
condition under which it is taken. -/
inductive PeerTrans : PeerCtx → PeerCtx → Prop where
  /-- The `select` takes `case meetNode := <-done`. -/
  | recvDone (c : PeerCtx) (m : Int) (hf : c.fault = none) (hpc : c.me.pc = Pc.select)
      (hd : c.done = some m) :
      PeerTrans c { c with done := none, me := { c.me with pc := Pc.report m } }
  /-- The `select` takes `case other := <-peerIn`. -/
  | recvPeer (c : PeerCtx) (hf : c.fault = none) (hpc : c.me.pc = Pc.select)
      (hr : c.peerIn.ready = true) :
      PeerTrans c { c with
        peerIn := c.peerIn.pop,
        me := { c.me with
          pc := if isVisited c.me.visited c.peerIn.front then Pc.announce c.peerIn.front
                else Pc.select } }
  /-- The `select` takes `default` and reads `frontier[0]`. -/
  | dequeue (c : PeerCtx) (next : Int) (rest : List Int) (hf : c.fault = none)
      (hpc : c.me.pc = Pc.select) (hd : c.done = none) (hr : c.peerIn.ready = false)
      (hfr : c.me.frontier = next :: rest) :
      PeerTrans c { c with
        me := { c.me with frontier := rest, pc := Pc.expand next (neighborsOf c.me.graph next) } }
  /-- The `select` takes `default` on an empty frontier. -/
  | frontierFault (c : PeerCtx) (hf : c.fault = none) (hpc : c.me.pc = Pc.select)
      (hd : c.done = none) (hr : c.peerIn.ready = false) (hfr : c.me.frontier = []) :
      PeerTrans c { c with fault := some Fault.frontierIndex }
  /-- The neighbor `n` has a `visited` entry and is passed over. -/
  | skip (c : PeerCtx) (next n : Int) (rest : List Int) (hf : c.fault = none)
      (hpc : c.me.pc = Pc.expand next (n :: rest)) (hv : hasKey c.me.visited n = true) :
      PeerTrans c { c with me := { c.me with pc := Pc.expand next rest } }
  /-- The neighbor `n` has no `visited` entry: it is recorded, queued and sent. -/
  | discover (c : PeerCtx) (next n : Int) (rest : List Int) (hf : c.fault = none)
      (hpc : c.me.pc = Pc.expand next (n :: rest)) (hv : hasKey c.me.visited n = false)
      (hroom : c.peerOut.hasRoom = true) :
      PeerTrans c { c with
        peerOut := c.peerOut.push n,
        me := { c.me with edgeCount := c.me.edgeCount + 1,
                          pred := c.me.pred.set n next,
                          frontier := c.me.frontier ++ [n],
                          graph := c.me.graph.del next,
                          pc := Pc.expand next rest } }
  /-- The expansion ends with an empty frontier: `result <- nil`. -/
  | exhausted (c : PeerCtx) (next : Int) (hf : c.fault = none)
      (hpc : c.me.pc = Pc.expand next []) (hfr : c.me.frontier.isEmpty = true) :
      PeerTrans c { c with
        result := some none,
        me := { c.me with visited := c.me.visited.set next true, pc := Pc.exiting } }
  /-- The expansion ends with a non-empty frontier. -/
  | expanded (c : PeerCtx) (next : Int) (hf : c.fault = none)
      (hpc : c.me.pc = Pc.expand next []) (hfr : c.me.frontier.isEmpty = false) :
      PeerTrans c { c with
        me := { c.me with visited := c.me.visited.set next true, pc := Pc.select } }
  /-- The send `done <- other` goes through. -/
  | announce (c : PeerCtx) (other : Int) (hf : c.fault = none)
      (hpc : c.me.pc = Pc.announce other) (hd : c.done = none) :
      PeerTrans c { c with done := some other, me := { c.me with pc := Pc.report other } }
  /-- The call of `pathFrom` returns and its slice is sent on `result`. -/
  | report (c : PeerCtx) (meet : Int) (p : List Int) (hf : c.fault = none)
      (hpc : c.me.pc = Pc.report meet)
      (hp : pathFrom c.me.pred meet c.me.start = PathResult.path p) :
      PeerTrans c { c with result := some (some p), me := { c.me with pc := Pc.exiting } }
  /-- The call of `pathFrom` panics. -/
  | reportFault (c : PeerCtx) (meet : Int) (hf : c.fault = none)
      (hpc : c.me.pc = Pc.report meet)
      (hp : ∀ p, pathFrom c.me.pred meet c.me.start ≠ PathResult.path p) :
      PeerTrans c { c with fault := some Fault.predCycle }
  /-- The deferred `close(peerOut)`. -/
  | close (c : PeerCtx) (hf : c.fault = none) (hpc : c.me.pc = Pc.exiting) :
      PeerTrans c { c with
        peerOut := { c.peerOut with closed := true }, me := { c.me with pc := Pc.halted } }

/-! ## Invariants of the protocol -/

/-- The peer has met the node: it is its start node, or it has a `pred` entry. -/
def Known (p : Peer) (x : Int) : Prop := x = p.start ∨ hasKey p.pred x = true

/-- The slice walks against the edges of `graph`: every element is a neighbor
of the element after it. -/
def BackWalk (graph : GoMap (List Int)) (p : List Int) : Prop :=
  List.Chain' (fun a b => a ∈ neighborsOf graph b) p

/-- Every consecutive pair of the slice is joined by an edge of `graph`, in
one direction or the other. -/
def EdgePath (graph : GoMap (List Int)) (p : List Int) : Prop :=
  List.Chain' (fun a b => b ∈ neighborsOf graph a ∨ a ∈ neighborsOf graph b) p

/-- Every consecutive pair `(a, b)` of the slice is an edge of `graph`: `b` is
in the neighbor list of `a`. -/
def ForwardPath (graph : GoMap (List Int)) (p : List Int) : Prop :=
  List.Chain' (fun a b => b ∈ neighborsOf graph a) p

/-- The adjacency map lists every edge in both directions. -/
def SymmetricGraph (graph : GoMap (List Int)) : Prop :=
  ∀ a b, b ∈ neighborsOf graph a → a ∈ neighborsOf graph b

/-- What holds of one peer in every state of a run of `Bfs` on `graph`, as far
as it concerns only that peer, its outbound channel and its result. -/
structure Local (graph : GoMap (List Int)) (c : PeerCtx) : Prop where
  /-- The map of the peer holds nothing but neighbor lists of `graph`. -/
  graph_sub : ∀ k x, x ∈ neighborsOf c.me.graph k → x ∈ neighborsOf graph k
  /-- A `pred` entry is an edge of `graph`, out of a node the peer has met. -/
  pred_edge : ∀ k n, c.me.pred.get? k = some n → k ∈ neighborsOf graph n ∧ Known c.me n
  /-- The node under expansion is met, and what is left of its neighbor slice
  are neighbors of it in `graph`. -/
  expand_ok : ∀ next rest, c.me.pc = Pc.expand next rest →
    Known c.me next ∧ ∀ x ∈ rest, x ∈ neighborsOf graph next
  /-- The frontier holds met nodes. -/
  frontier_known : ∀ x ∈ c.me.frontier, Known c.me x
  /-- The visited nodes are met nodes. -/
  visited_known : ∀ x, hasKey c.me.visited x = true → Known c.me x
  /-- Every queued notification is a node with a `pred` entry. -/
  sent_pred : ∀ x ∈ c.peerOut.buf, hasKey c.me.pred x = true
  /-- The meeting point a peer announces or reports is a node it has met. -/
  meet_known : ∀ m, c.me.pc = Pc.report m ∨ c.me.pc = Pc.announce m → Known c.me m
  /-- A half-path sent on `result` is non-empty, walks against edges, and ends
  at the start node of the peer. -/
  result_walk : ∀ p, c.result = some (some p) →
    p ≠ [] ∧ BackWalk graph p ∧ p.getLast? = some c.me.start
  /-- The outbound channel is closed only by a peer that has returned. -/
  closed_halted : c.peerOut.closed = true → c.me.pc = Pc.halted
  /-- A result is sent only by a peer that is about to return. -/
  result_late : c.result ≠ none → c.me.pc = Pc.exiting ∨ c.me.pc = Pc.halted
  /-- At the `select` the frontier is not empty. -/
  select_frontier : c.me.pc = Pc.select → c.me.frontier ≠ []

/-- The meeting point a peer has committed to: the node it is about to report,
or the head of the half-path it has sent. -/
def meetOf (c : PeerCtx) : Option Int :=
  match c.me.pc with
  | Pc.report m => some m
  | _ =>
    match c.result with
    | some (some p) => p.head?
    | _ => none

/-- The view of the partner after the peer with view `c2` has moved: the
channels, `done` and the panic flag are shared. -/
def PeerCtx.sync (d c2 : PeerCtx) : PeerCtx :=
  { d with peerIn := c2.peerOut, peerOut := c2.peerIn, done := c2.done, fault := c2.fault }

/-- The views `c` and `d` are the two sides of one program state. -/
def Linked (c d : PeerCtx) : Prop :=
  c.peerIn = d.peerOut ∧ c.peerOut = d.peerIn ∧ c.done = d.done ∧ c.fault = d.fault

/-- What holds of the two peers together in every state of a run of `Bfs`. -/
structure NetInv (graph : GoMap (List Int)) (c d : PeerCtx) : Prop where
  left : Local graph c
  right : Local graph d
  /-- A node about to be announced was notified by the partner, unless the
  partner had closed its channel. -/
  announce_left : ∀ m, c.me.pc = Pc.announce m →
    hasKey d.me.pred m = true ∨ c.peerIn.closed = true
  announce_right : ∀ m, d.me.pc = Pc.announce m →
    hasKey c.me.pred m = true ∨ d.peerIn.closed = true
  /-- The node in `done` is met by every peer that has not returned. -/
  done_left : ∀ m, c.done = some m → Known c.me m ∨ c.me.pc = Pc.halted
  done_right : ∀ m, c.done = some m → Known d.me m ∨ d.me.pc = Pc.halted
  /-- While `done` holds a node, exactly one peer has committed to it; once
  `done` is empty again, both peers have committed to the same node or none has. -/
  phase : match c.done with
    | some m => (meetOf c = some m ∧ meetOf d = none) ∨ (meetOf c = none ∧ meetOf d = some m)
    | none => meetOf c = meetOf d

/-- What holds of the coordinator in every state of a run of `Bfs`. -/
structure CoordInv (graph : GoMap (List Int)) (s : Sys) : Prop where
  await_v : ∀ p, s.coord = Coord.awaitV p → s.uResult = some (some p)
  await_u : ∀ p, s.coord = Coord.awaitU p → s.vResult = some (some p)
  /-- A returned path follows edges and ends at the start node of the v-peer;
  it starts at the start node of the u-peer unless the u-peer reported nil. -/
  returned_path : ∀ p, s.coord = Coord.returned (some p) →
    EdgePath graph p ∧ p.getLast? = some s.vPeer.start ∧
      (s.uResult = some none ∨ p.head? = some s.uPeer.start)

/-- The invariant of a run of `Bfs` on `graph`. -/
def Inv (graph : GoMap (List Int)) (s : Sys) : Prop :=
  NetInv graph s.ctxU s.ctxV ∧ CoordInv graph s

/-! ## Graph notions used by the statements -/

/-- The node `b` is reachable from `a` along edges of `graph`. -/
def Reach (graph : GoMap (List Int)) (a b : Int) : Prop :=
  Relation.ReflTransGen (fun x y => y ∈ neighborsOf graph x) a b

/-- The slice is a walk from `u` to `v` along edges of `graph`. -/
def IsWalk (graph : GoMap (List Int)) (u v : Int) (p : List Int) : Prop :=
  p.head? = some u ∧ p.getLast? = some v ∧ ForwardPath graph p

/-- The hop distance from `u` to `v` is `d`, the number a single-source BFS
from `u` assigns to `v`: some walk from `u` to `v` has `d` edges and none has
fewer. -/
def IsHopDistance (graph : GoMap (List Int)) (u v : Int) (d : Nat) : Prop :=
  (∃ p, IsWalk graph u v p ∧ p.length = d + 1) ∧ ∀ p, IsWalk graph u v p → d + 1 ≤ p.length

/-- Every entry of `small` is an entry of `big`: `small` is `big` with some
keys deleted. -/
def SubMap (small big : GoMap (List Int)) : Prop :=
  ∀ k, small.get? k = big.get? k ∨ small.get? k = none

/-! ## Invariants of a search whose two sides never meet -/

/-- What holds of one peer while no meeting point has come up: the nodes it
has met are reachable from its start node, it is neither announcing nor
reporting a meeting point, and it has sent no result but nil. -/
structure QuietPeer (graph : GoMap (List Int)) (c : PeerCtx) : Prop where
  reach : ∀ x, Known c.me x → Reach graph c.me.start x
  no_meet : ∀ m, c.me.pc ≠ Pc.announce m ∧ c.me.pc ≠ Pc.report m
  nil_result : c.result = none ∨ c.result = some none
  late_result : c.me.pc = Pc.exiting ∨ c.me.pc = Pc.halted → c.result = some none

/-- What holds of the program while no meeting point has come up. -/
structure Quiet (graph : GoMap (List Int)) (s : Sys) : Prop where
  left : QuietPeer graph s.ctxU
  right : QuietPeer graph s.ctxV
  done_empty : s.done = none
  no_fault : s.fault = none
  coord_nil : s.coord = Coord.selecting ∨ s.coord = Coord.returned none

/-! ## Invariant of a peer whose start node has no neighbors -/

/-- What holds of a peer whose start node has no outgoing edges and that never
finds a node in `done`: it is at its first `select`, or in the expansion of
its start node, or it has reported nil; it sends no notification. -/
structure Lone (c : PeerCtx) : Prop where
  shape :
    (c.me.pc = Pc.select ∧ c.me.frontier = [c.me.start] ∧ c.me.visited = [] ∧
        c.result = none ∧ c.peerOut.closed = false) ∨
      (c.me.pc = Pc.expand c.me.start [] ∧ c.me.frontier = [] ∧
        c.result = none ∧ c.peerOut.closed = false) ∨
      (c.me.pc = Pc.exiting ∧ c.result = some none ∧ c.peerOut.closed = false) ∨
      (c.me.pc = Pc.halted ∧ c.result = some none)
  no_neighbors : neighborsOf c.me.graph c.me.start = []
  sent_nothing : c.peerOut.buf = []

/-- What holds of the program when both peers start at a node without outgoing
edges. -/
structure LonePair (s : Sys) : Prop where
  left : Lone s.ctxU
  right : Lone s.ctxV
  done_empty : s.done = none
  no_fault : s.fault = none
  coord_nil : s.coord = Coord.selecting ∨ s.coord = Coord.returned none

/-- What holds of the program in a search whose two sides never meet and whose
u-peer starts at `u`, a node without outgoing edges. -/
structure QuietLone (graph : GoMap (List Int)) (u v : Int) (s : Sys) : Prop where
  inv : Inv graph s
  quiet : Quiet graph s
  lone : Lone s.ctxU
  start_u : s.uPeer.start = u
  start_v : s.vPeer.start = v

/-- The number of sends on `done` that go through while the schedule runs from
`s`: the transitions that find `done` empty and leave a node in it. -/
def doneSends : Sys → List Label → Nat
  | _, [] => 0
  | s, l :: rest =>
    (if s.done = none ∧ (step s l).done ≠ none then 1 else 0) + doneSends (step s l) rest

/-! ## One peer on its own -/

/-- The view of a peer when its goroutine starts: `Bfs` has just made the
channels. -/
def PeerCtx.init (start : Int) (graph : GoMap (List Int)) : PeerCtx :=
  { me := Peer.init start graph, peerIn := Chan.empty, peerOut := Chan.empty, done := none,
    result := none, fault := none }

/-- What happens around one peer, seen from that peer alone: the peer makes a
transition of its own, or somebody else acts on one of its channels. -/
inductive Event where
  /-- The peer makes one transition; `pickDone` is the choice of its `select`. -/
  | move (pickDone : Bool)
  /-- The partner sends the notification `x` on `peerIn`. -/
  | notify (x : Int)
  /-- The partner closes `peerIn`. -/
  | hangUp
  /-- The partner receives a notification from `peerOut`. -/
  | drain
  /-- The partner sends the meeting point `m` on `done`. -/
  | meet (m : Int)
  /-- The partner receives from `done`. -/
  | unmeet
  deriving DecidableEq, Repr

/-- The effect of one event on the view of the peer.  An operation on a channel
that cannot proceed (a send on a full or closed channel) leaves the view as it
is. -/
def peerEvent (c : PeerCtx) : Event → PeerCtx
  | Event.move pickDone => peerStep pickDone c
  | Event.notify x =>
    if c.peerIn.closed || !c.peerIn.hasRoom then c else { c with peerIn := c.peerIn.push x }
  | Event.hangUp => { c with peerIn := { c.peerIn with closed := true } }
  | Event.drain => { c with peerOut := c.peerOut.pop }
  | Event.meet m =>
    match c.done with
    | none => { c with done := some m }
    | some _ => c
  | Event.unmeet => { c with done := none }

/-- The view of the peer after a sequence of events. -/
def peerRun (c : PeerCtx) (evs : List Event) : PeerCtx := evs.foldl peerEvent c

/-- The peer makes one transition after the other, nobody else acts. -/
def peerSteps (c : PeerCtx) (picks : List Bool) : PeerCtx :=
  picks.foldl (fun d pickDone => peerStep pickDone d) c

/-- The event "the peer moves", its `select` preferring `done`. -/
def M : Event := Event.move true

/-- The list `U` of an expansion: the elements of the slice `neighbors`, in
order, that have no `visited` entry. -/
def unvisitedNeighbors (visited : GoMap Bool) (neighbors : List Int) : List Int :=
  neighbors.filter (fun w => !hasKey visited w)

/-! ## Counting the iterations of `pathFrom` -/

/-- The values held by the predecessor map, one for each key. -/
def predValues (pred : GoMap Int) : List Int := pred.keys.map (predOf pred)

/-- The nodes `u`, `0` and the values of `pred`, each listed once. -/
def walkNodes (pred : GoMap Int) (u : Int) : List Int := (u :: 0 :: predValues pred).dedup

/-- The number of iterations the `for` loop of `pathFrom` begins from the loop
state `seen`, `curr`; the iteration that panics or takes the `break` counts. -/
def pathFromIters (pred : GoMap Int) (v : Int) : Nat → GoMap Bool → Int → Nat
  | 0, _, _ => 0
  | fuel + 1, seen, curr =>
    if isVisited seen curr then 1
    else
      if curr = v then 1
      else pathFromIters pred v fuel (seen.set curr true) (predOf pred curr) + 1

/-! ## Invariant of one peer on its own -/

/-- What holds of one peer in every state it can reach on `graph`, whatever
arrives on its channels. -/
structure Solo (graph : GoMap (List Int)) (c : PeerCtx) : Prop where
  /-- The map of the peer holds nothing but neighbor lists of `graph`. -/
  graph_sub : ∀ k x, x ∈ neighborsOf c.me.graph k → x ∈ neighborsOf graph k
  /-- A `pred` entry is an edge of `graph`, out of a node the peer has met. -/
  pred_edge : ∀ k n, c.me.pred.get? k = some n → k ∈ neighborsOf graph n ∧ Known c.me n
  /-- The node under expansion is met, and what is left of its neighbor slice
  are neighbors of it in `graph`. -/
  expand_ok : ∀ next rest, c.me.pc = Pc.expand next rest →
    Known c.me next ∧ ∀ x ∈ rest, x ∈ neighborsOf graph next
  /-- The frontier holds met nodes. -/
  frontier_known : ∀ x ∈ c.me.frontier, Known c.me x
  /-- At the `select` the frontier is not empty. -/
  select_frontier : c.me.pc = Pc.select → c.me.frontier ≠ []
  /-- The read `frontier[0]` has not panicked. -/
  no_index_fault : c.fault ≠ some Fault.frontierIndex
  /-- A node with a `visited` entry has no entry left in the map of the peer,
  or all its neighbors there have a `visited` entry. -/
  visited_spent : ∀ n, hasKey c.me.visited n = true →
    c.me.graph.get? n = none ∨ ∀ w ∈ neighborsOf c.me.graph n, hasKey c.me.visited w = true
  /-- The same for the node under expansion, up to what is left of its
  neighbor slice. -/
  expand_spent : ∀ next rest, c.me.pc = Pc.expand next rest →
    c.me.graph.get? next = none ∨
      ∀ w ∈ neighborsOf c.me.graph next, w ∈ rest ∨ hasKey c.me.visited w = true
  /-- Every `visited` entry holds `true`. -/
  visited_true : ∀ n b, c.me.visited.get? n = some b → b = true
  /-- The outbound channel holds no more than its buffer size. -/
  out_bound : c.peerOut.buf.length ≤ chanCap

/-! ## Maps as references

A Go variable of type `map[int][]int` holds a reference: two variables can
stand for one map.  To say that `copyMap` returns a map of its own, the maps
are kept in a store and addressed by index. -/

/-- The adjacency maps allocated so far. -/
abbrev Heap := List (GoMap (List Int))

/-- The map a reference points to. -/
def Heap.read (h : Heap) (ref : Nat) : GoMap (List Int) := List.getD h ref []

/-- The builtin `make(map[int][]int)`: the store with a new, empty map, and
the reference to that map. -/
def Heap.make (h : Heap) : Heap × Nat := (h ++ [[]], h.length)

/-- The assignment `m[k] = v` through the reference `ref`. -/
def Heap.assign (h : Heap) (ref : Nat) (k : Int) (v : List Int) : Heap :=
  List.set h ref ((Heap.read h ref).set k v)

/-- The builtin `delete(m, k)` through the reference `ref`. -/
def Heap.delete (h : Heap) (ref : Nat) (k : Int) : Heap :=
  List.set h ref ((Heap.read h ref).del k)

/-- The function `copyMap(source)` on references: `result := make(...)`, then
`result[k] = append(result[k], v...)` for every entry `k, v` of the map behind
`source`; the reference `result` is returned. -/
def copyMapRef (h : Heap) (source : Nat) : Heap × Nat :=
  ((Heap.read h source).keys.foldl
      (fun acc k => Heap.assign acc (Heap.make h).2 k
        (neighborsOf (Heap.read acc (Heap.make h).2) k ++ neighborsOf (Heap.read acc source) k))
      (Heap.make h).1,
    (Heap.make h).2)

/-! ## Graphs without a self-loop away from the start node -/

/-- No node other than `start` lists itself as a neighbor. -/
def NoSelfLoopOff (graph : GoMap (List Int)) (start : Int) : Prop :=
  ∀ n, n ∈ neighborsOf graph n → n = start

/-- What holds of `pred` in every state a peer can reach on a graph without a
self-loop away from its start node. -/
structure Ranked (c : PeerCtx) : Prop where
  /-- The nodes can be numbered so that `pred` leads from every node other
  than the start node to a node with a smaller number. -/
  rank : ∃ r : Int → Nat, ∀ k n, c.me.pred.get? k = some n → k ≠ c.me.start → r n < r k
  /-- A value of `pred` is a node that has a `visited` entry or is under
  expansion. -/
  spent : ∀ k n, c.me.pred.get? k = some n →
    hasKey c.me.visited n = true ∨ ∃ rest, c.me.pc = Pc.expand n rest

/-- The node a peer is about to announce has the value `true` in its `visited`. -/
def AnnouncesVisited (p : Peer) : Prop :=
  ∀ m, p.pc = Pc.announce m → isVisited p.visited m = true

/-! ## Go maps: lookup after `set` and `delete` -/

theorem GoMap.lookup_filter_ne {β : Type} (m : GoMap β) (k x : Int) (h : x ≠ k) :
    List.lookup x (m.filter (fun e => e.1 != k)) = List.lookup x m := by
  induction m with
  | nil => rfl
  | cons e m ih =>
    obtain ⟨a, b⟩ := e
    by_cases hak : a = k
    · subst hak
      have hxa : (x == a) = false := by simpa using h
      simp [List.filter, List.lookup, hxa, ih]
    · have : ((a, b).1 != k) = true := by simpa using hak
      simp only [List.filter, this, List.lookup, ih]

theorem GoMap.lookup_filter_self {β : Type} (m : GoMap β) (k : Int) :
    List.lookup k (m.filter (fun e => e.1 != k)) = none := by
  induction m with
  | nil => rfl
  | cons e m ih =>
    obtain ⟨a, b⟩ := e
    by_cases hak : a = k
    · subst hak
      simp [List.filter, ih]
    · have h1 : ((a, b).1 != k) = true := by simpa using hak
      have h2 : (k == a) = false := by simpa using fun h : k = a => hak h.symm
      simp only [List.filter, h1, List.lookup, h2, ih]

theorem GoMap.get?_set {β : Type} (m : GoMap β) (k x : Int) (v : β) :
    (m.set k v).get? x = if x = k then some v else m.get? x := by
  unfold GoMap.set GoMap.get?
  by_cases h : x = k
  · subst h; simp [List.lookup]
  · have h2 : (x == k) = false := by simpa using h
    simp only [List.lookup, h2, h, if_false]
    exact GoMap.lookup_filter_ne m k x h

theorem GoMap.get?_del {β : Type} (m : GoMap β) (k x : Int) :
    (m.del k).get? x = if x = k then none else m.get? x := by
  unfold GoMap.del GoMap.get?
  by_cases h : x = k
  · subst h; simp [GoMap.lookup_filter_self]
  · simp only [h, if_false]
    exact GoMap.lookup_filter_ne m k x h

theorem isVisited_set (seen : GoMap Bool) (k x : Int) :
    isVisited (seen.set k true) x = (decide (x = k) || isVisited seen x) := by
  unfold isVisited
  rw [GoMap.get?_set]
  by_cases h : x = k <;> simp [h]

theorem predOf_mem (pred : GoMap Int) (x : Int) :
    predOf pred x ∈ (0 : Int) :: pred.map Prod.snd := by
  unfold predOf GoMap.get?
  induction pred with
  | nil => simp [List.lookup]
  | cons e m ih =>
    obtain ⟨a, b⟩ := e
    by_cases h : x = a
    · subst h; simp [List.lookup]
    · have h2 : (x == a) = false := by simpa using h
      simp only [List.lookup, h2, List.map_cons, List.mem_cons] at ih ⊢
      rcases ih with ih | ih
      · exact Or.inl ih
      · exact Or.inr (Or.inr ih)

/-! ## `pathFrom` -/

theorem follow_zero (pred : GoMap Int) (u : Int) : follow pred u 0 = u := rfl

theorem follow_succ (pred : GoMap Int) (u : Int) (i : Nat) :
    follow pred u (i + 1) = follow pred (predOf pred u) i := rfl

theorem follow_succ_last (pred : GoMap Int) (u : Int) (i : Nat) :
    follow pred u (i + 1) = predOf pred (follow pred u i) := by
  unfold follow
  exact Function.iterate_succ_apply' _ _ _

/-- The loop returns the walk when it reaches `v` after `n` fresh nodes. -/
theorem pathFromLoop_path (pred : GoMap Int) (v : Int) :
    ∀ (n fuel : Nat) (seen : GoMap Bool) (curr : Int) (acc : List Int),
      n < fuel →
      (∀ k < n, follow pred curr k ≠ v) →
      follow pred curr n = v →
      (∀ k ≤ n, isVisited seen (follow pred curr k) = false) →
      (∀ i j, i < j → j ≤ n → follow pred curr i ≠ follow pred curr j) →
      pathFromLoop pred v fuel seen curr acc
        = PathResult.path (acc ++ (List.range (n + 1)).map (follow pred curr)) := by
  intro n
  induction n with
  | zero =>
    intro fuel seen curr acc hf _ hv hs _
    obtain ⟨fuel, rfl⟩ : ∃ f, fuel = f + 1 := ⟨fuel - 1, by omega⟩
    have h0 : isVisited seen curr = false := hs 0 (le_refl _)
    have hv0 : curr = v := hv
    subst hv0
    simp [pathFromLoop, h0, follow_zero, List.range_succ]
  | succ n ih =>
    intro fuel seen curr acc hf hne hv hs hd
    obtain ⟨fuel, rfl⟩ : ∃ f, fuel = f + 1 := ⟨fuel - 1, by omega⟩
    have h0 : isVisited seen curr = false := hs 0 (Nat.zero_le _)
    have hv0 : curr ≠ v := hne 0 (Nat.succ_pos _)
    have hrec := ih fuel (seen.set curr true) (predOf pred curr) (acc ++ [curr]) (by omega)
      (fun k hk => by rw [← follow_succ]; exact hne (k + 1) (by omega))
      (by rw [← follow_succ]; exact hv)
      (fun k hk => by
        rw [← follow_succ, isVisited_set]
        have h1 := hs (k + 1) (by omega)
        have h2 : follow pred curr (k + 1) ≠ curr := fun h =>
          hd 0 (k + 1) (by omega) (by omega) (by rw [follow_zero]; exact h.symm)
        simp [h1, h2])
      (fun i j hij hj => by
        rw [← follow_succ, ← follow_succ]
        exact hd (i + 1) (j + 1) (by omega) (by omega))
    simp only [pathFromLoop, h0, hv0, if_false, Bool.false_eq_true]
    rw [hrec, List.range_succ_eq_map (n + 1)]
    simp [List.map_map, Function.comp_def, follow_zero, follow_succ]

/-- The loop panics when, after `n` fresh nodes none of which is `v`, it
stands on a node it has seen. -/
theorem pathFromLoop_fault (pred : GoMap Int) (v : Int) :
    ∀ (n fuel : Nat) (seen : GoMap Bool) (curr : Int) (acc : List Int),
      n < fuel →
      (∀ k < n, follow pred curr k ≠ v ∧ isVisited seen (follow pred curr k) = false) →
      (∀ i j, i < j → j < n → follow pred curr i ≠ follow pred curr j) →
      (isVisited seen (follow pred curr n) = true
        ∨ ∃ i < n, follow pred curr i = follow pred curr n) →
      pathFromLoop pred v fuel seen curr acc = PathResult.cycleFault := by
  intro n
  induction n with
  | zero =>
    intro fuel seen curr acc hf _ _ hlast
    obtain ⟨fuel, rfl⟩ : ∃ f, fuel = f + 1 := ⟨fuel - 1, by omega⟩
    have h0 : isVisited seen curr = true := by
      rcases hlast with h | ⟨i, hi, _⟩
      · exact h
      · omega
    simp [pathFromLoop, h0]
  | succ n ih =>
    intro fuel seen curr acc hf hne hd hlast
    obtain ⟨fuel, rfl⟩ : ∃ f, fuel = f + 1 := ⟨fuel - 1, by omega⟩
    have h0 : isVisited seen curr = false := (hne 0 (Nat.succ_pos _)).2
    have hv0 : curr ≠ v := (hne 0 (Nat.succ_pos _)).1
    have hrec := ih fuel (seen.set curr true) (predOf pred curr) (acc ++ [curr]) (by omega)
      (fun k hk => by
        rw [← follow_succ, isVisited_set]
        have h1 := hne (k + 1) (by omega)
        have h2 : follow pred curr (k + 1) ≠ curr := fun h =>
          hd 0 (k + 1) (by omega) (by omega) (by rw [follow_zero]; exact h.symm)
        exact ⟨h1.1, by simp [h1.2, h2]⟩)
      (fun i j hij hj => by
        rw [← follow_succ, ← follow_succ]
        exact hd (i + 1) (j + 1) (by omega) (by omega))
      (by
        rw [← follow_succ, isVisited_set]
        rcases hlast with h | ⟨i, hi, h⟩
        · left; simp [h]
        · cases i with
          | zero => left; rw [follow_zero] at h; simp [h.symm]
          | succ i =>
            right
            exact ⟨i, by omega, by rw [← follow_succ, h]⟩)
    simp only [pathFromLoop, h0, hv0, if_false, Bool.false_eq_true]
    exact hrec

/-- Every node of the walk is `u`, `0`, or a value of the map. -/
theorem follow_mem (pred : GoMap Int) (u : Int) (i : Nat) :
    follow pred u i ∈ u :: (0 : Int) :: pred.map Prod.snd := by
  cases i with
  | zero => simp [follow_zero]
  | succ i =>
    rw [follow_succ_last]
    exact List.mem_cons_of_mem _ (predOf_mem pred _)

/-- A walk whose first `n` positions hold different nodes has `n ≤ len(pred) + 2`. -/
theorem follow_distinct_bound (pred : GoMap Int) (u : Int) (n : Nat)
    (hd : ∀ i j, i < j → j < n → follow pred u i ≠ follow pred u j) :
    n ≤ pred.length + 2 := by
  have hnd : ((List.range n).map (follow pred u)).Nodup := by
    rw [List.nodup_map_iff_inj_on (List.nodup_range n)]
    intro i hi j hj hij
    rw [List.mem_range] at hi hj
    by_contra hne
    rcases Nat.lt_or_gt_of_ne hne with h | h
    · exact hd i j h hj hij
    · exact hd j i h hi hij.symm
  have hsub : (List.range n).map (follow pred u) ⊆ u :: (0 : Int) :: pred.map Prod.snd := by
    intro x hx
    rw [List.mem_map] at hx
    obtain ⟨i, _, rfl⟩ := hx
    exact follow_mem pred u i
  have := (List.subperm_of_subset hnd hsub).length_le
  simpa using this

/-- The walk from `u`, cut at its first position that holds `v` or a node
already met, is never longer than `len(pred) + 2`; the cut exists. -/
theorem follow_stops (pred : GoMap Int) (u v : Int) :
    ∃ j, j ≤ pred.length + 2 ∧
      (follow pred u j = v ∨ ∃ i < j, follow pred u i = follow pred u j) ∧
      (∀ k < j, follow pred u k ≠ v) ∧
      (∀ i k, i < k → k < j → follow pred u i ≠ follow pred u k) := by
  classical
  have hex : ∃ j, follow pred u j = v ∨ ∃ i < j, follow pred u i = follow pred u j := by
    by_contra hno
    push_neg at hno
    have := follow_distinct_bound pred u (pred.length + 3)
      (fun i j hij _ => (hno j).2 i hij)
    omega
  refine ⟨Nat.find hex, ?_, Nat.find_spec hex, ?_, ?_⟩
  · exact follow_distinct_bound pred u _
      (fun i k hik hk h => Nat.find_min hex hk (Or.inr ⟨i, hik, h⟩))
  · exact fun k hk h => Nat.find_min hex hk (Or.inl h)
  · exact fun i k hik hk h => Nat.find_min hex hk (Or.inr ⟨i, hik, h⟩)

/-- The shape of a walk of `n` reads that meets no node twice. -/
theorem followList_props (pred : GoMap Int) (src : Int) (n : Nat)
    (hfresh : ∀ i j, i < j → j ≤ n → follow pred src i ≠ follow pred src j) :
    ((List.range (n + 1)).map (follow pred src)).head? = some src ∧
    ((List.range (n + 1)).map (follow pred src)).getLast? = some (follow pred src n) ∧
    List.Chain' (fun a b => b = predOf pred a) ((List.range (n + 1)).map (follow pred src)) ∧
    ((List.range (n + 1)).map (follow pred src)).Nodup := by
  refine ⟨?_, ?_, ?_, ?_⟩
  · simp [List.range_succ_eq_map, follow_zero]
  · simp [List.range_succ]
  · rw [List.chain'_iff_get]
    intro i hi
    simp [follow_succ_last]
  · rw [List.nodup_map_iff_inj_on (List.nodup_range _)]
    intro i hi j hj hij
    rw [List.mem_range] at hi hj
    by_contra hne
    rcases Nat.lt_or_gt_of_ne hne with h | h
    · exact hfresh i j h (by omega) hij
    · exact hfresh j i h (by omega) hij.symm

/-- A slice returned by `pathFrom(pred, u, v)` is the walk from `u` up to its
first visit of `v`, and that walk meets no node twice. -/
theorem pathFrom_path_shape (pred : GoMap Int) (u v : Int) (p : List Int)
    (h : pathFrom pred u v = PathResult.path p) :
    ∃ n, p = (List.range (n + 1)).map (follow pred u) ∧ follow pred u n = v ∧
      (∀ k < n, follow pred u k ≠ v) ∧
      (∀ i j, i < j → j ≤ n → follow pred u i ≠ follow pred u j) := by
  obtain ⟨j, hj, hstop, hne, hd⟩ := follow_stops pred u v
  by_cases hrep : ∃ i < j, follow pred u i = follow pred u j
  · have hf : pathFrom pred u v = PathResult.cycleFault :=
      pathFromLoop_fault pred v j (pred.length + 3) [] u [] (by omega)
        (fun k hk => ⟨hne k hk, rfl⟩) hd (Or.inr hrep)
    rw [hf] at h; cases h
  · have hv : follow pred u j = v := hstop.resolve_right hrep
    have hd2 : ∀ i k, i < k → k ≤ j → follow pred u i ≠ follow pred u k := by
      intro i k hik hk h
      rcases Nat.lt_or_eq_of_le hk with hlt | rfl
      · exact hd i k hik hlt h
      · exact hrep ⟨i, hik, h⟩
    have hp : pathFrom pred u v
        = PathResult.path ([] ++ (List.range (j + 1)).map (follow pred u)) :=
      pathFromLoop_path pred v j (pred.length + 3) [] u [] (by omega) hne hv
        (fun _ _ => rfl) hd2
    rw [hp] at h
    injection h with h
    exact ⟨j, by rw [← h]; rfl, hv, hne, hd2⟩

/-- What every slice returned by `pathFrom(pred, u, v)` looks like. -/
theorem pathFrom_path_props (pred : GoMap Int) (u v : Int) (p : List Int)
    (h : pathFrom pred u v = PathResult.path p) :
    p.head? = some u ∧ p.getLast? = some v ∧
      List.Chain' (fun a b => b = predOf pred a) p ∧ p.Nodup := by
  obtain ⟨n, rfl, hv, _, hd⟩ := pathFrom_path_shape pred u v p h
  have := followList_props pred u n hd
  rw [hv] at this
  exact this

/-- **C7.** When following `pred` from `src` reaches `start` after `n` reads
without meeting any node twice, `pathFrom(pred, src, start)` returns exactly
`[src, pred(src), pred(pred(src)), ..., start]`: it starts with `src`, ends
with `start`, every later element is `pred` of the one before it, and no node
repeats; for `n = 0` this is `pathFrom(pred, x, x) = [x]`. -/
theorem pathFrom_follows_pred (pred : GoMap Int) (src start : Int) (n : Nat)
    (hreach : follow pred src n = start)
    (hfresh : ∀ i j, i < j → j ≤ n → follow pred src i ≠ follow pred src j) :
    ∃ p, pathFrom pred src start = PathResult.path p ∧
      p = (List.range (n + 1)).map (follow pred src) ∧
      p.head? = some src ∧ p.getLast? = some start ∧
      List.Chain' (fun a b => b = predOf pred a) p ∧ p.Nodup ∧
      (n = 0 → p = [src]) := by
  have hlen : n ≤ pred.length + 2 :=
    Nat.le_of_succ_le (follow_distinct_bound pred src (n + 1)
      (fun i j hij hj => hfresh i j hij (by omega)))
  have hp := pathFromLoop_path pred start n (pred.length + 3) [] src [] (by omega)
    (fun k hk h => hfresh k n hk (le_refl _) (h.trans hreach.symm)) hreach
    (fun _ _ => rfl) hfresh
  obtain ⟨h1, h2, h3, h4⟩ := followList_props pred src n hfresh
  rw [hreach] at h2
  refine ⟨_, hp, by simp, by simpa using h1, by simpa using h2, by simpa using h3,
    by simpa using h4, ?_⟩
  rintro rfl
  simp [List.range_succ, follow_zero]

/-- The witness of C7: the map `{3: 2, 2: 1}` read from `3` back to `1`. -/
theorem pathFrom_follows_pred_witness :
    ∃ p, pathFrom [(3, 2), (2, 1)] 3 1 = PathResult.path p ∧
      p = (List.range (2 + 1)).map (follow [(3, 2), (2, 1)] 3) ∧
      p.head? = some 3 ∧ p.getLast? = some 1 ∧
      List.Chain' (fun a b => b = predOf [(3, 2), (2, 1)] a) p ∧ p.Nodup ∧
      (2 = 0 → p = [3]) :=
  pathFrom_follows_pred [(3, 2), (2, 1)] 3 1 2 (by decide) (by
    intro i j hij hj
    have hj3 : j = 1 ∨ j = 2 := by omega
    rcases hj3 with rfl | rfl
    · obtain rfl : i = 0 := by omega
      decide
    · have hi : i = 0 ∨ i = 1 := by omega
      rcases hi with rfl | rfl <;> decide)

/-- What the loop of `pathFrom` tests: the call `pathFrom(pred, u, v)` panics
with the cycle fault if and only if following the predecessor map from `u` (a missing key
reads as node `0`) meets some node a second time before reaching `v`; in every
other case it returns a path.  So a cycle of `pred` is reported exactly when
the walk from `u` runs into it before it reaches `v`. -/
theorem pathFrom_cycleFault_iff (pred : GoMap Int) (u v : Int) :
    (pathFrom pred u v = PathResult.cycleFault ↔ RepeatsBefore pred u v) ∧
    (pathFrom pred u v = PathResult.cycleFault ∨ ∃ p, pathFrom pred u v = PathResult.path p) := by
  obtain ⟨j, hj, hstop, hne, hd⟩ := follow_stops pred u v
  by_cases hrep : ∃ i < j, follow pred u i = follow pred u j
  · have hf : pathFrom pred u v = PathResult.cycleFault :=
      pathFromLoop_fault pred v j (pred.length + 3) [] u [] (by omega)
        (fun k hk => ⟨hne k hk, rfl⟩) hd (Or.inr hrep)
    obtain ⟨i, hi, heq⟩ := hrep
    exact ⟨⟨fun _ => ⟨i, j, hi, heq, hne⟩, fun _ => hf⟩, Or.inl hf⟩
  · have hv : follow pred u j = v := hstop.resolve_right hrep
    have hd2 : ∀ i k, i < k → k ≤ j → follow pred u i ≠ follow pred u k := by
      intro i k hik hk h
      rcases Nat.lt_or_eq_of_le hk with hlt | rfl
      · exact hd i k hik hlt h
      · exact hrep ⟨i, hik, h⟩
    have hp := pathFromLoop_path pred v j (pred.length + 3) [] u [] (by omega) hne hv
      (fun _ _ => rfl) hd2
    have hp2 : pathFrom pred u v = PathResult.path ([] ++ (List.range (j + 1)).map (follow pred u)) := hp
    refine ⟨⟨fun h => ?_, fun h => ?_⟩, Or.inr ⟨_, hp2⟩⟩
    · rw [hp2] at h; cases h
    · exfalso
      obtain ⟨i, k, hik, heq, hk⟩ := h
      have hkj : k ≤ j := by
        by_contra hlt
        exact hk j (by omega) hv
      exact hd2 i k hik hkj heq


/-- **C8 (the code breaks it).** The map `{1: 2, 2: 1}` contains the cycle
`1 → 2 → 1`: following it from `1` comes back to `1` after two reads.  Yet
`pathFrom(pred, 1, 2)` returns `[1, 2]` and raises no fault: the loop tests
only the nodes on the walk from `u` and stops as soon as it stands on `v`. -/
theorem pathFrom_cycle_not_reported :
    follow [(1, 2), (2, 1)] 1 2 = 1 ∧
      pathFrom [(1, 2), (2, 1)] 1 2 = PathResult.path [1, 2] ∧
      pathFrom [(1, 2), (2, 1)] 1 2 ≠ PathResult.cycleFault := by
  decide

theorem swapAt_length (s : List Int) (a b : Nat) : (swapAt s a b).length = s.length := by
  simp [swapAt]

theorem swapAt_getElem? (s : List Int) (a b j : Nat) (ha : a < s.length) (hb : b < s.length) :
    (swapAt s a b)[j]? = if j = b then s[a]? else if j = a then s[b]? else s[j]? := by
  unfold swapAt
  rw [List.getElem?_set, List.getElem?_set]
  simp only [List.length_set, List.getD_eq_getElem?_getD]
  by_cases h1 : b = j
  · subst h1; simp [hb, List.getElem?_eq_getElem ha]
  · have h1' : ¬ j = b := fun h => h1 h.symm
    simp only [h1, h1', if_false]
    by_cases h2 : a = j
    · subst h2; simp [ha, List.getElem?_eq_getElem hb]
    · have h2' : ¬ j = a := fun h => h2 h.symm
      simp [h2, h2']

/-- A slice whose outer `n / 2` positions on both sides are mirrored is the
reversed slice. -/
theorem mirrored_eq_reverse (orig s : List Int) (i : Nat) (hlen : s.length = orig.length)
    (hi : i = orig.length / 2)
    (hm : ∀ j, j < orig.length → s[j]? =
      if j < i ∨ orig.length - 1 - i < j then orig[orig.length - 1 - j]? else orig[j]?) :
    s = orig.reverse := by
  apply List.ext_getElem?
  intro j
  by_cases hj : j < orig.length
  · rw [hm j hj, List.getElem?_reverse hj]
    split
    · rfl
    · rename_i hc
      have : orig.length - 1 - j = j := by omega
      rw [this]
  · have h1 : s.length ≤ j := by omega
    have h2 : orig.reverse.length ≤ j := by simp; omega
    rw [List.getElem?_eq_none h1, List.getElem?_eq_none h2]

theorem reverseLoop_eq_reverse (orig : List Int) :
    ∀ (fuel i : Nat) (s : List Int), s.length = orig.length → i ≤ orig.length / 2 →
      orig.length / 2 ≤ i + fuel →
      (∀ j, j < orig.length → s[j]? =
        if j < i ∨ orig.length - 1 - i < j then orig[orig.length - 1 - j]? else orig[j]?) →
      reverseLoop orig.length fuel i s = orig.reverse := by
  intro fuel
  induction fuel with
  | zero =>
    intro i s hlen hi hfuel hm
    exact mirrored_eq_reverse orig s i hlen (by omega) hm
  | succ fuel ih =>
    intro i s hlen hi hfuel hm
    unfold reverseLoop
    split
    · rename_i hlt
      have hia : i < s.length := by omega
      have hib : orig.length - i - 1 < s.length := by omega
      apply ih (i + 1) _ (by rw [swapAt_length]; exact hlen) (by omega) (by omega)
      intro j hj
      rw [swapAt_getElem? s i (orig.length - i - 1) j hia hib]
      by_cases h1 : j = orig.length - i - 1
      · have hc : j < i + 1 ∨ orig.length - 1 - (i + 1) < j := Or.inr (by omega)
        have hc0 : ¬ (i < i ∨ orig.length - 1 - i < i) := by omega
        have hx : orig.length - 1 - j = i := by omega
        rw [if_pos h1, if_pos hc, hm i (by omega), if_neg hc0, hx]
      · by_cases h2 : j = i
        · have hc : j < i + 1 ∨ orig.length - 1 - (i + 1) < j := Or.inl (by omega)
          have hc0 : ¬ (orig.length - i - 1 < i ∨
              orig.length - 1 - i < orig.length - i - 1) := by omega
          have hx : orig.length - 1 - j = orig.length - i - 1 := by omega
          rw [if_neg h1, if_pos h2, if_pos hc, hm _ (by omega), if_neg hc0, hx]
        · rw [if_neg h1, if_neg h2, hm j hj]
          have hiff : (j < i ∨ orig.length - 1 - i < j) ↔
              (j < i + 1 ∨ orig.length - 1 - (i + 1) < j) := by omega
          simp only [hiff]
    · exact mirrored_eq_reverse orig s i hlen (by omega) hm

/-- The in-place loop of `reverse` reverses the slice. -/
theorem reverse_eq (slice : List Int) : reverse slice = slice.reverse := by
  unfold reverse
  apply reverseLoop_eq_reverse slice slice.length 0 slice rfl (Nat.zero_le _) (by omega)
  intro j hj
  have hc : ¬ (j < 0 ∨ slice.length - 1 - 0 < j) := by omega
  rw [if_neg hc]

/-! ## The coordinator -/

/-- Two transitions of the coordinator, taken when both results are there,
compute `Bfs.collect`. -/
theorem coordStep_collect (s : Sys) (uRes vRes : Option (List Int)) (pick pick2 : Bool)
    (hf : s.fault = none) (hc : s.coord = Coord.selecting)
    (hu : s.uResult = some uRes) (hv : s.vResult = some vRes) :
    (∀ r, Bfs.collect pick uRes vRes = Except.ok r →
      (coordStep pick2 (coordStep pick s)).coord = Coord.returned r ∧
      (coordStep pick2 (coordStep pick s)).fault = none) ∧
    (∀ f, Bfs.collect pick uRes vRes = Except.error f →
      (coordStep pick2 (coordStep pick s)).fault = some f) := by
  have hjoin : ∀ (a b : Option (List Int)) (t : Sys), t.fault = none →
      (∀ r, joinPaths a b = Except.ok r →
        (t.finish a b).coord = Coord.returned r ∧ (t.finish a b).fault = none) ∧
      (∀ f, joinPaths a b = Except.error f → (t.finish a b).fault = some f) := by
    intro a b t ht
    unfold Sys.finish
    cases joinPaths a b <;> simp [ht]
  cases pick
  · cases vRes with
    | none =>
      simp [coordStep, Bfs.collect, hf, hc, hu, hv, Sys.takeV]
    | some q =>
      have h1 : coordStep false s = { s with coord := Coord.awaitU q } := by
        simp [coordStep, hf, hc, hu, hv, Sys.takeV]
      have h2 : coordStep pick2 { s with coord := Coord.awaitU q }
          = Sys.finish { s with coord := Coord.awaitU q } uRes (some q) := by
        simp [coordStep, hf, hu]
      have := hjoin uRes (some q) { s with coord := Coord.awaitU q } hf
      simpa [h1, h2, Bfs.collect] using this
  · cases uRes with
    | none =>
      simp [coordStep, Bfs.collect, hf, hc, hu, hv, Sys.takeU]
    | some q =>
      have h1 : coordStep true s = { s with coord := Coord.awaitV q } := by
        simp [coordStep, hf, hc, hu, hv, Sys.takeU]
      have h2 : coordStep pick2 { s with coord := Coord.awaitV q }
          = Sys.finish { s with coord := Coord.awaitV q } (some q) vRes := by
        simp [coordStep, hf, hv]
      have := hjoin (some q) vRes { s with coord := Coord.awaitV q } hf
      simpa [h1, h2, Bfs.collect] using this

/-- **C9.** For half-paths `uPath = pathFrom(predU, m, u)` and
`vPath = pathFrom(predV, m, v)` with the same first element `m`, and whichever
of the two results the coordinator receives first, `Bfs` returns
`reverse(uPath)` followed by `vPath` without its first element: a sequence that
starts with `u`, ends with `v`, has length `|uPath| + |vPath| - 1`, and holds
`m` exactly once, at the join. -/
theorem Bfs_joins_half_paths (predU predV : GoMap Int) (m u v : Int) (uPath vPath : List Int)
    (hu : pathFrom predU m u = PathResult.path uPath)
    (hv : pathFrom predV m v = PathResult.path vPath) (uFirst : Bool) :
    Bfs.collect uFirst (some uPath) (some vPath)
        = Except.ok (some (reverse uPath ++ vPath.tail)) ∧
      reverse uPath = uPath.reverse ∧
      (reverse uPath ++ vPath.tail).head? = some u ∧
      (reverse uPath ++ vPath.tail).getLast? = some v ∧
      (reverse uPath ++ vPath.tail).length = uPath.length + vPath.length - 1 ∧
      (reverse uPath ++ vPath.tail).count m = 1 ∧
      (reverse uPath ++ vPath.tail)[uPath.length - 1]? = some m := by
  obtain ⟨hu1, hu2, _, hu4⟩ := pathFrom_path_props predU m u uPath hu
  obtain ⟨hv1, hv2, _, hv4⟩ := pathFrom_path_props predV m v vPath hv
  rw [reverse_eq]
  cases uPath with
  | nil => simp at hu1
  | cons a uRest =>
    cases vPath with
    | nil => simp at hv1
    | cons b vRest =>
      simp only [List.head?_cons, Option.some.injEq] at hu1 hv1
      subst hu1 hv1
      rw [List.nodup_cons] at hu4 hv4
      refine ⟨?_, rfl, ?_, ?_, ?_, ?_, ?_⟩
      · cases uFirst <;> simp [Bfs.collect, joinPaths, goAppend, reverse_eq]
      · rw [List.head?_append_of_ne_nil _ (by simp), List.head?_reverse, hu2]
      · simp only [List.tail_cons]
        cases vRest with
        | nil =>
          simp only [List.append_nil, List.getLast?_reverse, List.head?_cons]
          simpa using hv2
        | cons c vRest2 =>
          rw [List.getLast?_append_of_ne_nil _ (by simp)]
          rw [List.getLast?_cons_cons] at hv2
          exact hv2
      · simp; omega
      · simp only [List.tail_cons, List.reverse_cons, List.append_assoc, List.count_append,
          List.count_reverse]
        rw [List.count_eq_zero_of_not_mem hu4.1, List.count_eq_zero_of_not_mem hv4.1]
        simp
      · simp only [List.tail_cons, List.reverse_cons, List.append_assoc, List.length_cons,
          Nat.add_sub_cancel]
        rw [List.getElem?_append_right (by simp)]
        simp

/-- The witness of C9: the half-paths `[3, 2, 1]` and `[3, 4]` meet at `3`. -/
theorem Bfs_joins_half_paths_witness :
    Bfs.collect true (some [3, 2, 1]) (some [3, 4])
        = Except.ok (some (reverse [3, 2, 1] ++ [3, 4].tail)) ∧
      reverse [3, 2, 1] = [3, 2, 1].reverse ∧
      (reverse [3, 2, 1] ++ [3, 4].tail).head? = some 1 ∧
      (reverse [3, 2, 1] ++ [3, 4].tail).getLast? = some 4 ∧
      (reverse [3, 2, 1] ++ [3, 4].tail).length = [3, 2, 1].length + [3, 4].length - 1 ∧
      (reverse [3, 2, 1] ++ [3, 4].tail).count 3 = 1 ∧
      (reverse [3, 2, 1] ++ [3, 4].tail)[[3, 2, 1].length - 1]? = some 3 :=
  Bfs_joins_half_paths [(3, 2), (2, 1)] [(3, 4)] 3 1 4 [3, 2, 1] [3, 4]
    (by decide) (by decide) true

/-! ## The transition system -/

/-- Every transition of `peerStep` either leaves the state as it is or is one
of the transitions of `PeerTrans`. -/
theorem peerStep_trans (pick : Bool) (c : PeerCtx) :
    peerStep pick c = c ∨ PeerTrans c (peerStep pick c) := by
  obtain ⟨⟨start, frontier, visited, pred, graph, edgeCount, pc⟩, peerIn, peerOut, done,
    result, fault⟩ := c
  cases fault with
  | some f => left; simp [peerStep]
  | none =>
    cases pc with
    | select =>
      cases done with
      | some m =>
        by_cases hcond : (!peerIn.ready || pick) = true
        · right
          simp only [peerStep, Option.isSome_none, Bool.false_eq_true, if_false, hcond, if_true]
          exact PeerTrans.recvDone _ m rfl rfl rfl
        · right
          have hr : peerIn.ready = true := by
            cases h : peerIn.ready
            · simp [h] at hcond
            · rfl
          simp only [peerStep, Option.isSome_none, Bool.false_eq_true, if_false, hcond]
          exact PeerTrans.recvPeer _ rfl rfl hr
      | none =>
        by_cases hr : peerIn.ready = true
        · right
          simp only [peerStep, Option.isSome_none, Bool.false_eq_true, if_false, hr, if_true]
          exact PeerTrans.recvPeer _ rfl rfl hr
        · have hr2 : peerIn.ready = false := by simpa using hr
          cases frontier with
          | nil =>
            right
            simp only [peerStep, Option.isSome_none, Bool.false_eq_true, if_false, hr2]
            exact PeerTrans.frontierFault _ rfl rfl rfl hr2 rfl
          | cons next rest =>
            right
            simp only [peerStep, Option.isSome_none, Bool.false_eq_true, if_false, hr2]
            exact PeerTrans.dequeue _ next rest rfl rfl rfl hr2 rfl
    | expand next nbrs =>
      cases nbrs with
      | nil =>
        by_cases hfr : frontier.isEmpty = true
        · right
          simp only [peerStep, Option.isSome_none, Bool.false_eq_true, if_false, hfr, if_true]
          exact PeerTrans.exhausted _ next rfl rfl hfr
        · right
          simp only [peerStep, Option.isSome_none, Bool.false_eq_true, if_false, hfr]
          exact PeerTrans.expanded _ next rfl rfl (by simpa using hfr)
      | cons n rest =>
        by_cases hv : hasKey visited n = true
        · right
          simp only [peerStep, Option.isSome_none, Bool.false_eq_true, if_false, hv, if_true]
          exact PeerTrans.skip _ next n rest rfl rfl hv
        · by_cases hroom : peerOut.hasRoom = true
          · right
            simp only [peerStep, Option.isSome_none, Bool.false_eq_true, if_false, hv, hroom,
              if_true]
            exact PeerTrans.discover _ next n rest rfl rfl (by simpa using hv) hroom
          · left
            simp only [peerStep, Option.isSome_none, Bool.false_eq_true, if_false, hv, hroom]
    | announce other =>
      cases done with
      | none =>
        right
        simp only [peerStep, Option.isSome_none, Bool.false_eq_true, if_false]
        exact PeerTrans.announce _ other rfl rfl rfl
      | some _ => left; simp [peerStep]
    | report meet =>
      right
      cases hp : pathFrom pred meet start with
      | path p =>
        simp only [peerStep, Option.isSome_none, Bool.false_eq_true, if_false, hp]
        exact PeerTrans.report _ meet p rfl rfl hp
      | cycleFault =>
        simp only [peerStep, Option.isSome_none, Bool.false_eq_true, if_false, hp]
        exact PeerTrans.reportFault _ meet rfl rfl (by intro p h; simp only at h; rw [hp] at h; cases h)
      | outOfFuel =>
        simp only [peerStep, Option.isSome_none, Bool.false_eq_true, if_false, hp]
        exact PeerTrans.reportFault _ meet rfl rfl (by intro p h; simp only at h; rw [hp] at h; cases h)
    | exiting =>
      right
      simp only [peerStep, Option.isSome_none, Bool.false_eq_true, if_false]
      exact PeerTrans.close _ rfl rfl
    | halted => left; simp [peerStep]

/-! ## Preservation of the peer-local invariant -/

theorem hasKey_set {β : Type} (m : GoMap β) (k x : Int) (v : β) :
    hasKey (m.set k v) x = (decide (x = k) || hasKey m x) := by
  unfold hasKey
  rw [GoMap.get?_set]
  by_cases h : x = k <;> simp [h]

theorem isVisited_hasKey (visited : GoMap Bool) (x : Int) (h : isVisited visited x = true) :
    hasKey visited x = true := by
  unfold isVisited at h
  unfold hasKey
  cases hg : visited.get? x with
  | none => rw [hg] at h; simp at h
  | some b => rfl

theorem neighborsOf_del_sub (g : GoMap (List Int)) (n k x : Int)
    (h : x ∈ neighborsOf (g.del n) k) : x ∈ neighborsOf g k := by
  unfold neighborsOf at h ⊢
  rw [GoMap.get?_del] at h
  by_cases hk : k = n
  · simp [hk] at h
  · simpa [hk] using h

theorem predOf_of_get? (pred : GoMap Int) (k n : Int) (h : pred.get? k = some n) :
    predOf pred k = n := by
  simp [predOf, h]

theorem hasKey_get? {β : Type} (m : GoMap β) (k : Int) (h : hasKey m k = true) :
    ∃ v, m.get? k = some v := by
  unfold hasKey at h
  exact Option.isSome_iff_exists.mp h

/-- A peer that has met `m`, and whose `pred` entries are edges out of met
nodes, gets from `pathFrom(pred, m, start)` a non-empty slice that walks
against edges. -/
theorem pathFrom_backWalk (graph : GoMap (List Int)) (me : Peer) (m : Int) (p : List Int)
    (hedge : ∀ k n, me.pred.get? k = some n → k ∈ neighborsOf graph n ∧ Known me n)
    (hm : Known me m) (hp : pathFrom me.pred m me.start = PathResult.path p) :
    p ≠ [] ∧ BackWalk graph p ∧ p.getLast? = some me.start := by
  have hlast := (pathFrom_path_props _ _ _ _ hp).2.1
  obtain ⟨n, rfl, _, hne, _⟩ := pathFrom_path_shape me.pred m me.start p hp
  have hknown : ∀ k, k ≤ n → Known me (follow me.pred m k) := by
    intro k
    induction k with
    | zero => intro _; exact hm
    | succ k ih =>
      intro hk
      have hk1 := ih (by omega)
      rcases hk1 with h | h
      · exact absurd h (hne k (by omega))
      · obtain ⟨w, hw⟩ := hasKey_get? _ _ h
        rw [follow_succ_last, predOf_of_get? _ _ _ hw]
        exact (hedge _ _ hw).2
  refine ⟨by simp, ?_, hlast⟩
  unfold BackWalk
  rw [List.chain'_iff_get]
  intro i hi
  simp only [List.length_map, List.length_range] at hi
  simp only [List.get_eq_getElem, List.getElem_map, List.getElem_range]
  rcases hknown i (by omega) with h | h
  · exact absurd h (hne i (by omega))
  · obtain ⟨w, hw⟩ := hasKey_get? _ _ h
    rw [follow_succ_last, predOf_of_get? _ _ _ hw]
    exact (hedge _ _ hw).1

theorem Known.set {me : Peer} {x : Int} (h : Known me x) (n next : Int) (me2 : Peer)
    (hs : me2.start = me.start) (hp : me2.pred = me.pred.set n next) : Known me2 x := by
  rcases h with h | h
  · exact Or.inl (by rw [hs]; exact h)
  · exact Or.inr (by rw [hp, hasKey_set, h]; simp)

/-- A transition of a peer keeps its local invariant. -/
theorem Local.peer_step {graph : GoMap (List Int)} {c c2 : PeerCtx} (hL : Local graph c)
    (hD : ∀ m, c.done = some m → Known c.me m ∨ c.me.pc = Pc.halted)
    (ht : PeerTrans c c2) : Local graph c2 := by
  cases ht with
  | recvDone m hf hpc hd =>
    refine ⟨hL.graph_sub, hL.pred_edge, ?_, hL.frontier_known, hL.visited_known, hL.sent_pred,
      ?_, hL.result_walk, ?_, ?_, ?_⟩
    · intro next rest h; cases h
    · intro m2 h
      rcases h with h | h
      · cases h
        rcases hD m hd with h2 | h2
        · exact h2
        · rw [hpc] at h2; cases h2
      · cases h
    · intro h; have := hL.closed_halted h; rw [hpc] at this; cases this
    · intro h; have := hL.result_late h; rw [hpc] at this; rcases this with h | h <;> cases h
    · intro h; cases h
  | recvPeer hf hpc hr =>
    refine ⟨hL.graph_sub, hL.pred_edge, ?_, hL.frontier_known, hL.visited_known, hL.sent_pred,
      ?_, hL.result_walk, ?_, ?_, ?_⟩
    · intro next rest h
      simp only at h
      split at h <;> cases h
    · intro m2 h
      simp only at h
      split at h
      · rename_i hv
        rcases h with h | h
        · cases h
        · cases h
          exact hL.visited_known _ (isVisited_hasKey _ _ hv)
      · rcases h with h | h <;> cases h
    · intro h; have := hL.closed_halted h; rw [hpc] at this; cases this
    · intro h; have := hL.result_late h; rw [hpc] at this; rcases this with h | h <;> cases h
    · intro h; exact hL.select_frontier hpc
  | dequeue next rest hf hpc hd hr hfr =>
    refine ⟨hL.graph_sub, hL.pred_edge, ?_, ?_, hL.visited_known, hL.sent_pred,
      ?_, hL.result_walk, ?_, ?_, ?_⟩
    · intro next2 rest2 h
      cases h
      exact ⟨hL.frontier_known next (by rw [hfr]; simp), fun x hx => hL.graph_sub _ _ hx⟩
    · intro x hx
      exact hL.frontier_known x (by rw [hfr]; exact List.mem_cons_of_mem _ hx)
    · intro m2 h; rcases h with h | h <;> cases h
    · intro h; have := hL.closed_halted h; rw [hpc] at this; cases this
    · intro h; have := hL.result_late h; rw [hpc] at this; rcases this with h | h <;> cases h
    · intro h; cases h
  | frontierFault hf hpc hd hr hfr => exact ⟨hL.graph_sub, hL.pred_edge, hL.expand_ok,
      hL.frontier_known, hL.visited_known, hL.sent_pred, hL.meet_known, hL.result_walk,
      hL.closed_halted, hL.result_late, hL.select_frontier⟩
  | skip next n rest hf hpc hv =>
    refine ⟨hL.graph_sub, hL.pred_edge, ?_, hL.frontier_known, hL.visited_known, hL.sent_pred,
      ?_, hL.result_walk, ?_, ?_, ?_⟩
    · intro next2 rest2 h
      cases h
      have := hL.expand_ok _ _ hpc
      exact ⟨this.1, fun x hx => this.2 x (List.mem_cons_of_mem _ hx)⟩
    · intro m2 h; rcases h with h | h <;> cases h
    · intro h; have := hL.closed_halted h; rw [hpc] at this; cases this
    · intro h; have := hL.result_late h; rw [hpc] at this; rcases this with h | h <;> cases h
    · intro h; cases h
  | discover next n rest hf hpc hv hroom =>
    have hexp := hL.expand_ok _ _ hpc
    have hmono : ∀ x, Known c.me x → Known
        { c.me with edgeCount := c.me.edgeCount + 1, pred := c.me.pred.set n next,
                    frontier := c.me.frontier ++ [n], graph := c.me.graph.del next,
                    pc := Pc.expand next rest } x :=
      fun x hx => hx.set n next _ rfl rfl
    refine ⟨?_, ?_, ?_, ?_, ?_, ?_, ?_, hL.result_walk, ?_, ?_, ?_⟩
    · intro k x hx
      exact hL.graph_sub _ _ (neighborsOf_del_sub _ _ _ _ hx)
    · intro k n2 h
      simp only [GoMap.get?_set] at h
      split at h
      · rename_i hk
        cases h
        subst hk
        exact ⟨hexp.2 _ (by simp), hmono _ hexp.1⟩
      · exact ⟨(hL.pred_edge _ _ h).1, hmono _ (hL.pred_edge _ _ h).2⟩
    · intro next2 rest2 h
      cases h
      exact ⟨hmono _ hexp.1, fun x hx => hexp.2 x (List.mem_cons_of_mem _ hx)⟩
    · intro x hx
      simp only [List.mem_append, List.mem_singleton] at hx
      rcases hx with hx | hx
      · exact hmono _ (hL.frontier_known x hx)
      · subst hx
        exact Or.inr (by simp [hasKey_set])
    · intro x hx
      exact hmono _ (hL.visited_known x hx)
    · intro x hx
      simp only [Chan.push, List.mem_append, List.mem_singleton] at hx
      rcases hx with hx | hx
      · simp [hasKey_set, hL.sent_pred x hx]
      · subst hx
        simp [hasKey_set]
    · intro m2 h; rcases h with h | h <;> cases h
    · intro h
      have := hL.closed_halted h; rw [hpc] at this; cases this
    · intro h; have := hL.result_late h; rw [hpc] at this; rcases this with h | h <;> cases h
    · intro h; cases h
  | exhausted next hf hpc hfr =>
    have hexp := hL.expand_ok _ _ hpc
    refine ⟨hL.graph_sub, hL.pred_edge, ?_, hL.frontier_known, ?_, hL.sent_pred,
      ?_, ?_, ?_, ?_, ?_⟩
    · intro next2 rest2 h; cases h
    · intro x hx
      simp only [hasKey_set, Bool.or_eq_true, decide_eq_true_eq] at hx
      rcases hx with hx | hx
      · subst hx; exact hexp.1
      · exact hL.visited_known x hx
    · intro m2 h; rcases h with h | h <;> cases h
    · intro p h; cases h
    · intro h; have := hL.closed_halted h; rw [hpc] at this; cases this
    · intro _; exact Or.inl rfl
    · intro h; cases h
  | expanded next hf hpc hfr =>
    have hexp := hL.expand_ok _ _ hpc
    refine ⟨hL.graph_sub, hL.pred_edge, ?_, hL.frontier_known, ?_, hL.sent_pred,
      ?_, hL.result_walk, ?_, ?_, ?_⟩
    · intro next2 rest2 h; cases h
    · intro x hx
      simp only [hasKey_set, Bool.or_eq_true, decide_eq_true_eq] at hx
      rcases hx with hx | hx
      · subst hx; exact hexp.1
      · exact hL.visited_known x hx
    · intro m2 h; rcases h with h | h <;> cases h
    · intro h; have := hL.closed_halted h; rw [hpc] at this; cases this
    · intro h; have := hL.result_late h; rw [hpc] at this; rcases this with h | h <;> cases h
    · intro _ h; rw [h] at hfr; cases hfr
  | announce other hf hpc hd =>
    refine ⟨hL.graph_sub, hL.pred_edge, ?_, hL.frontier_known, hL.visited_known, hL.sent_pred,
      ?_, hL.result_walk, ?_, ?_, ?_⟩
    · intro next2 rest2 h; cases h
    · intro m2 h
      rcases h with h | h
      · cases h; exact hL.meet_known _ (Or.inr hpc)
      · cases h
    · intro h; have := hL.closed_halted h; rw [hpc] at this; cases this
    · intro h; have := hL.result_late h; rw [hpc] at this; rcases this with h | h <;> cases h
    · intro h; cases h
  | report meet p hf hpc hp =>
    refine ⟨hL.graph_sub, hL.pred_edge, ?_, hL.frontier_known, hL.visited_known, hL.sent_pred,
      ?_, ?_, ?_, ?_, ?_⟩
    · intro next2 rest2 h; cases h
    · intro m2 h; rcases h with h | h <;> cases h
    · intro p2 h
      cases h
      exact pathFrom_backWalk graph c.me meet p hL.pred_edge (hL.meet_known _ (Or.inl hpc)) hp
    · intro h; have := hL.closed_halted h; rw [hpc] at this; cases this
    · intro _; exact Or.inl rfl
    · intro h; cases h
  | reportFault meet hf hpc hp => exact ⟨hL.graph_sub, hL.pred_edge, hL.expand_ok,
      hL.frontier_known, hL.visited_known, hL.sent_pred, hL.meet_known, hL.result_walk,
      hL.closed_halted, hL.result_late, hL.select_frontier⟩
  | close hf hpc =>
    refine ⟨hL.graph_sub, hL.pred_edge, ?_, hL.frontier_known, hL.visited_known, hL.sent_pred,
      ?_, hL.result_walk, ?_, ?_, ?_⟩
    · intro next2 rest2 h; cases h
    · intro m2 h; rcases h with h | h <;> cases h
    · intro _; rfl
    · intro _; exact Or.inr rfl
    · intro h; cases h

/-! ## Preservation of the invariant of the two peers -/

theorem PeerTrans.start_eq {c c2 : PeerCtx} (ht : PeerTrans c c2) : c2.me.start = c.me.start := by
  cases ht <;> rfl

theorem PeerTrans.pred_mono {c c2 : PeerCtx} (ht : PeerTrans c c2) (x : Int)
    (h : hasKey c.me.pred x = true) : hasKey c2.me.pred x = true := by
  cases ht <;> first | exact h | (simp [hasKey_set, h])

theorem PeerTrans.known_mono {c c2 : PeerCtx} (ht : PeerTrans c c2) (x : Int)
    (h : Known c.me x) : Known c2.me x := by
  rcases h with h | h
  · exact Or.inl (by rw [ht.start_eq]; exact h)
  · exact Or.inr (ht.pred_mono x h)

theorem PeerTrans.closed_mono {c c2 : PeerCtx} (ht : PeerTrans c c2)
    (h : c.peerOut.closed = true) : c2.peerOut.closed = true := by
  cases ht <;> first | exact h | rfl

theorem PeerTrans.peerIn_cases {c c2 : PeerCtx} (ht : PeerTrans c c2) :
    c2.peerIn = c.peerIn ∨ c2.peerIn = c.peerIn.pop := by
  cases ht <;> first | exact Or.inl rfl | exact Or.inr rfl

theorem PeerTrans.not_halted {c c2 : PeerCtx} (ht : PeerTrans c c2) : c.me.pc ≠ Pc.halted := by
  cases ht <;> (intro h; simp_all)

theorem PeerTrans.result_stable {graph : GoMap (List Int)} {c c2 : PeerCtx}
    (hL : Local graph c) (ht : PeerTrans c c2) (r : Option (List Int))
    (h : c.result = some r) : c2.result = some r := by
  have hlate := hL.result_late (by rw [h]; simp)
  cases ht <;> first | exact h | simp_all

/-- The partner keeps its local invariant when the peer moves. -/
theorem Local.local_sync {graph : GoMap (List Int)} {c c2 d : PeerCtx} (hd : Local graph d)
    (hl : Linked c d) (ht : PeerTrans c c2) : Local graph (d.sync c2) := by
  have hin := ht.peerIn_cases
  rw [hl.1] at hin
  refine ⟨hd.graph_sub, hd.pred_edge, hd.expand_ok, hd.frontier_known, hd.visited_known, ?_,
    hd.meet_known, hd.result_walk, ?_, hd.result_late, hd.select_frontier⟩
  · intro x hx
    apply hd.sent_pred
    simp only [PeerCtx.sync] at hx
    rcases hin with h | h
    · rw [h] at hx; exact hx
    · rw [h] at hx; exact List.mem_of_mem_tail hx
  · intro h
    apply hd.closed_halted
    simp only [PeerCtx.sync] at h
    rcases hin with h2 | h2
    · rw [h2] at h; exact h
    · rw [h2] at h; exact h

theorem meetOf_sync (d c2 : PeerCtx) : meetOf (d.sync c2) = meetOf d := rfl

theorem meetOf_of_not_late {graph : GoMap (List Int)} {c : PeerCtx} (hL : Local graph c)
    (h1 : c.me.pc ≠ Pc.exiting) (h2 : c.me.pc ≠ Pc.halted) (h3 : ∀ m, c.me.pc ≠ Pc.report m) :
    meetOf c = none := by
  have hr : c.result = none := by
    by_contra h
    rcases hL.result_late h with h | h
    · exact h1 h
    · exact h2 h
  unfold meetOf
  rw [hr]
  cases hpc : c.me.pc <;> simp
  exact absurd hpc (h3 _)

/-- What a transition does to `done` and to the meeting point the peer has
committed to. -/
theorem PeerTrans.done_cases {graph : GoMap (List Int)} {c c2 : PeerCtx}
    (hL : Local graph c) (ht : PeerTrans c c2) :
    (c2.done = c.done ∧ meetOf c2 = meetOf c) ∨
    (∃ m, c.me.pc = Pc.select ∧ c.done = some m ∧ c2.done = none ∧
      meetOf c = none ∧ meetOf c2 = some m) ∨
    (∃ m, c.me.pc = Pc.announce m ∧ c.done = none ∧ c2.done = some m ∧
      meetOf c = none ∧ meetOf c2 = some m) := by
  have hnone : ∀ {c : PeerCtx}, Local graph c → ∀ {pc}, c.me.pc = pc → pc ≠ Pc.exiting →
      pc ≠ Pc.halted → (∀ m, pc ≠ Pc.report m) → meetOf c = none := by
    intro c hL pc hpc h1 h2 h3
    exact meetOf_of_not_late hL (hpc ▸ h1) (hpc ▸ h2) (fun m => hpc ▸ h3 m)
  cases ht with
  | recvDone m hf hpc hd =>
    right; left
    exact ⟨m, hpc, hd, rfl,
      hnone hL hpc (by simp) (by simp) (by simp), rfl⟩
  | recvPeer hf hpc hr =>
    left
    refine ⟨rfl, ?_⟩
    have h0 := hnone hL hpc (by simp) (by simp) (by simp)
    have hres : c.result = none := by
      by_contra h
      have := hL.result_late h
      rw [hpc] at this
      rcases this with h | h <;> cases h
    rw [h0]
    unfold meetOf
    simp only [hres]
    by_cases hv : isVisited c.me.visited c.peerIn.front = true <;> simp [hv]
  | dequeue next rest hf hpc hd hr hfr =>
    left
    refine ⟨rfl, ?_⟩
    rw [hnone hL hpc (by simp) (by simp) (by simp)]
    have hres : c.result = none := by
      by_contra h
      have := hL.result_late h
      rw [hpc] at this
      rcases this with h | h <;> cases h
    simp [meetOf, hres]
  | frontierFault hf hpc hd hr hfr => left; exact ⟨rfl, rfl⟩
  | skip next n rest hf hpc hv =>
    left
    refine ⟨rfl, ?_⟩
    rw [hnone hL hpc (by simp) (by simp) (by simp)]
    have hres : c.result = none := by
      by_contra h
      have := hL.result_late h
      rw [hpc] at this
      rcases this with h | h <;> cases h
    simp [meetOf, hres]
  | discover next n rest hf hpc hv hroom =>
    left
    refine ⟨rfl, ?_⟩
    rw [hnone hL hpc (by simp) (by simp) (by simp)]
    have hres : c.result = none := by
      by_contra h
      have := hL.result_late h
      rw [hpc] at this
      rcases this with h | h <;> cases h
    simp [meetOf, hres]
  | exhausted next hf hpc hfr =>
    left
    refine ⟨rfl, ?_⟩
    rw [hnone hL hpc (by simp) (by simp) (by simp)]
    simp [meetOf]
  | expanded next hf hpc hfr =>
    left
    refine ⟨rfl, ?_⟩
    rw [hnone hL hpc (by simp) (by simp) (by simp)]
    have hres : c.result = none := by
      by_contra h
      have := hL.result_late h
      rw [hpc] at this
      rcases this with h | h <;> cases h
    simp [meetOf, hres]
  | announce other hf hpc hd =>
    right; right
    exact ⟨other, hpc, hd, rfl, hnone hL hpc (by simp) (by simp) (by simp), rfl⟩
  | report meet p hf hpc hp =>
    left
    refine ⟨rfl, ?_⟩
    have h1 : meetOf c = some meet := by simp [meetOf, hpc]
    rw [h1]
    simp [meetOf, (pathFrom_path_props _ _ _ _ hp).1]
  | reportFault meet hf hpc hp => left; exact ⟨rfl, rfl⟩
  | close hf hpc =>
    left
    refine ⟨rfl, ?_⟩
    simp [meetOf, hpc]

theorem PeerTrans.announce_cases {c c2 : PeerCtx} (ht : PeerTrans c c2) (m : Int)
    (h : c2.me.pc = Pc.announce m) :
    c.peerIn.ready = true ∧ m = c.peerIn.front ∧ c2.peerIn = c.peerIn.pop := by
  cases ht with
  | recvPeer hf hpc hr =>
    simp only at h
    split at h
    · cases h; exact ⟨hr, rfl, rfl⟩
    · cases h
  | _ => simp_all

/-- A transition of one peer keeps the invariant of the two peers. -/
theorem NetInv.net_step {graph : GoMap (List Int)} {c d c2 : PeerCtx} (h : NetInv graph c d)
    (hl : Linked c d) (ht : PeerTrans c c2) : NetInv graph c2 (d.sync c2) := by
  have hL2 := h.left.peer_step h.done_left ht
  have hR2 := h.right.local_sync hl ht
  refine ⟨hL2, hR2, ?_, ?_, ?_, ?_, ?_⟩
  · intro m hm
    obtain ⟨hr, rfl, hin⟩ := ht.announce_cases m hm
    rw [hin]
    cases hbuf : c.peerIn.buf with
    | nil =>
      right
      simpa [Chan.ready, Chan.pop, hbuf] using hr
    | cons x t =>
      left
      apply h.right.sent_pred
      rw [← hl.1, hbuf]
      simp [Chan.front, hbuf]
  · intro m hm
    rcases h.announce_right m hm with h1 | h1
    · exact Or.inl (ht.pred_mono m h1)
    · right
      rw [← hl.2.1] at h1
      exact ht.closed_mono h1
  · intro m hm
    rcases ht.done_cases h.left with ⟨hd, _⟩ | ⟨m2, _, _, hd, _⟩ | ⟨m2, hpc, _, hd, _⟩
    · rw [hd] at hm
      rcases h.done_left m hm with k | k
      · exact Or.inl (ht.known_mono m k)
      · exact absurd k ht.not_halted
    · rw [hd] at hm; cases hm
    · rw [hd] at hm; cases hm
      exact Or.inl (ht.known_mono _ (h.left.meet_known _ (Or.inr hpc)))
  · intro m hm
    rcases ht.done_cases h.left with ⟨hd, _⟩ | ⟨m2, _, _, hd, _⟩ | ⟨m2, hpc, _, hd, _⟩
    · rw [hd] at hm
      exact h.done_right m hm
    · rw [hd] at hm; cases hm
    · rw [hd] at hm; cases hm
      rcases h.announce_left _ hpc with k | k
      · exact Or.inl (Or.inr k)
      · right
        rw [hl.1] at k
        exact h.right.closed_halted k
  · have hph := h.phase
    rw [meetOf_sync]
    rcases ht.done_cases h.left with ⟨hd, hm⟩ | ⟨m2, _, hd1, hd, hm1, hm2⟩ |
      ⟨m2, hpc, hd1, hd, hm1, hm2⟩
    · rw [hd, hm]; exact hph
    · rw [hd1] at hph
      rw [hd, hm2]
      simp only [hm1] at hph
      rcases hph with ⟨k, _⟩ | ⟨_, k⟩
      · cases k
      · exact k.symm
    · rw [hd1] at hph
      rw [hd, hm2]
      simp only [hm1] at hph
      exact Or.inl ⟨rfl, hph.symm⟩

/-- The invariant of the two peers does not depend on which one is called the
first. -/
theorem NetInv.net_symm {graph : GoMap (List Int)} {c d : PeerCtx} (h : NetInv graph c d)
    (hl : Linked c d) : NetInv graph d c := by
  refine ⟨h.right, h.left, h.announce_right, h.announce_left, ?_, ?_, ?_⟩
  · intro m hm; rw [← hl.2.2.1] at hm; exact h.done_right m hm
  · intro m hm; rw [← hl.2.2.1] at hm; exact h.done_left m hm
  · have hph := h.phase
    rw [← hl.2.2.1]
    cases hd : c.done with
    | none => rw [hd] at hph; exact hph.symm
    | some m =>
      rw [hd] at hph
      rcases hph with ⟨k1, k2⟩ | ⟨k1, k2⟩
      · exact Or.inr ⟨k2, k1⟩
      · exact Or.inl ⟨k2, k1⟩

/-! ## `copyMap` -/

theorem copyMap_fold_get? (g : GoMap (List Int)) (k : Int) :
    ∀ (ks : List Int) (acc : GoMap (List Int)), ks.Nodup → (∀ a ∈ ks, acc.get? a = none) →
      (ks.foldl (fun result a => result.set a (neighborsOf result a ++ neighborsOf g a)) acc).get? k
        = if k ∈ ks then some (neighborsOf g k) else acc.get? k := by
  intro ks
  induction ks with
  | nil => intro acc _ _; simp
  | cons a ks ih =>
    intro acc hnd hacc
    rw [List.nodup_cons] at hnd
    have ha : neighborsOf acc a = [] := by
      simp [neighborsOf, hacc a (by simp)]
    rw [List.foldl_cons, ha, List.nil_append,
      ih (acc.set a (neighborsOf g a)) hnd.2 (fun b hb => by
        rw [GoMap.get?_set]
        have hne : b ≠ a := fun h => hnd.1 (h ▸ hb)
        simp [hne, hacc b (List.mem_cons_of_mem _ hb)])]
    rw [GoMap.get?_set]
    by_cases hk : k ∈ ks
    · simp [hk]
    · by_cases hka : k = a
      · subst hka; simp
      · simp [hk, hka]

/-- The copy made by `copyMap` answers every lookup as the source does. -/
theorem copyMap_get? (g : GoMap (List Int)) (k : Int) : (copyMap g).get? k = g.get? k := by
  unfold copyMap
  rw [copyMap_fold_get? g k g.keys [] (List.nodup_dedup _) (fun _ _ => rfl)]
  unfold GoMap.keys neighborsOf GoMap.get?
  by_cases hk : k ∈ (List.map Prod.fst g).dedup
  · rw [if_pos hk]
    rw [List.mem_dedup, List.mem_map] at hk
    obtain ⟨⟨a, b⟩, hmem, rfl⟩ := hk
    cases hl : List.lookup a g with
    | none =>
      rw [List.lookup_eq_none_iff] at hl
      have := hl (a, b) hmem
      simp at this
    | some l => rfl
  · rw [if_neg hk]
    rw [List.mem_dedup, List.mem_map] at hk
    have hnone : List.lookup k g = none := by
      rw [List.lookup_eq_none_iff]
      intro p hp
      simp only [bne_iff_ne, ne_eq]
      intro h
      exact hk ⟨p, hp, h.symm⟩
    rw [hnone]
    rfl

theorem neighborsOf_copyMap (g : GoMap (List Int)) (k : Int) :
    neighborsOf (copyMap g) k = neighborsOf g k := by
  unfold neighborsOf
  rw [copyMap_get?]

/-! ## The invariant holds in every state of a run of `Bfs` -/

theorem Sys.linked (s : Sys) : Linked s.ctxU s.ctxV := ⟨rfl, rfl, rfl, rfl⟩

theorem Sys.linked_symm (s : Sys) : Linked s.ctxV s.ctxU := ⟨rfl, rfl, rfl, rfl⟩

theorem Sys.putU_self (s : Sys) : s.putU s.ctxU = s := rfl

theorem Sys.putV_self (s : Sys) : s.putV s.ctxV = s := rfl

theorem meetOf_of_result {graph : GoMap (List Int)} {c : PeerCtx} (hL : Local graph c)
    (p : List Int) (h : c.result = some (some p)) : meetOf c = p.head? := by
  have := hL.result_late (by rw [h]; simp)
  unfold meetOf
  rcases this with k | k <;> simp [k, h]

/-- The join of two half-paths that start at the same node follows edges of
the graph. -/
theorem join_edgePath (graph : GoMap (List Int)) (uPath t : List Int) (b : Int)
    (hu : BackWalk graph uPath) (hv : BackWalk graph (b :: t)) (hb : uPath.head? = some b) :
    EdgePath graph (uPath.reverse ++ t) := by
  unfold EdgePath
  unfold BackWalk at hu hv
  apply List.Chain'.append
  · rw [List.chain'_reverse]
    exact hu.imp (fun a b h => Or.inl h)
  · exact (List.Chain'.tail hv).imp (fun a b h => Or.inr h)
  · intro x hx y hy
    rw [List.getLast?_reverse, hb] at hx
    cases hx
    cases t with
    | nil => simp at hy
    | cons z r =>
      simp only [List.head?_cons, Option.mem_def, Option.some.injEq] at hy
      subst hy
      exact Or.inr (List.chain'_cons.mp hv).1

theorem NetInv.fault_irrel {graph : GoMap (List Int)} {c d : PeerCtx} (h : NetInv graph c d)
    (f : Option Fault) : NetInv graph { c with fault := f } { d with fault := f } :=
  ⟨⟨h.left.graph_sub, h.left.pred_edge, h.left.expand_ok, h.left.frontier_known,
      h.left.visited_known, h.left.sent_pred, h.left.meet_known, h.left.result_walk,
      h.left.closed_halted, h.left.result_late, h.left.select_frontier⟩,
    ⟨h.right.graph_sub, h.right.pred_edge, h.right.expand_ok, h.right.frontier_known,
      h.right.visited_known, h.right.sent_pred, h.right.meet_known, h.right.result_walk,
      h.right.closed_halted, h.right.result_late, h.right.select_frontier⟩,
    h.announce_left, h.announce_right, h.done_left, h.done_right, h.phase⟩

/-- The two half-paths that the coordinator joins start at the same node. -/
theorem NetInv.heads_agree {graph : GoMap (List Int)} {c d : PeerCtx} (h : NetInv graph c d)
    (p q : List Int) (hp : c.result = some (some p)) (hq : d.result = some (some q)) :
    p.head? = q.head? := by
  have h1 := meetOf_of_result h.left p hp
  have h2 := meetOf_of_result h.right q hq
  have hp0 := (h.left.result_walk p hp).1
  have hq0 := (h.right.result_walk q hq).1
  have hph := h.phase
  rw [h1, h2] at hph
  cases hd : c.done with
  | none => rw [hd] at hph; exact hph
  | some m =>
    rw [hd] at hph
    rcases hph with ⟨_, k⟩ | ⟨k, _⟩
    · cases q with
      | nil => exact absurd rfl hq0
      | cons _ _ => simp at k
    · cases p with
      | nil => exact absurd rfl hp0
      | cons _ _ => simp at k

/-- Whatever the last line of `Bfs` returns follows edges of the graph and ends
at the start node of the v-peer; it starts at the start node of the u-peer
unless the u-peer reported nil. -/
theorem finish_path {graph : GoMap (List Int)} {s : Sys} (h : Inv graph s)
    (uRes vRes : Option (List Int)) (hu : s.uResult = some uRes) (hv : s.vResult = some vRes)
    (r : List Int) (hr : joinPaths uRes vRes = Except.ok (some r)) :
    EdgePath graph r ∧ r.getLast? = some s.vPeer.start ∧
      (uRes = none ∨ r.head? = some s.uPeer.start) := by
  cases vRes with
  | none => simp [joinPaths] at hr
  | some q =>
    cases q with
    | nil => simp [joinPaths] at hr
    | cons b t =>
      obtain ⟨_, hq, hqlast⟩ := h.1.right.result_walk (b :: t) hv
      have hqlast2 : (b :: t).getLast? = some s.vPeer.start := hqlast
      cases uRes with
      | none =>
        simp only [joinPaths, Option.map_none', Except.ok.injEq] at hr
        cases t with
        | nil => simp [goAppend] at hr
        | cons z w =>
          simp only [goAppend, Option.some.injEq] at hr
          subst hr
          refine ⟨(List.Chain'.tail hq).imp (fun a b h => Or.inr h), ?_, Or.inl rfl⟩
          rw [List.getLast?_cons_cons] at hqlast2
          exact hqlast2
      | some p =>
        simp only [joinPaths, Option.map_some', goAppend, Except.ok.injEq,
          Option.some.injEq] at hr
        subst hr
        rw [reverse_eq]
        obtain ⟨hp0, hp, hplast⟩ := h.1.left.result_walk p hu
        have hplast2 : p.getLast? = some s.uPeer.start := hplast
        have hb := h.1.heads_agree p (b :: t) hu hv
        refine ⟨join_edgePath graph p t b hp hq hb, ?_, Or.inr ?_⟩
        · cases t with
          | nil =>
            rw [List.append_nil, List.getLast?_reverse, hb]
            simpa using hqlast2
          | cons z w =>
            rw [List.getLast?_append_of_ne_nil _ (by simp)]
            rw [List.getLast?_cons_cons] at hqlast2
            exact hqlast2
        · rw [List.head?_append_of_ne_nil _ (by simpa using hp0), List.head?_reverse]
          exact hplast2

/-- A transition of the coordinator keeps the invariant. -/
theorem Inv.coordStep {graph : GoMap (List Int)} {s : Sys} (h : Inv graph s) (pick : Bool) :
    Inv graph (coordStep pick s) := by
  have hfin : ∀ (uRes vRes : Option (List Int)), s.uResult = some uRes → s.vResult = some vRes →
      (∀ p, s.coord ≠ Coord.returned p) → Inv graph (s.finish uRes vRes) := by
    intro uRes vRes hu hv hc
    unfold Sys.finish
    cases hj : joinPaths uRes vRes with
    | error f => exact ⟨h.1.fault_irrel _, h.2.await_v, h.2.await_u, h.2.returned_path⟩
    | ok r =>
      refine ⟨h.1, ?_, ?_, ?_⟩
      · intro p hp; cases hp
      · intro p hp; cases hp
      · intro p hp
        cases hp
        obtain ⟨h1, h2, h3⟩ := finish_path h uRes vRes hu hv p hj
        refine ⟨h1, h2, ?_⟩
        rcases h3 with h3 | h3
        · left; rw [hu, h3]
        · exact Or.inr h3
  have htakeU : ∀ uRes, s.uResult = some uRes → Inv graph (s.takeU uRes) := by
    intro uRes hu
    cases uRes with
    | none =>
      refine ⟨h.1, ?_, ?_, ?_⟩ <;> (intro p hp; cases hp)
    | some q =>
      refine ⟨h.1, ?_, ?_, ?_⟩
      · intro p hp; cases hp; exact hu
      · intro p hp; cases hp
      · intro p hp; cases hp
  have htakeV : ∀ vRes, s.vResult = some vRes → Inv graph (s.takeV vRes) := by
    intro vRes hv
    cases vRes with
    | none =>
      refine ⟨h.1, ?_, ?_, ?_⟩ <;> (intro p hp; cases hp)
    | some q =>
      refine ⟨h.1, ?_, ?_, ?_⟩
      · intro p hp; cases hp
      · intro p hp; cases hp; exact hv
      · intro p hp; cases hp
  unfold BidirectionalBfs.coordStep
  split
  · exact h
  · cases hc : s.coord with
    | selecting =>
      simp only
      cases hu : s.uResult with
      | none =>
        cases hv : s.vResult with
        | none => exact h
        | some vRes => exact htakeV vRes hv
      | some uRes =>
        cases hv : s.vResult with
        | none => exact htakeU uRes hu
        | some vRes =>
          simp only
          split
          · exact htakeU uRes hu
          · exact htakeV vRes hv
    | awaitV uPath =>
      simp only
      cases hv : s.vResult with
      | none => exact h
      | some vRes =>
        exact hfin (some uPath) vRes (h.2.await_v uPath hc) hv (by rw [hc]; intro p hp; cases hp)
    | awaitU vPath =>
      simp only
      cases hu : s.uResult with
      | none => exact h
      | some uRes =>
        exact hfin uRes (some vPath) hu (h.2.await_u vPath hc) (by rw [hc]; intro p hp; cases hp)
    | returned r => exact h

/-- A transition of the program keeps the invariant. -/
theorem Inv.sys_step {graph : GoMap (List Int)} {s : Sys} (h : Inv graph s) (l : Label) :
    Inv graph (step s l) := by
  unfold BidirectionalBfs.step
  cases l.actor with
  | u =>
    simp only
    rcases peerStep_trans l.pick s.ctxU with heq | ht
    · rw [heq]; exact h
    · refine ⟨h.1.net_step s.linked ht, ?_, h.2.await_u, ?_⟩
      · intro p hp
        exact ht.result_stable h.1.left _ (h.2.await_v p hp)
      · intro p hp
        obtain ⟨h1, h2, h3⟩ := h.2.returned_path p hp
        refine ⟨h1, h2, ?_⟩
        rcases h3 with h3 | h3
        · exact Or.inl (ht.result_stable h.1.left _ h3)
        · right
          rw [h3]
          exact congrArg some ht.start_eq.symm
  | v =>
    simp only
    rcases peerStep_trans l.pick s.ctxV with heq | ht
    · rw [heq]; exact h
    · have h2 := (h.1.net_symm s.linked).net_step s.linked_symm ht
      refine ⟨h2.net_symm ⟨rfl, rfl, rfl, rfl⟩, h.2.await_v, ?_, ?_⟩
      · intro p hp
        exact ht.result_stable h.1.right _ (h.2.await_u p hp)
      · intro p hp
        obtain ⟨h1, h2, h3⟩ := h.2.returned_path p hp
        refine ⟨h1, ?_, h3⟩
        rw [h2]
        exact congrArg some ht.start_eq.symm
  | coord => exact h.coordStep l.pick

/-- The invariant holds when `Bfs` has started the two peers. -/
theorem Inv.holds_init (graph : GoMap (List Int)) (u v : Int) : Inv graph (Bfs.init graph u v) := by
  have hloc : ∀ (start : Int) (g : GoMap (List Int)) (ch : Chan) (inCh : Chan),
      (∀ k x, x ∈ neighborsOf g k → x ∈ neighborsOf graph k) → ch.buf = [] → ch.closed = false →
      Local graph { me := Peer.init start g, peerIn := inCh, peerOut := ch, done := none,
                    result := none, fault := none } := by
    intro start g ch inCh hg hb hcl
    refine ⟨hg, ?_, ?_, ?_, ?_, ?_, ?_, ?_, ?_, ?_, ?_⟩
    · intro k n hk; cases hk
    · intro next rest hk; cases hk
    · intro x hx
      simp only [Peer.init, List.mem_singleton] at hx
      exact Or.inl hx
    · intro x hx; cases hx
    · intro x hx; rw [hb] at hx; cases hx
    · intro m hm; rcases hm with hm | hm <;> cases hm
    · intro p hp; cases hp
    · intro hc; rw [hcl] at hc; cases hc
    · intro hr; exact absurd rfl hr
    · intro _ hfr; cases hfr
  refine ⟨⟨hloc u graph Chan.empty Chan.empty (fun _ _ hx => hx) rfl rfl,
      hloc v (copyMap graph) Chan.empty Chan.empty
        (fun k x hx => by rw [neighborsOf_copyMap] at hx; exact hx) rfl rfl,
      ?_, ?_, ?_, ?_, rfl⟩, ?_, ?_, ?_⟩
  · intro m hm; cases hm
  · intro m hm; cases hm
  · intro m hm; cases hm
  · intro m hm; cases hm
  · intro p hp; cases hp
  · intro p hp; cases hp
  · intro p hp; cases hp

/-- The invariant holds in every state that a run of `Bfs` reaches. -/
theorem Inv.holds_run {graph : GoMap (List Int)} (sched : List Label) :
    ∀ {s : Sys}, Inv graph s → Inv graph (run s sched) := by
  induction sched with
  | nil => intro s h; exact h
  | cons l rest ih => intro s h; exact ih (h.sys_step l)

/-! ## What `Bfs` returns -/

theorem step_start (s : Sys) (l : Label) :
    (step s l).uPeer.start = s.uPeer.start ∧ (step s l).vPeer.start = s.vPeer.start := by
  unfold step
  cases l.actor with
  | u =>
    simp only
    rcases peerStep_trans l.pick s.ctxU with heq | ht
    · rw [heq]; exact ⟨rfl, rfl⟩
    · exact ⟨ht.start_eq, rfl⟩
  | v =>
    simp only
    rcases peerStep_trans l.pick s.ctxV with heq | ht
    · rw [heq]; exact ⟨rfl, rfl⟩
    · exact ⟨rfl, ht.start_eq⟩
  | coord =>
    simp only [coordStep]
    split
    · exact ⟨rfl, rfl⟩
    · split
      · split
        · split <;> (simp only [Sys.takeU, Sys.takeV]; split <;> exact ⟨rfl, rfl⟩)
        · simp only [Sys.takeU]; split <;> exact ⟨rfl, rfl⟩
        · simp only [Sys.takeV]; split <;> exact ⟨rfl, rfl⟩
        · exact ⟨rfl, rfl⟩
      · split
        · simp only [Sys.finish]; split <;> exact ⟨rfl, rfl⟩
        · exact ⟨rfl, rfl⟩
      · split
        · simp only [Sys.finish]; split <;> exact ⟨rfl, rfl⟩
        · exact ⟨rfl, rfl⟩
      · exact ⟨rfl, rfl⟩

theorem run_start (sched : List Label) :
    ∀ s : Sys, (run s sched).uPeer.start = s.uPeer.start ∧
      (run s sched).vPeer.start = s.vPeer.start := by
  induction sched with
  | nil => intro s; exact ⟨rfl, rfl⟩
  | cons l rest ih =>
    intro s
    have h1 := ih (step s l)
    have h2 := step_start s l
    exact ⟨h1.1.trans h2.1, h1.2.trans h2.2⟩

theorem EdgePath.forward {graph : GoMap (List Int)} {p : List Int} (h : EdgePath graph p)
    (hsym : SymmetricGraph graph) : ForwardPath graph p :=
  List.Chain'.imp (fun a b hab => hab.elim id (hsym b a)) h

/-- What holds of a returned path.  On a graph that lists every edge in both
directions, under every interleaving: when `Bfs` returns a path and the u-peer has reported
a half-path, the returned path is a walk from `u` to `v` along edges of the
graph, so it has at least as many edges as the hop distance from `u` to `v`. -/
theorem Bfs_symmetric_walk (graph : GoMap (List Int)) (u v : Int) (sched : List Label)
    (path uPath : List Int) (hsym : SymmetricGraph graph)
    (hret : (run (Bfs.init graph u v) sched).coord = Coord.returned (some path))
    (hu : (run (Bfs.init graph u v) sched).uResult = some (some uPath)) :
    IsWalk graph u v path ∧ ∀ d, IsHopDistance graph u v d → d ≤ path.length - 1 := by
  have hinv : Inv graph (run (Bfs.init graph u v) sched) := Inv.holds_run sched (Inv.holds_init graph u v)
  obtain ⟨h1, h2, h3⟩ := hinv.2.returned_path path hret
  have hst := run_start sched (Bfs.init graph u v)
  have hwalk : IsWalk graph u v path := by
    refine ⟨?_, ?_, h1.forward hsym⟩
    · rcases h3 with h3 | h3
      · rw [hu] at h3; cases h3
      · rw [h3, hst.1]; rfl
    · rw [h2, hst.2]; rfl
  refine ⟨hwalk, ?_⟩
  intro d hd
  have := hd.2 path hwalk
  omega

theorem symmetric_pair : SymmetricGraph [(1, [2]), (2, [1])] := by
  intro a b h
  unfold neighborsOf GoMap.get? at h ⊢
  by_cases h1 : a = 1
  · subst h1
    have hb : b = 2 := by simpa [List.lookup] using h
    subst hb
    decide
  · by_cases h2 : a = 2
    · subst h2
      have hb : b = 1 := by simpa [List.lookup] using h
      subst hb
      decide
    · have e1 : (a == 1) = false := by simpa using h1
      have e2 : (a == 2) = false := by simpa using h2
      simp [List.lookup, e1, e2] at h

/-- An instance: the graph `1 - 2` searched from `1` to `2`. -/
theorem Bfs_symmetric_walk_witness :
    IsWalk [(1, [2]), (2, [1])] 1 2 [1, 2] ∧
      ∀ d, IsHopDistance [(1, [2]), (2, [1])] 1 2 d → d ≤ [1, 2].length - 1 :=
  Bfs_symmetric_walk [(1, [2]), (2, [1])] 1 2 [U, U, U, V, V, V, V, U, U, U, V, V, C, C]
    [1, 2] [1] symmetric_pair (by decide) (by decide)

/-- Both peers follow outgoing edges: on the directed cycle `1 → 2 → 3 → 1`
the node `3` is two hops from `1`, and `Bfs(graph, 1, 3)` returns `[1, 3]`, a
single hop, under the schedule shown. -/
theorem Bfs_directed_cycle_one_hop :
    (run (Bfs.init [(1, [2]), (2, [3]), (3, [1])] 1 3)
        [U, U, U, V, V, V, V, U, U, U, V, V, C, C]).coord = Coord.returned (some [1, 3]) ∧
      IsHopDistance [(1, [2]), (2, [3]), (3, [1])] 1 3 2 := by
  refine ⟨by decide, ⟨[1, 2, 3], ⟨rfl, rfl, ?_⟩, rfl⟩, ?_⟩
  · simp [ForwardPath, neighborsOf, GoMap.get?, List.lookup]
  intro p hp
  obtain ⟨h1, h2, h3⟩ := hp
  match p, h1, h2, h3 with
  | [], h1, _, _ => simp at h1
  | [a], h1, h2, _ =>
    simp only [List.head?_cons, Option.some.injEq] at h1
    simp only [List.getLast?_singleton, Option.some.injEq] at h2
    omega
  | [a, b], h1, h2, h3 =>
    simp only [List.head?_cons, Option.some.injEq] at h1
    simp only [List.getLast?_cons_cons, List.getLast?_singleton, Option.some.injEq] at h2
    subst h1 h2
    simp [ForwardPath, neighborsOf, GoMap.get?, List.lookup] at h3
  | _ :: _ :: _ :: _, _, _, _ => simp

/-- **C2, as amended.** Under every interleaving, every consecutive pair
`(a, b)` of a path that `Bfs` returns is joined by an edge of the original
graph in one direction or the other (`b` is in `graph[a]`, or `a` is in
`graph[b]`); on a graph that lists every edge in both directions, `b` is in
`graph[a]`. -/
theorem Bfs_path_follows_edges (graph : GoMap (List Int)) (u v : Int) (sched : List Label)
    (path : List Int)
    (hret : (run (Bfs.init graph u v) sched).coord = Coord.returned (some path)) :
    EdgePath graph path ∧ (SymmetricGraph graph → ForwardPath graph path) := by
  have hinv : Inv graph (run (Bfs.init graph u v) sched) := Inv.holds_run sched (Inv.holds_init graph u v)
  have h := (hinv.2.returned_path path hret).1
  exact ⟨h, fun hsym => h.forward hsym⟩

/-- The witness of C2 as amended: the graph `1 → 3, 1 → 4, 2 → 3` searched
from `1` to `2`. -/
theorem Bfs_path_follows_edges_witness :
    EdgePath [(1, [3, 4]), (2, [3])] [1, 3, 2] ∧
      (SymmetricGraph [(1, [3, 4]), (2, [3])] → ForwardPath [(1, [3, 4]), (2, [3])] [1, 3, 2]) :=
  Bfs_path_follows_edges [(1, [3, 4]), (2, [3])] 1 2
    [U, U, U, U, U, U, V, V, V, V, V, U, U, U, V, V, C, C] [1, 3, 2] (by decide)

/-- The counterexample to C2 as stated: on the graph `1 → 3, 1 → 4, 2 → 3`,
`Bfs(graph, 1, 2)` returns `[1, 3, 2]` under the schedule shown, and `2` is not
in the neighbor list of `3`. -/
theorem Bfs_returns_non_edge :
    (run (Bfs.init [(1, [3, 4]), (2, [3])] 1 2)
        [U, U, U, U, U, U, V, V, V, V, V, U, U, U, V, V, C, C]).coord
        = Coord.returned (some [1, 3, 2]) ∧
      ¬ ForwardPath [(1, [3, 4]), (2, [3])] [1, 3, 2] ∧
      (2 : Int) ∉ neighborsOf [(1, [3, 4]), (2, [3])] 3 := by
  refine ⟨by decide, ?_, by decide⟩
  simp [ForwardPath, neighborsOf, GoMap.get?, List.lookup]

/-! ## The map of the caller -/

theorem PeerTrans.graph_subMap {c c2 : PeerCtx} (ht : PeerTrans c c2)
    (graph : GoMap (List Int)) (h : SubMap c.me.graph graph) : SubMap c2.me.graph graph := by
  cases ht with
  | discover next n rest hf hpc hv hroom =>
    intro k
    simp only [GoMap.get?_del]
    by_cases hk : k = next
    · right; simp [hk]
    · simp only [hk, if_false]; exact h k
  | _ => exact h

theorem step_callerGraph (graph : GoMap (List Int)) (s : Sys) (l : Label)
    (h : SubMap s.callerGraph graph) : SubMap (step s l).callerGraph graph := by
  have hu := (step_start s l).1
  unfold step at hu ⊢
  cases hl : l.actor with
  | u =>
    simp only
    rcases peerStep_trans l.pick s.ctxU with heq | ht
    · rw [heq]; exact h
    · exact ht.graph_subMap graph h
  | v => exact h
  | coord =>
    simp only [coordStep]
    split
    · exact h
    · split
      · split
        · split <;> (simp only [Sys.takeU, Sys.takeV]; split <;> exact h)
        · simp only [Sys.takeU]; split <;> exact h
        · simp only [Sys.takeV]; split <;> exact h
        · exact h
      · split
        · simp only [Sys.finish]; split <;> exact h
        · exact h
      · split
        · simp only [Sys.finish]; split <;> exact h
        · exact h
      · exact h

theorem run_callerGraph (graph : GoMap (List Int)) (sched : List Label) :
    ∀ s : Sys, SubMap s.callerGraph graph → SubMap (run s sched).callerGraph graph := by
  induction sched with
  | nil => intro s h; exact h
  | cons l rest ih => intro s h; exact ih (step s l) (step_callerGraph graph s l h)

/-- **C6, as amended.** `Bfs` runs the v-peer on a copy made by `copyMap` and
the u-peer on the map of the caller itself.  Under every interleaving the map
of the caller is, at every moment of the call and after it, the original map
with some keys deleted: every entry that is left is unchanged, and no
transition of the v-peer touches it. -/
theorem Bfs_caller_graph_pruned (graph : GoMap (List Int)) (u v : Int) (sched : List Label) :
    SubMap (run (Bfs.init graph u v) sched).callerGraph graph ∧
      (∀ k, (Bfs.init graph u v).vPeer.graph.get? k = graph.get? k) ∧
      (∀ (s : Sys) (pick : Bool),
        (step s { actor := Actor.v, pick := pick }).callerGraph = s.callerGraph) :=
  ⟨run_callerGraph graph sched _ (fun _ => Or.inl rfl), fun k => copyMap_get? graph k,
    fun _ _ => rfl⟩

/-- The counterexample to C6 as stated: after `Bfs(graph, 1, 2)` has returned
`[1, 2]` on the graph `1 - 2` under the schedule shown, the map of the caller
has lost the entry of node `1`. -/
theorem Bfs_deletes_caller_entry :
    (run (Bfs.init [(1, [2]), (2, [1])] 1 2)
        [U, U, U, V, V, V, V, U, U, U, V, V, C, C]).coord = Coord.returned (some [1, 2]) ∧
      (run (Bfs.init [(1, [2]), (2, [1])] 1 2)
        [U, U, U, V, V, V, V, U, U, U, V, V, C, C]).callerGraph.get? 1 = none ∧
      GoMap.get? [(1, [2]), (2, [1])] 1 = some [2] := by
  decide

/-! ## Searches whose two sides never meet -/

/-- A peer that never reads a node it has visited keeps quiet. -/
theorem QuietPeer.quiet_peer_step {graph : GoMap (List Int)} {c c2 : PeerCtx} (hL : Local graph c)
    (hQ : QuietPeer graph c) (hd : c.done = none)
    (henv : c.peerIn.ready = true → isVisited c.me.visited c.peerIn.front = false)
    (ht : PeerTrans c c2) : QuietPeer graph c2 ∧ c2.done = none ∧ c2.fault = c.fault := by
  cases ht with
  | recvDone m hf hpc hd2 => rw [hd] at hd2; cases hd2
  | recvPeer hf hpc hr =>
    refine ⟨⟨hQ.reach, ?_, hQ.nil_result, ?_⟩, hd, rfl⟩
    · intro m
      simp only [henv hr, Bool.false_eq_true, if_false]
      exact ⟨(by intro h; cases h), (by intro h; cases h)⟩
    · intro h
      simp only [henv hr, Bool.false_eq_true, if_false] at h
      rcases h with h | h <;> cases h
  | dequeue next rest hf hpc hd2 hr hfr =>
    exact ⟨⟨hQ.reach, fun m => ⟨(by intro h; cases h), (by intro h; cases h)⟩, hQ.nil_result,
      (by intro h; rcases h with h | h <;> cases h)⟩, hd, rfl⟩
  | frontierFault hf hpc hd2 hr hfr => exact absurd hfr (hL.select_frontier hpc)
  | skip next n rest hf hpc hv =>
    exact ⟨⟨hQ.reach, fun m => ⟨(by intro h; cases h), (by intro h; cases h)⟩, hQ.nil_result,
      (by intro h; rcases h with h | h <;> cases h)⟩, hd, rfl⟩
  | discover next n rest hf hpc hv hroom =>
    refine ⟨⟨?_, fun m => ⟨(by intro h; cases h), (by intro h; cases h)⟩, hQ.nil_result,
      (by intro h; rcases h with h | h <;> cases h)⟩, hd, rfl⟩
    intro x hx
    have hexp := hL.expand_ok _ _ hpc
    rcases hx with hx | hx
    · exact hQ.reach x (Or.inl hx)
    · simp only [hasKey_set, Bool.or_eq_true, decide_eq_true_eq] at hx
      rcases hx with hx | hx
      · subst hx
        exact Relation.ReflTransGen.tail (hQ.reach next hexp.1) (hexp.2 _ (by simp))
      · exact hQ.reach x (Or.inr hx)
  | exhausted next hf hpc hfr =>
    exact ⟨⟨hQ.reach, fun m => ⟨(by intro h; cases h), (by intro h; cases h)⟩, Or.inr rfl,
      fun _ => rfl⟩, hd, rfl⟩
  | expanded next hf hpc hfr =>
    exact ⟨⟨hQ.reach, fun m => ⟨(by intro h; cases h), (by intro h; cases h)⟩, hQ.nil_result,
      (by intro h; rcases h with h | h <;> cases h)⟩, hd, rfl⟩
  | announce other hf hpc hd2 => exact absurd hpc (hQ.no_meet other).1
  | report meet p hf hpc hp => exact absurd hpc (hQ.no_meet meet).2
  | reportFault meet hf hpc hp => exact absurd hpc (hQ.no_meet meet).2
  | close hf hpc =>
    exact ⟨⟨hQ.reach, fun m => ⟨(by intro h; cases h), (by intro h; cases h)⟩, hQ.nil_result,
      fun _ => hQ.late_result (Or.inl hpc)⟩, hd, rfl⟩

/-- The node a peer reads from its inbound channel is not one it has visited,
when nothing is reachable from both start nodes and `0` from neither. -/
theorem inbox_not_visited {graph : GoMap (List Int)} {c d : PeerCtx} (hc : Local graph c)
    (hd : Local graph d) (hqc : QuietPeer graph c) (hqd : QuietPeer graph d)
    (hl : Linked c d)
    (hdis : ∀ x, Reach graph c.me.start x → Reach graph d.me.start x → False)
    (h0 : ¬ Reach graph c.me.start 0) (_hr : c.peerIn.ready = true) :
    isVisited c.me.visited c.peerIn.front = false := by
  by_contra hv
  have hv2 : isVisited c.me.visited c.peerIn.front = true := by
    cases h : isVisited c.me.visited c.peerIn.front
    · exact absurd h hv
    · rfl
  have hk := hqc.reach _ (hc.visited_known _ (isVisited_hasKey _ _ hv2))
  cases hbuf : c.peerIn.buf with
  | nil =>
    have : c.peerIn.front = 0 := by simp [Chan.front, hbuf]
    rw [this] at hk
    exact h0 hk
  | cons x t =>
    have hfront : c.peerIn.front = x := by simp [Chan.front, hbuf]
    rw [hfront] at hk
    have hx : x ∈ d.peerOut.buf := by rw [← hl.1, hbuf]; simp
    exact hdis x hk (hqd.reach x (Or.inr (hd.sent_pred x hx)))

theorem QuietPeer.quiet_sync {graph : GoMap (List Int)} {d : PeerCtx} (hQ : QuietPeer graph d)
    (c2 : PeerCtx) : QuietPeer graph (d.sync c2) :=
  ⟨hQ.reach, hQ.no_meet, hQ.nil_result, hQ.late_result⟩

/-- A transition of the program keeps it quiet, when nothing is reachable from
both start nodes and `0` from neither. -/
theorem Quiet.quiet_step {graph : GoMap (List Int)} {s : Sys} (hI : Inv graph s) (hQ : Quiet graph s)
    (hdis : ∀ x, Reach graph s.uPeer.start x → Reach graph s.vPeer.start x → False)
    (h0u : ¬ Reach graph s.uPeer.start 0) (h0v : ¬ Reach graph s.vPeer.start 0) (l : Label) :
    Quiet graph (step s l) := by
  unfold BidirectionalBfs.step
  cases l.actor with
  | u =>
    simp only
    rcases peerStep_trans l.pick s.ctxU with heq | ht
    · rw [heq]; exact hQ
    · have henv := inbox_not_visited hI.1.left hI.1.right hQ.left hQ.right s.linked hdis h0u
      obtain ⟨h1, h2, h3⟩ := hQ.left.quiet_peer_step hI.1.left hQ.done_empty henv ht
      exact ⟨h1, hQ.right.quiet_sync _, h2, h3.trans hQ.no_fault, hQ.coord_nil⟩
  | v =>
    simp only
    rcases peerStep_trans l.pick s.ctxV with heq | ht
    · rw [heq]; exact hQ
    · have henv := inbox_not_visited hI.1.right hI.1.left hQ.right hQ.left s.linked_symm
        (fun x hv hu => hdis x hu hv) h0v
      obtain ⟨h1, h2, h3⟩ := hQ.right.quiet_peer_step hI.1.right hQ.done_empty henv ht
      exact ⟨hQ.left.quiet_sync _, h1, h2, h3.trans hQ.no_fault, hQ.coord_nil⟩
  | coord =>
    simp only [coordStep, hQ.no_fault, Option.isSome_none, Bool.false_eq_true, if_false]
    rcases hQ.coord_nil with hc | hc
    · rw [hc]
      simp only
      have hu := hQ.left.nil_result
      have hv := hQ.right.nil_result
      have hu2 : s.uResult = none ∨ s.uResult = some none := hu
      have hv2 : s.vResult = none ∨ s.vResult = some none := hv
      have hret : Quiet graph { s with coord := Coord.returned none } :=
        ⟨hQ.left, hQ.right, hQ.done_empty, hQ.no_fault, Or.inr rfl⟩
      rcases hu2 with hu2 | hu2 <;> rcases hv2 with hv2 | hv2 <;> rw [hu2, hv2] <;> simp only
      · exact hQ
      · exact hret
      · exact hret
      · split <;> exact hret
    · rw [hc]; exact hQ

theorem Quiet.quiet_init (graph : GoMap (List Int)) (u v : Int) : Quiet graph (Bfs.init graph u v) := by
  refine ⟨⟨?_, ?_, Or.inl rfl, ?_⟩, ⟨?_, ?_, Or.inl rfl, ?_⟩, rfl, rfl, Or.inl rfl⟩
  · intro x hx
    rcases hx with hx | hx
    · rw [hx]; exact Relation.ReflTransGen.refl
    · cases hx
  · intro m; exact ⟨(by intro h; cases h), (by intro h; cases h)⟩
  · intro h; rcases h with h | h <;> cases h
  · intro x hx
    rcases hx with hx | hx
    · rw [hx]; exact Relation.ReflTransGen.refl
    · cases hx
  · intro m; exact ⟨(by intro h; cases h), (by intro h; cases h)⟩
  · intro h; rcases h with h | h <;> cases h

theorem Quiet.quiet_run {graph : GoMap (List Int)} (u v : Int)
    (hdis : ∀ x, Reach graph u x → Reach graph v x → False)
    (h0u : ¬ Reach graph u 0) (h0v : ¬ Reach graph v 0) (sched : List Label) :
    ∀ s : Sys, s.uPeer.start = u → s.vPeer.start = v → Inv graph s → Quiet graph s →
      Quiet graph (run s sched) := by
  induction sched with
  | nil => intro s _ _ _ h; exact h
  | cons l rest ih =>
    intro s hu hv hI hQ
    have hst := step_start s l
    exact ih (BidirectionalBfs.step s l) (hst.1.trans hu) (hst.2.trans hv) (hI.sys_step l)
      (hQ.quiet_step hI (by rw [hu, hv]; exact hdis) (by rw [hu]; exact h0u) (by rw [hv]; exact h0v) l)

theorem Reach.reach_symm {graph : GoMap (List Int)} (hsym : SymmetricGraph graph) {a b : Int}
    (h : Reach graph a b) : Reach graph b a :=
  Relation.ReflTransGen.symmetric (fun x y hxy => hsym x y hxy) h

/-! ## A search from a node without outgoing edges to itself -/

theorem Lone.lone_step {c c2 : PeerCtx} (hL : Lone c) (hd : c.done = none) (ht : PeerTrans c c2) :
    Lone c2 ∧ c2.done = none ∧ c2.fault = c.fault ∧ c2.peerIn.buf = c.peerIn.buf.tail ∨
    Lone c2 ∧ c2.done = none ∧ c2.fault = c.fault ∧ c2.peerIn = c.peerIn := by
  obtain ⟨hshape, hnb, hsent⟩ := hL
  cases ht with
  | recvDone m hf hpc hd2 => rw [hd] at hd2; cases hd2
  | recvPeer hf hpc hr =>
    left
    rcases hshape with ⟨_, h2, h3, h4, h5⟩ | ⟨h1, _⟩ | ⟨h1, _⟩ | ⟨h1, _⟩
    · have hv : isVisited c.me.visited c.peerIn.front = false := by rw [h3]; rfl
      refine ⟨⟨Or.inl ⟨?_, h2, h3, h4, h5⟩, hnb, hsent⟩, hd, rfl, rfl⟩
      simp only [hv, Bool.false_eq_true, if_false]
    · rw [hpc] at h1; cases h1
    · rw [hpc] at h1; cases h1
    · rw [hpc] at h1; cases h1
  | dequeue next rest hf hpc hd2 hr hfr =>
    right
    rcases hshape with ⟨_, h2, h3, h4, h5⟩ | ⟨h1, _⟩ | ⟨h1, _⟩ | ⟨h1, _⟩
    · rw [hfr] at h2
      simp only [List.cons.injEq] at h2
      obtain ⟨rfl, rfl⟩ := h2
      refine ⟨⟨Or.inr (Or.inl ⟨?_, rfl, h4, h5⟩), hnb, hsent⟩, hd, rfl, rfl⟩
      show Pc.expand c.me.start (neighborsOf c.me.graph c.me.start) = Pc.expand c.me.start []
      rw [hnb]
    · rw [hpc] at h1; cases h1
    · rw [hpc] at h1; cases h1
    · rw [hpc] at h1; cases h1
  | frontierFault hf hpc hd2 hr hfr =>
    rcases hshape with ⟨_, h2, _⟩ | ⟨h1, _⟩ | ⟨h1, _⟩ | ⟨h1, _⟩
    · rw [hfr] at h2; cases h2
    · rw [hpc] at h1; cases h1
    · rw [hpc] at h1; cases h1
    · rw [hpc] at h1; cases h1
  | skip next n rest hf hpc hv =>
    rcases hshape with ⟨h1, _⟩ | ⟨h1, _⟩ | ⟨h1, _⟩ | ⟨h1, _⟩ <;> (rw [hpc] at h1; cases h1)
  | discover next n rest hf hpc hv hroom =>
    rcases hshape with ⟨h1, _⟩ | ⟨h1, _⟩ | ⟨h1, _⟩ | ⟨h1, _⟩ <;> (rw [hpc] at h1; cases h1)
  | exhausted next hf hpc hfr =>
    right
    rcases hshape with ⟨h1, _⟩ | ⟨h1, _, _, h5⟩ | ⟨h1, _⟩ | ⟨h1, _⟩
    · rw [hpc] at h1; cases h1
    · exact ⟨⟨Or.inr (Or.inr (Or.inl ⟨rfl, rfl, h5⟩)), hnb, hsent⟩, hd, rfl, rfl⟩
    · rw [hpc] at h1; cases h1
    · rw [hpc] at h1; cases h1
  | expanded next hf hpc hfr =>
    rcases hshape with ⟨h1, _⟩ | ⟨h1, h2, _⟩ | ⟨h1, _⟩ | ⟨h1, _⟩
    · rw [hpc] at h1; cases h1
    · rw [h2] at hfr; cases hfr
    · rw [hpc] at h1; cases h1
    · rw [hpc] at h1; cases h1
  | announce other hf hpc hd2 =>
    rcases hshape with ⟨h1, _⟩ | ⟨h1, _⟩ | ⟨h1, _⟩ | ⟨h1, _⟩ <;> (rw [hpc] at h1; cases h1)
  | report meet p hf hpc hp =>
    rcases hshape with ⟨h1, _⟩ | ⟨h1, _⟩ | ⟨h1, _⟩ | ⟨h1, _⟩ <;> (rw [hpc] at h1; cases h1)
  | reportFault meet hf hpc hp =>
    rcases hshape with ⟨h1, _⟩ | ⟨h1, _⟩ | ⟨h1, _⟩ | ⟨h1, _⟩ <;> (rw [hpc] at h1; cases h1)
  | close hf hpc =>
    right
    rcases hshape with ⟨h1, _⟩ | ⟨h1, _⟩ | ⟨_, h2, _⟩ | ⟨h1, _⟩
    · rw [hpc] at h1; cases h1
    · rw [hpc] at h1; cases h1
    · exact ⟨⟨Or.inr (Or.inr (Or.inr ⟨rfl, h2⟩)), hnb, hsent⟩, hd, rfl, rfl⟩
    · rw [hpc] at h1; cases h1

/-- The partner of a peer that sends nothing stays as it is when the peer moves. -/
theorem Lone.lone_sync {c c2 d : PeerCtx} (hd : Lone d) (hl : Linked c d)
    (hin : c2.peerIn.buf = c.peerIn.buf.tail ∨ c2.peerIn = c.peerIn)
    (hcl : c2.peerIn.closed = c.peerIn.closed) : Lone (d.sync c2) := by
  have hbuf : c2.peerIn.buf = [] := by
    have h0 : c.peerIn.buf = [] := by rw [hl.1]; exact hd.sent_nothing
    rcases hin with h | h
    · rw [h, h0]; rfl
    · rw [h, h0]
  have hclosed : c2.peerIn.closed = d.peerOut.closed := by rw [hcl, hl.1]
  refine ⟨?_, hd.no_neighbors, hbuf⟩
  rcases hd.shape with ⟨h1, h2, h3, h4, h5⟩ | ⟨h1, h2, h4, h5⟩ | ⟨h1, h4, h5⟩ | ⟨h1, h4⟩
  · exact Or.inl ⟨h1, h2, h3, h4, hclosed.trans h5⟩
  · exact Or.inr (Or.inl ⟨h1, h2, h4, hclosed.trans h5⟩)
  · exact Or.inr (Or.inr (Or.inl ⟨h1, h4, hclosed.trans h5⟩))
  · exact Or.inr (Or.inr (Or.inr ⟨h1, h4⟩))

theorem PeerTrans.peerIn_closed {c c2 : PeerCtx} (ht : PeerTrans c c2) :
    c2.peerIn.closed = c.peerIn.closed := by
  cases ht <;> rfl

theorem Lone.nil_result {c : PeerCtx} (h : Lone c) : c.result = none ∨ c.result = some none := by
  rcases h.shape with ⟨_, _, _, h4, _⟩ | ⟨_, _, h4, _⟩ | ⟨_, h4, _⟩ | ⟨_, h4⟩
  · exact Or.inl h4
  · exact Or.inl h4
  · exact Or.inr h4
  · exact Or.inr h4

/-- A lone peer whose inbound channel is empty and open has reported nil after
two transitions. -/
theorem Lone.result_after_two {c : PeerCtx} (h : Lone c) (hf : c.fault = none)
    (hd : c.done = none) (hr : c.me.pc = Pc.select → c.peerIn.ready = false) (p1 p2 : Bool) :
    (peerStep p2 (peerStep p1 c)).result = some none := by
  obtain ⟨hshape, hnb, hsent⟩ := h
  obtain ⟨⟨start, frontier, visited, pred, graph, edgeCount, pc⟩, peerIn, peerOut, done,
    result, fault⟩ := c
  simp only at hshape hnb hsent hf hd hr
  subst hf hd
  rcases hshape with ⟨h1, h2, h3, h4, h5⟩ | ⟨h1, h2, h4, h5⟩ | ⟨h1, h4, h5⟩ | ⟨h1, h4⟩
  · subst h1 h2 h3 h4
    simp [peerStep, hr rfl, hnb]
  · subst h1 h2 h4
    simp [peerStep]
  · subst h1 h4
    simp [peerStep]
  · subst h1 h4
    simp [peerStep]

/-- A transition of the program keeps the invariant of two lone peers. -/
theorem LonePair.pair_step {s : Sys} (h : LonePair s) (l : Label) : LonePair (step s l) := by
  unfold BidirectionalBfs.step
  cases l.actor with
  | u =>
    simp only
    rcases peerStep_trans l.pick s.ctxU with heq | ht
    · rw [heq]; exact h
    · rcases h.left.lone_step h.done_empty ht with ⟨h1, h2, h3, h4⟩ | ⟨h1, h2, h3, h4⟩
      · exact ⟨h1, h.right.lone_sync s.linked (Or.inl h4) ht.peerIn_closed, h2,
          h3.trans h.no_fault, h.coord_nil⟩
      · exact ⟨h1, h.right.lone_sync s.linked (Or.inr h4) ht.peerIn_closed, h2,
          h3.trans h.no_fault, h.coord_nil⟩
  | v =>
    simp only
    rcases peerStep_trans l.pick s.ctxV with heq | ht
    · rw [heq]; exact h
    · rcases h.right.lone_step h.done_empty ht with ⟨h1, h2, h3, h4⟩ | ⟨h1, h2, h3, h4⟩
      · exact ⟨h.left.lone_sync s.linked_symm (Or.inl h4) ht.peerIn_closed, h1, h2,
          h3.trans h.no_fault, h.coord_nil⟩
      · exact ⟨h.left.lone_sync s.linked_symm (Or.inr h4) ht.peerIn_closed, h1, h2,
          h3.trans h.no_fault, h.coord_nil⟩
  | coord =>
    simp only [coordStep, h.no_fault, Option.isSome_none, Bool.false_eq_true, if_false]
    rcases h.coord_nil with hc | hc
    · rw [hc]
      simp only
      have hu2 : s.uResult = none ∨ s.uResult = some none := h.left.nil_result
      have hv2 : s.vResult = none ∨ s.vResult = some none := h.right.nil_result
      have hret : LonePair { s with coord := Coord.returned none } :=
        ⟨h.left, h.right, h.done_empty, h.no_fault, Or.inr rfl⟩
      rcases hu2 with hu2 | hu2 <;> rcases hv2 with hv2 | hv2 <;> rw [hu2, hv2] <;> simp only
      · exact h
      · exact hret
      · exact hret
      · split <;> exact hret
    · rw [hc]; exact h

theorem LonePair.pair_run (sched : List Label) :
    ∀ s : Sys, LonePair s → LonePair (run s sched) := by
  induction sched with
  | nil => intro s h; exact h
  | cons l rest ih => intro s h; exact ih _ (h.pair_step l)

theorem LonePair.pair_init (graph : GoMap (List Int)) (u : Int) (hu : neighborsOf graph u = []) :
    LonePair (Bfs.init graph u u) := by
  refine ⟨⟨Or.inl ⟨rfl, rfl, rfl, rfl, rfl⟩, hu, rfl⟩, ⟨Or.inl ⟨rfl, rfl, rfl, rfl, rfl⟩, ?_, rfl⟩,
    rfl, rfl, Or.inl rfl⟩
  show neighborsOf (copyMap graph) u = []
  rw [neighborsOf_copyMap, hu]

/-- With two lone peers, the coordinator returns nil as soon as one of them
has reported. -/
theorem LonePair.coord_returns {s : Sys} (h : LonePair s)
    (hres : s.uResult = some none ∨ s.vResult = some none) (pick : Bool) :
    (coordStep pick s).coord = Coord.returned none := by
  simp only [coordStep, h.no_fault, Option.isSome_none, Bool.false_eq_true, if_false]
  rcases h.coord_nil with hc | hc
  · rw [hc]
    simp only
    have hu2 : s.uResult = none ∨ s.uResult = some none := h.left.nil_result
    have hv2 : s.vResult = none ∨ s.vResult = some none := h.right.nil_result
    rcases hu2 with hu2 | hu2 <;> rcases hv2 with hv2 | hv2
    · rw [hu2, hv2] at hres; simp at hres
    · rw [hu2, hv2]; rfl
    · rw [hu2, hv2]; rfl
    · rw [hu2, hv2]; simp only; split <;> rfl
  · rw [hc]; exact hc

/-- With two lone peers, two transitions of the u-peer and one of the
coordinator make `Bfs` return nil. -/
theorem LonePair.returns {s : Sys} (h : LonePair s) :
    (BidirectionalBfs.run s [U, U, C]).coord = Coord.returned none := by
  have h2 : LonePair (BidirectionalBfs.run s [U, U]) := LonePair.pair_run [U, U] s h
  have hres : (BidirectionalBfs.run s [U, U]).uResult = some none ∨ (BidirectionalBfs.run s [U, U]).vResult = some none := by
    cases hcl : s.uChan.closed with
    | true =>
      right
      have hv : s.vResult = some none := by
        rcases h.right.shape with ⟨_, _, _, _, h5⟩ | ⟨_, _, _, h5⟩ | ⟨_, _, h5⟩ | ⟨_, h4⟩
        · have h5' : s.uChan.closed = false := h5
          rw [hcl] at h5'; cases h5'
        · have h5' : s.uChan.closed = false := h5
          rw [hcl] at h5'; cases h5'
        · have h5' : s.uChan.closed = false := h5
          rw [hcl] at h5'; cases h5'
        · exact h4
      exact hv
    | false =>
      left
      have hbuf : s.uChan.buf = [] := h.right.sent_nothing
      have hr : s.ctxU.peerIn.ready = false := by
        show s.uChan.ready = false
        simp [Chan.ready, hbuf, hcl]
      exact h.left.result_after_two h.no_fault h.done_empty (fun _ => hr) true true
  exact h2.coord_returns hres true

/-- **C5, as amended.** For every graph in which `u` has no outgoing edges,
under every interleaving, `Bfs(graph, u, u)` never panics and returns nothing
but nil; and from every state of the run, two transitions of the u-peer and
one of the coordinator make it return nil. -/
theorem Bfs_same_node_no_edges (graph : GoMap (List Int)) (u : Int) (sched : List Label)
    (hu : neighborsOf graph u = []) :
    (run (Bfs.init graph u u) sched).fault = none ∧
      ((run (Bfs.init graph u u) sched).coord = Coord.selecting ∨
        (run (Bfs.init graph u u) sched).coord = Coord.returned none) ∧
      (run (run (Bfs.init graph u u) sched) [U, U, C]).coord = Coord.returned none := by
  have h := LonePair.pair_run sched _ (LonePair.pair_init graph u hu)
  exact ⟨h.no_fault, h.coord_nil, h.returns⟩

/-- The witness of C5 as amended: the empty graph searched from `5` to `5`. -/
theorem Bfs_same_node_no_edges_witness :
    (run (Bfs.init [] 5 5) [V, U, V]).fault = none ∧
      ((run (Bfs.init [] 5 5) [V, U, V]).coord = Coord.selecting ∨
        (run (Bfs.init [] 5 5) [V, U, V]).coord = Coord.returned none) ∧
      (run (run (Bfs.init [] 5 5) [V, U, V]) [U, U, C]).coord = Coord.returned none :=
  Bfs_same_node_no_edges [] 5 [V, U, V] rfl

/-- The counterexample to C5 as stated: on the empty graph `Bfs(graph, 5, 5)`
returns nil, not `[5]`, under the schedule shown. -/
theorem Bfs_same_node_returns_nil :
    (run (Bfs.init [] 5 5) [U, U, V, V, C]).coord = Coord.returned none ∧
      (run (Bfs.init [] 5 5) [U, U, V, V, C]).coord ≠ Coord.returned (some [5]) := by
  decide

/-! ## The second result of the coordinator -/

/-- **C4 (the code breaks it).** `Bfs` tests only the result it receives first
against nil.  When a half-path of the u-peer arrives first and the nil of the
v-peer second, `vPath[1:]` panics; when a half-path `[0, 1]` of the v-peer
arrives first and the nil of the u-peer second, `Bfs` returns `[1]`; a nil that
arrives first makes it return nil.  All three happen in runs of the program:
the panic on the graph `1 - 2` searched from `1` to `2` (the v-peer notifies
`1`, empties its frontier and reports nil, then the u-peer reads `1`), and on
the graph `1 → 0, 1 → 2` searched from `1` to `5`; the return of `[1]` on that
graph searched from `5` to `1`. -/
theorem Bfs_second_nil_not_checked :
    Bfs.collect true (some [1]) none = Except.error Fault.sliceBounds ∧
      Bfs.collect false none (some [0, 1]) = Except.ok (some [1]) ∧
      Bfs.collect true none (some [0, 1]) = Except.ok none ∧
      Bfs.collect false (some [1]) none = Except.ok none ∧
      (run (Bfs.init [(1, [2]), (2, [1])] 1 2)
        [V, U, V, V, V, U, U, V, V, U, U, U]).uResult = some (some [1]) ∧
      (run (Bfs.init [(1, [2]), (2, [1])] 1 2)
        [V, U, V, V, V, U, U, V, V, U, U, U]).vResult = some none ∧
      (run (Bfs.init [(1, [2]), (2, [1])] 1 2)
        [V, U, V, V, V, U, U, V, V, U, U, U, C, C]).fault = some Fault.sliceBounds ∧
      (run (Bfs.init [(1, [0, 2])] 1 5)
        [U, U, U, U, U, U, V, V, V, V, V, U, U, U, C, C]).fault = some Fault.sliceBounds ∧
      (run (Bfs.init [(1, [0, 2])] 5 1)
        [V, V, V, V, V, V, U, U, U, U, U, V, V, V, { actor := Actor.coord, pick := false }, C]).coord
        = Coord.returned (some [1]) := by
  refine ⟨rfl, rfl, rfl, rfl, by decide, by decide, by decide, by decide, by decide⟩

/-! ## The channel `done` -/

/-- A transition of the coordinator changes nothing but its own state and the
panic flag. -/
theorem coordStep_frame (pick : Bool) (s : Sys) :
    ∃ c f, coordStep pick s = { s with coord := c, fault := f } := by
  have hfin : ∀ a b, ∃ c f, s.finish a b = { s with coord := c, fault := f } := by
    intro a b
    unfold Sys.finish
    split
    · exact ⟨_, _, rfl⟩
    · exact ⟨_, _, rfl⟩
  have htu : ∀ a, ∃ c f, s.takeU a = { s with coord := c, fault := f } := by
    intro a
    unfold Sys.takeU
    split <;> exact ⟨_, _, rfl⟩
  have htv : ∀ a, ∃ c f, s.takeV a = { s with coord := c, fault := f } := by
    intro a
    unfold Sys.takeV
    split <;> exact ⟨_, _, rfl⟩
  unfold coordStep
  split
  · exact ⟨_, _, rfl⟩
  · split
    · split
      · split
        · exact htu _
        · exact htv _
      · exact htu _
      · exact htv _
      · exact ⟨_, _, rfl⟩
    · split
      · exact hfin _ _
      · exact ⟨_, _, rfl⟩
    · split
      · exact hfin _ _
      · exact ⟨_, _, rfl⟩
    · exact ⟨_, _, rfl⟩

/-- A peer that has committed to a meeting point stays committed to it. -/
theorem meetOf_step_none {graph : GoMap (List Int)} {s : Sys} (h : Inv graph s) (l : Label) :
    (meetOf (step s l).ctxU = none → meetOf s.ctxU = none) ∧
      (meetOf (step s l).ctxV = none → meetOf s.ctxV = none) := by
  have hmono : ∀ {c c2 : PeerCtx}, Local graph c → PeerTrans c c2 →
      meetOf c2 = none → meetOf c = none := by
    intro c c2 hL ht h2
    rcases ht.done_cases hL with ⟨_, hm⟩ | ⟨m, _, _, _, hm, _⟩ | ⟨m, _, _, _, hm, _⟩
    · rw [← hm]; exact h2
    · exact hm
    · exact hm
  unfold step
  cases l.actor with
  | u =>
    simp only
    rcases peerStep_trans l.pick s.ctxU with heq | ht
    · rw [heq]; exact ⟨id, id⟩
    · exact ⟨hmono h.1.left ht, id⟩
  | v =>
    simp only
    rcases peerStep_trans l.pick s.ctxV with heq | ht
    · rw [heq]; exact ⟨id, id⟩
    · exact ⟨id, hmono h.1.right ht⟩
  | coord =>
    simp only
    obtain ⟨c, f, hcf⟩ := coordStep_frame l.pick s
    rw [hcf]
    exact ⟨id, id⟩

/-- Once a peer has committed to a meeting point, no send on `done` goes
through any more; before that, at most one does. -/
theorem doneSends_le {graph : GoMap (List Int)} (sched : List Label) :
    ∀ s : Sys, Inv graph s →
      doneSends s sched ≤ if meetOf s.ctxU = none ∧ meetOf s.ctxV = none then 1 else 0 := by
  induction sched with
  | nil => intro s _; exact Nat.zero_le _
  | cons l rest ih =>
    intro s h
    have h2 : Inv graph (step s l) := h.sys_step l
    have hrec := ih (step s l) h2
    have hmono := meetOf_step_none h l
    unfold doneSends
    by_cases hsend : s.done = none ∧ (step s l).done ≠ none
    · rw [if_pos hsend]
      obtain ⟨m, hm⟩ : ∃ m, (step s l).done = some m := by
        cases hd : (step s l).done with
        | none => exact absurd hd hsend.2
        | some m => exact ⟨m, rfl⟩
      have hph2 := h2.1.phase
      have hm2 : (step s l).ctxU.done = some m := hm
      rw [hm2] at hph2
      have hph := h.1.phase
      have hd1 : s.ctxU.done = none := hsend.1
      rw [hd1] at hph
      have hafter : ¬ (meetOf (step s l).ctxU = none ∧ meetOf (step s l).ctxV = none) := by
        rintro ⟨k1, k2⟩
        rcases hph2 with ⟨k, _⟩ | ⟨_, k⟩
        · rw [k1] at k; cases k
        · rw [k2] at k; cases k
      have hbefore : meetOf s.ctxU = none ∧ meetOf s.ctxV = none := by
        rcases hph2 with ⟨_, k⟩ | ⟨k, _⟩
        · have := hmono.2 k
          exact ⟨by rw [hph]; exact this, this⟩
        · have := hmono.1 k
          exact ⟨this, by rw [← hph]; exact this⟩
      rw [if_neg hafter] at hrec
      rw [if_pos hbefore]
      omega
    · rw [if_neg hsend]
      by_cases hafter : meetOf (step s l).ctxU = none ∧ meetOf (step s l).ctxV = none
      · rw [if_pos hafter] at hrec
        rw [if_pos ⟨hmono.1 hafter.1, hmono.2 hafter.2⟩]
        omega
      · rw [if_neg hafter] at hrec
        omega

/-- What holds of `done`.  Under every interleaving at most one send on `done`
ever goes through, and the two peers and `done` agree on the meeting point:
while `done` holds a node, exactly one peer has committed to it (it is about
to report it, or has sent a half-path that starts with it) and the other peer
has committed to none; once `done` is empty, both peers have committed to the
same node or neither has.  So two half-paths that reach the coordinator start
at the same node, end at `u` and at `v`, and leave `done` empty. -/
theorem Bfs_meeting_point_agreed (graph : GoMap (List Int)) (u v : Int) (sched : List Label) :
    doneSends (Bfs.init graph u v) sched ≤ 1 ∧
      (∀ m, (run (Bfs.init graph u v) sched).done = some m →
        (meetOf (run (Bfs.init graph u v) sched).ctxU = some m ∧
          meetOf (run (Bfs.init graph u v) sched).ctxV = none) ∨
        (meetOf (run (Bfs.init graph u v) sched).ctxU = none ∧
          meetOf (run (Bfs.init graph u v) sched).ctxV = some m)) ∧
      ((run (Bfs.init graph u v) sched).done = none →
        meetOf (run (Bfs.init graph u v) sched).ctxU
          = meetOf (run (Bfs.init graph u v) sched).ctxV) ∧
      (∀ p q, (run (Bfs.init graph u v) sched).uResult = some (some p) →
        (run (Bfs.init graph u v) sched).vResult = some (some q) →
        (run (Bfs.init graph u v) sched).done = none ∧
          ∃ m, p.head? = some m ∧ q.head? = some m ∧
            p.getLast? = some u ∧ q.getLast? = some v) := by
  have hinv : Inv graph (run (Bfs.init graph u v) sched) :=
    Inv.holds_run sched (Inv.holds_init graph u v)
  have hst := run_start sched (Bfs.init graph u v)
  have hph := hinv.1.phase
  refine ⟨?_, ?_, ?_, ?_⟩
  · have := doneSends_le sched (Bfs.init graph u v) (Inv.holds_init graph u v)
    split at this <;> omega
  · intro m hm
    have hm2 : (run (Bfs.init graph u v) sched).ctxU.done = some m := hm
    rw [hm2] at hph
    exact hph
  · intro hm
    have hm2 : (run (Bfs.init graph u v) sched).ctxU.done = none := hm
    rw [hm2] at hph
    exact hph
  · intro p q hp hq
    obtain ⟨hp0, _, hpl⟩ := hinv.1.left.result_walk p hp
    obtain ⟨hq0, _, hql⟩ := hinv.1.right.result_walk q hq
    have hmu := meetOf_of_result hinv.1.left p hp
    have hmv := meetOf_of_result hinv.1.right q hq
    have hagree := hinv.1.heads_agree p q hp hq
    refine ⟨?_, ?_⟩
    · cases hd : (run (Bfs.init graph u v) sched).done with
      | none => rfl
      | some m =>
        have hd2 : (run (Bfs.init graph u v) sched).ctxU.done = some m := hd
        rw [hd2, hmu, hmv] at hph
        rcases hph with ⟨_, k⟩ | ⟨k, _⟩
        · cases q with
          | nil => exact absurd rfl hq0
          | cons _ _ => simp at k
        · cases p with
          | nil => exact absurd rfl hp0
          | cons _ _ => simp at k
    · cases p with
      | nil => exact absurd rfl hp0
      | cons a rest =>
        refine ⟨a, rfl, hagree.symm, ?_, ?_⟩
        · rw [hpl]; exact congrArg some hst.1
        · rw [hql]; exact congrArg some hst.2

/-- A peer gives up as soon as its own frontier is empty: on the graph
`1 - 2`, which lists its edge in both directions, `2` is reachable from `1`; yet under the schedule
shown the u-peer empties its frontier before the v-peer has moved and reports
nil, nothing is ever sent on `done`, and `Bfs(graph, 1, 2)` returns nil
without having received a half-path. -/
theorem Bfs_path_exists_no_announcement :
    SymmetricGraph [(1, [2]), (2, [1])] ∧ Reach [(1, [2]), (2, [1])] 1 2 ∧
      (run (Bfs.init [(1, [2]), (2, [1])] 1 2) [U, U, U, U, U, U, C]).uResult = some none ∧
      (run (Bfs.init [(1, [2]), (2, [1])] 1 2) [U, U, U, U, U, U, C]).vResult = none ∧
      (run (Bfs.init [(1, [2]), (2, [1])] 1 2) [U, U, U, U, U, U, C]).done = none ∧
      (run (Bfs.init [(1, [2]), (2, [1])] 1 2) [U, U, U, U, U, U, C]).coord
        = Coord.returned none := by
  refine ⟨symmetric_pair, ?_, by decide, by decide, by decide, by decide⟩
  exact Relation.ReflTransGen.single (by decide)

/-- **C10 (the code breaks it).** On the graph `1 - 2`, which lists its edge in
both directions and on which `2` is reachable from `1`, searched from `1` to
`2`, a second peer does attempt to announce.  Under the schedule shown both
peers take `default` before either has sent anything and then both read a node
they have visited.  The u-peer announces `1` and returns; the v-peer stands at
`done <- 2` with `done` full; the coordinator holds the half-path `[1]` and
waits for the result of the v-peer; and no transition changes the state any
more: `Bfs` never returns.  Under another schedule of the same search no peer
announces at all: the u-peer empties its frontier before the v-peer has moved,
reports nil, and `Bfs` returns nil. -/
theorem Bfs_second_announcer_blocked :
    SymmetricGraph [(1, [2]), (2, [1])] ∧ Reach [(1, [2]), (2, [1])] 1 2 ∧
      (run (Bfs.init [(1, [2]), (2, [1])] 1 2)
        [U, V, U, U, V, V, U, V, U, U, U]).vPeer.pc = Pc.announce 2 ∧
      (run (Bfs.init [(1, [2]), (2, [1])] 1 2)
        [U, V, U, U, V, V, U, V, U, U, U]).done = some 1 ∧
      (run (Bfs.init [(1, [2]), (2, [1])] 1 2) [U, U, U, U, U, U, C]).done = none ∧
      (run (Bfs.init [(1, [2]), (2, [1])] 1 2) [U, U, U, U, U, U, C]).coord
        = Coord.returned none ∧
      (run (Bfs.init [(1, [2]), (2, [1])] 1 2)
        [U, V, U, U, V, V, U, V, U, U, U, V, C, C]).done = some 1 ∧
      (run (Bfs.init [(1, [2]), (2, [1])] 1 2)
        [U, V, U, U, V, V, U, V, U, U, U, V, C, C]).uPeer.pc = Pc.halted ∧
      (run (Bfs.init [(1, [2]), (2, [1])] 1 2)
        [U, V, U, U, V, V, U, V, U, U, U, V, C, C]).vPeer.pc = Pc.announce 2 ∧
      (run (Bfs.init [(1, [2]), (2, [1])] 1 2)
        [U, V, U, U, V, V, U, V, U, U, U, V, C, C]).vResult = none ∧
      (run (Bfs.init [(1, [2]), (2, [1])] 1 2)
        [U, V, U, U, V, V, U, V, U, U, U, V, C, C]).coord = Coord.awaitV [1] ∧
      ∀ l, step (run (Bfs.init [(1, [2]), (2, [1])] 1 2)
          [U, V, U, U, V, V, U, V, U, U, U, V, C, C]) l
        = run (Bfs.init [(1, [2]), (2, [1])] 1 2) [U, V, U, U, V, V, U, V, U, U, U, V, C, C] := by
  refine ⟨symmetric_pair, Relation.ReflTransGen.single (by decide), by decide, by decide,
    by decide, by decide, by decide, by decide, by decide, by decide, by decide, ?_⟩
  intro l
  rcases l with ⟨a, p⟩
  cases a <;> cases p <;> decide

/-! ## Further runs -/

/-- On the graph `1 → [2, 3], 2 → [4], 3 → [4], 4 → [2, 3]`, where `4` is two
hops from `1`, `Bfs(graph, 1, 4)` returns nil when the u-peer empties its
frontier before the v-peer has moved. -/
theorem Bfs_early_exhaustion :
    (run (Bfs.init [(1, [2, 3]), (2, [4]), (3, [4]), (4, [2, 3])] 1 4)
        [U, U, U, U, U, U, U, U, U, U, U, U, U, U, U, U, U, U, C]).coord
        = Coord.returned none ∧
      Reach [(1, [2, 3]), (2, [4]), (3, [4]), (4, [2, 3])] 1 4 := by
  refine ⟨by decide, ?_⟩
  exact Relation.ReflTransGen.tail (Relation.ReflTransGen.single (b := 2) (by decide)) (by decide)

/-! ## A search from a node without outgoing edges -/

theorem Lone.lone_frame {c : PeerCtx} (h : Lone c) (f : Option Fault) :
    Lone { c with fault := f } :=
  ⟨h.shape, h.no_neighbors, h.sent_nothing⟩

/-- A transition of the program keeps the invariant of a quiet search from a
node without outgoing edges. -/
theorem QuietLone.ql_step {graph : GoMap (List Int)} {u v : Int} {s : Sys}
    (hdis : ∀ x, Reach graph u x → Reach graph v x → False)
    (h0u : ¬ Reach graph u 0) (h0v : ¬ Reach graph v 0)
    (h : QuietLone graph u v s) (l : Label) : QuietLone graph u v (step s l) := by
  have hst := step_start s l
  have hq : Quiet graph (step s l) :=
    h.quiet.quiet_step h.inv (by rw [h.start_u, h.start_v]; exact hdis)
      (by rw [h.start_u]; exact h0u) (by rw [h.start_v]; exact h0v) l
  refine ⟨h.inv.sys_step l, hq, ?_, hst.1.trans h.start_u, hst.2.trans h.start_v⟩
  unfold step
  cases l.actor with
  | u =>
    simp only
    rcases peerStep_trans l.pick s.ctxU with heq | ht
    · rw [heq]; exact h.lone
    · rcases h.lone.lone_step h.quiet.done_empty ht with ⟨h1, _⟩ | ⟨h1, _⟩ <;> exact h1
  | v =>
    simp only
    rcases peerStep_trans l.pick s.ctxV with heq | ht
    · rw [heq]; exact h.lone
    · refine h.lone.lone_sync s.linked_symm ?_ ht.peerIn_closed
      rcases ht.peerIn_cases with k | k
      · exact Or.inr k
      · exact Or.inl (by rw [k]; rfl)
  | coord =>
    simp only
    obtain ⟨c, f, hcf⟩ := coordStep_frame l.pick s
    rw [hcf]
    exact h.lone.lone_frame f

theorem QuietLone.ql_run {graph : GoMap (List Int)} {u v : Int}
    (hdis : ∀ x, Reach graph u x → Reach graph v x → False)
    (h0u : ¬ Reach graph u 0) (h0v : ¬ Reach graph v 0) (sched : List Label) :
    ∀ s : Sys, QuietLone graph u v s → QuietLone graph u v (run s sched) := by
  induction sched with
  | nil => intro s h; exact h
  | cons l rest ih => intro s h; exact ih _ (h.ql_step hdis h0u h0v l)

theorem QuietLone.ql_init (graph : GoMap (List Int)) (u v : Int)
    (hu : neighborsOf graph u = []) : QuietLone graph u v (Bfs.init graph u v) :=
  ⟨Inv.holds_init graph u v, Quiet.quiet_init graph u v,
    ⟨Or.inl ⟨rfl, rfl, rfl, rfl, rfl⟩, hu, rfl⟩, rfl, rfl⟩

/-- A peer has reported nil. -/
theorem QuietLone.reported_step {graph : GoMap (List Int)} {u v : Int} {s : Sys}
    (h : QuietLone graph u v s)
    (hres : s.uResult = some none ∨ s.vResult = some none) :
    (step s U).uResult = some none ∨ (step s U).vResult = some none := by
  rcases hres with hres | hres
  · left
    show (peerStep true s.ctxU).result = some none
    rcases peerStep_trans true s.ctxU with heq | ht
    · rw [heq]; exact hres
    · exact ht.result_stable h.inv.1.left _ hres
  · exact Or.inr hres

/-- At its first `select`, a lone peer that finds a notification takes it and
stays at the `select`. -/
theorem QuietLone.pop_step {graph : GoMap (List Int)} {u v : Int} {s : Sys}
    (h : QuietLone graph u v s) (hpc : s.uPeer.pc = Pc.select) (x : Int) (t : List Int)
    (hbuf : s.uChan.buf = x :: t) : (step s U).uChan.buf = t := by
  have hvis : s.uPeer.visited = [] := by
    rcases h.lone.shape with ⟨_, _, h3, _⟩ | ⟨h1, _⟩ | ⟨h1, _⟩ | ⟨h1, _⟩
    · exact h3
    · have h1' : s.uPeer.pc = _ := h1
      rw [hpc] at h1'; cases h1'
    · have h1' : s.uPeer.pc = _ := h1
      rw [hpc] at h1'; cases h1'
    · have h1' : s.uPeer.pc = _ := h1
      rw [hpc] at h1'; cases h1'
  have hf := h.quiet.no_fault
  have hd := h.quiet.done_empty
  obtain ⟨⟨start, frontier, visited, pred, g, edgeCount, pc⟩, vPeer, ⟨buf, closed⟩, vChan, done,
    uResult, vResult, coord, fault⟩ := s
  simp only at hpc hbuf hvis hf hd
  subst hpc hbuf hvis hf hd
  simp [step, U, Sys.putU, Sys.ctxU, peerStep, Chan.ready, Chan.pop]

/-- After two transitions a lone peer has reported nil, unless it is at its
first `select` and its inbound channel is closed; then the partner has
reported nil. -/
theorem QuietLone.two_steps {graph : GoMap (List Int)} {u v : Int} {s : Sys}
    (h : QuietLone graph u v s) (hbuf : s.uPeer.pc = Pc.select → s.uChan.buf = []) :
    (step (step s U) U).uResult = some none ∨ (step (step s U) U).vResult = some none := by
  by_cases hcl : s.uChan.closed = true
  · right
    have hpc : s.vPeer.pc = Pc.halted := h.inv.1.right.closed_halted hcl
    exact h.quiet.right.late_result (Or.inr hpc)
  · left
    have hcl2 : s.uChan.closed = false := by simpa using hcl
    show (peerStep true (peerStep true s.ctxU)).result = some none
    apply h.lone.result_after_two h.quiet.no_fault h.quiet.done_empty
    intro hsel
    show s.uChan.ready = false
    simp [Chan.ready, hbuf hsel, hcl2]

theorem run_replicate_succ (s : Sys) (l : Label) (k : Nat) :
    run s (List.replicate (k + 1) l) = run (step s l) (List.replicate k l) := rfl

theorem QuietLone.reported_run {graph : GoMap (List Int)} {u v : Int}
    (hdis : ∀ x, Reach graph u x → Reach graph v x → False)
    (h0u : ¬ Reach graph u 0) (h0v : ¬ Reach graph v 0) (k : Nat) :
    ∀ s : Sys, QuietLone graph u v s → (s.uResult = some none ∨ s.vResult = some none) →
      ((run s (List.replicate k U)).uResult = some none ∨
        (run s (List.replicate k U)).vResult = some none) := by
  induction k with
  | zero => intro s _ hres; exact hres
  | succ k ih =>
    intro s h hres
    rw [run_replicate_succ]
    exact ih _ (h.ql_step hdis h0u h0v U) (h.reported_step hres)

/-- A lone u-peer that is given as many transitions as it has notifications
queued, and two more, has reported nil, or its partner has. -/
theorem QuietLone.drain {graph : GoMap (List Int)} {u v : Int}
    (hdis : ∀ x, Reach graph u x → Reach graph v x → False)
    (h0u : ¬ Reach graph u 0) (h0v : ¬ Reach graph v 0) (n : Nat) :
    ∀ s : Sys, QuietLone graph u v s → s.uChan.buf.length = n →
      ((run s (List.replicate (n + 2) U)).uResult = some none ∨
        (run s (List.replicate (n + 2) U)).vResult = some none) := by
  induction n with
  | zero =>
    intro s h hlen
    have hbuf : s.uChan.buf = [] := List.length_eq_zero.mp hlen
    exact h.two_steps (fun _ => hbuf)
  | succ n ih =>
    intro s h hlen
    by_cases hpc : s.uPeer.pc = Pc.select
    · obtain ⟨x, t, hxt⟩ : ∃ x t, s.uChan.buf = x :: t := by
        cases hb : s.uChan.buf with
        | nil => rw [hb] at hlen; cases hlen
        | cons x t => exact ⟨x, t, rfl⟩
      have hpop := h.pop_step hpc x t hxt
      rw [run_replicate_succ]
      apply ih _ (h.ql_step hdis h0u h0v U)
      rw [hpop]
      rw [hxt] at hlen
      simpa using hlen
    · have h2 := h.two_steps (fun hsel => absurd hsel hpc)
      have hq2 : QuietLone graph u v (step (step s U) U) :=
        (h.ql_step hdis h0u h0v U).ql_step hdis h0u h0v U
      have := QuietLone.reported_run hdis h0u h0v (n + 1) _ hq2 h2
      rw [run_replicate_succ, run_replicate_succ]
      exact this

/-- In a quiet search the coordinator returns nil as soon as a peer has
reported. -/
theorem Quiet.coord_nil_returns {graph : GoMap (List Int)} {s : Sys} (h : Quiet graph s)
    (hres : s.uResult = some none ∨ s.vResult = some none) (pick : Bool) :
    (coordStep pick s).coord = Coord.returned none := by
  simp only [coordStep, h.no_fault, Option.isSome_none, Bool.false_eq_true, if_false]
  rcases h.coord_nil with hc | hc
  · rw [hc]
    simp only
    have hu2 : s.uResult = none ∨ s.uResult = some none := h.left.nil_result
    have hv2 : s.vResult = none ∨ s.vResult = some none := h.right.nil_result
    rcases hu2 with hu2 | hu2 <;> rcases hv2 with hv2 | hv2
    · rw [hu2, hv2] at hres; simp at hres
    · rw [hu2, hv2]; rfl
    · rw [hu2, hv2]; rfl
    · rw [hu2, hv2]; simp only; split <;> rfl
  · rw [hc]; exact hc

theorem run_append (s : Sys) (a b : List Label) : run s (a ++ b) = run (run s a) b := by
  unfold run
  rw [List.foldl_append]

/-- A search whose two sides never meet.  On a graph that lists every edge in
both directions, for `u`, `v` such that `v` is not reachable from `u` and node `0` is reachable
from neither, under every interleaving: `Bfs(graph, u, v)` never panics and
never returns a non-empty sequence; whenever it has returned, it has returned
nil.  When moreover `u` has no outgoing edges, then from every state of the
run, letting the u-peer take as many transitions as it has notifications
queued and two more, and then the coordinator one, makes `Bfs` return nil. -/
theorem Bfs_unreachable_nil (graph : GoMap (List Int)) (u v : Int) (sched : List Label)
    (hsym : SymmetricGraph graph) (hunreach : ¬ Reach graph u v)
    (h0u : ¬ Reach graph u 0) (h0v : ¬ Reach graph v 0) :
    (run (Bfs.init graph u v) sched).fault = none ∧
      ((run (Bfs.init graph u v) sched).coord = Coord.selecting ∨
        (run (Bfs.init graph u v) sched).coord = Coord.returned none) ∧
      (neighborsOf graph u = [] →
        (run (run (Bfs.init graph u v) sched)
          (List.replicate ((run (Bfs.init graph u v) sched).uChan.buf.length + 2) U ++ [C])).coord
          = Coord.returned none) := by
  have hdis : ∀ x, Reach graph u x → Reach graph v x → False := fun x hu hv =>
    hunreach (Relation.ReflTransGen.trans hu (Reach.reach_symm hsym hv))
  have hQ := Quiet.quiet_run u v hdis h0u h0v sched (Bfs.init graph u v) rfl rfl
    (Inv.holds_init graph u v) (Quiet.quiet_init graph u v)
  refine ⟨hQ.no_fault, hQ.coord_nil, ?_⟩
  intro hu
  have hql := QuietLone.ql_run hdis h0u h0v sched _ (QuietLone.ql_init graph u v hu)
  have hres := QuietLone.drain hdis h0u h0v _ _ hql rfl
  have hql2 := QuietLone.ql_run hdis h0u h0v
    (List.replicate ((run (Bfs.init graph u v) sched).uChan.buf.length + 2) U) _ hql
  rw [run_append]
  exact hql2.quiet.coord_nil_returns hres true

/-- A set of nodes that is closed under the edges of `graph` holds whatever is
reachable from one of its members. -/
theorem Reach.closed {graph : GoMap (List Int)} (S : Int → Prop)
    (hS : ∀ x y, S x → y ∈ neighborsOf graph x → S y) {a b : Int} (ha : S a)
    (h : Reach graph a b) : S b := by
  induction h with
  | refl => exact ha
  | tail _ hxy ih => exact hS _ _ ih hxy

theorem one_pair_neighbors (x y : Int) (h : y ∈ neighborsOf [(3, [4]), (4, [3])] x) :
    (x = 3 ∧ y = 4) ∨ (x = 4 ∧ y = 3) := by
  unfold neighborsOf GoMap.get? at h
  by_cases h3 : x = 3
  · subst h3; left; exact ⟨rfl, by simpa [List.lookup] using h⟩
  · by_cases h4 : x = 4
    · subst h4; right; exact ⟨rfl, by simpa [List.lookup] using h⟩
    · have e3 : (x == 3) = false := by simpa using h3
      have e4 : (x == 4) = false := by simpa using h4
      simp [List.lookup, e3, e4] at h

/-- An instance: the graph `3 - 4` searched from `1`, a node
without outgoing edges, to `3`, after the v-peer has expanded `3` and notified
`4`. -/
theorem Bfs_unreachable_nil_witness :
    (run (Bfs.init [(3, [4]), (4, [3])] 1 3) [V, V, V]).fault = none ∧
      ((run (Bfs.init [(3, [4]), (4, [3])] 1 3) [V, V, V]).coord = Coord.selecting ∨
        (run (Bfs.init [(3, [4]), (4, [3])] 1 3) [V, V, V]).coord = Coord.returned none) ∧
      (run (run (Bfs.init [(3, [4]), (4, [3])] 1 3) [V, V, V])
          (List.replicate
            ((run (Bfs.init [(3, [4]), (4, [3])] 1 3) [V, V, V]).uChan.buf.length + 2) U
            ++ [C])).coord = Coord.returned none :=
  (fun h => ⟨h.1, h.2.1, h.2.2 rfl⟩)
    (Bfs_unreachable_nil [(3, [4]), (4, [3])] 1 3 [V, V, V]
      (by
        intro a b h
        rcases one_pair_neighbors a b h with ⟨rfl, rfl⟩ | ⟨rfl, rfl⟩ <;> decide)
      (by
        intro h
        have := Reach.closed (fun x => x = 1) (fun x y hx hxy => by
          rcases one_pair_neighbors x y hxy with ⟨rfl, rfl⟩ | ⟨rfl, rfl⟩ <;> simp_all)
          rfl h
        simp at this)
      (by
        intro h
        have := Reach.closed (fun x => x = 1) (fun x y hx hxy => by
          rcases one_pair_neighbors x y hxy with ⟨rfl, rfl⟩ | ⟨rfl, rfl⟩ <;> simp_all)
          rfl h
        simp at this)
      (by
        intro h
        have := Reach.closed (fun x => x = 3 ∨ x = 4) (fun x y hx hxy => by
          rcases one_pair_neighbors x y hxy with ⟨rfl, rfl⟩ | ⟨rfl, rfl⟩ <;> simp_all)
          (Or.inl rfl) h
        simp at this))

/-- Both peers follow outgoing edges: on the graph `2 → 1, 1 → 3` the node
`2` is not reachable from `1`, and `Bfs(graph, 1, 2)` returns `[1, 2]` under
the schedule shown. -/
theorem Bfs_unreachable_returns_path :
    (run (Bfs.init [(2, [1]), (1, [3])] 1 2)
        [U, U, U, V, V, V, V, U, U, U, V, V, C, C]).coord = Coord.returned (some [1, 2]) ∧
      ¬ Reach [(2, [1]), (1, [3])] 1 2 := by
  refine ⟨by decide, ?_⟩
  intro h
  have := Reach.closed (fun x => x = 1 ∨ x = 3) (fun x y hx hxy => by
    unfold neighborsOf GoMap.get? at hxy
    rcases hx with rfl | rfl
    · right; simpa [List.lookup] using hxy
    · simp [List.lookup] at hxy) (Or.inl rfl) h
  simp at this

/-! ## One peer on its own: what a late `visited[next] = true` does to `pred`

The loop over `neighbors` tests `visited`, and a node enters `visited` only
after its own expansion.  A node that is queued but not yet expanded, or that
is being expanded, is therefore discovered again: `pred` is assigned again, the
node is queued again and notified again. -/

/-- Node `3` is one hop from node `1` on the triangle `1 - 2 - 3 - 1`. -/
theorem triangle_hop_distance :
    IsHopDistance [(1, [2, 3]), (2, [1, 3]), (3, [1, 2])] 1 3 1 := by
  refine ⟨⟨[1, 3], ⟨rfl, rfl, ?_⟩, rfl⟩, ?_⟩
  · simp [ForwardPath, neighborsOf, GoMap.get?, List.lookup]
  · intro p hp
    obtain ⟨h1, h2, _⟩ := hp
    match p, h1, h2 with
    | [], h1, _ => simp at h1
    | [a], h1, h2 =>
      simp only [List.head?_cons, Option.some.injEq] at h1
      simp only [List.getLast?_singleton, Option.some.injEq] at h2
      omega
    | _ :: _ :: _, _, _ => simp

/-- **C11 (the code breaks it).** On the graph `1 - 2` with a self-loop at `2`
(`1: [2]`, `2: [2, 1]`) a peer started at `1` that only expands (no event but
its own transitions) reaches, after two expansions, a state in which `2` is a
key of `pred` and `pred[2] = 2`: following predecessors from `2` never reaches
the start node `1`, and `pathFrom(pred, 2, 1)` raises the cycle fault.  In the
program this surfaces as a panic: `Bfs(graph, 1, 2)` dies in `pathFrom` under
the schedule shown, although `[1, 2]` is a path. -/
theorem peer_self_loop_pred_cycle :
    hasKey (peerRun (PeerCtx.init 1 [(1, [2]), (2, [2, 1])])
        [M, M, M, M, M, M, M]).me.pred 2 = true ∧
      (∀ i, follow (peerRun (PeerCtx.init 1 [(1, [2]), (2, [2, 1])])
        [M, M, M, M, M, M, M]).me.pred 2 i = 2) ∧
      pathFrom (peerRun (PeerCtx.init 1 [(1, [2]), (2, [2, 1])])
        [M, M, M, M, M, M, M]).me.pred 2 1 = PathResult.cycleFault ∧
      (peerRun (PeerCtx.init 1 [(1, [2]), (2, [2, 1])])
        [M, M, M, M, M, M, M]).me.pc = Pc.select ∧
      (run (Bfs.init [(1, [2]), (2, [2, 1])] 1 2)
        [U, U, U, U, U, U, U, V, V, V, V, V, V, U, U, U]).fault = some Fault.predCycle := by
  refine ⟨by decide, ?_, by decide, by decide, by decide⟩
  have hp : (peerRun (PeerCtx.init 1 [(1, [2]), (2, [2, 1])])
      [M, M, M, M, M, M, M]).me.pred = [(2, 2)] := by decide
  rw [hp]
  intro i
  induction i with
  | zero => rfl
  | succ i ih => rw [follow_succ_last, ih]; rfl

/-- **C12 (the code breaks it).** On the triangle `1 - 2 - 3 - 1` a peer started
at `1` that only expands has, after three expansions, node `3` in `visited`
and `pathFrom(pred, 3, 1) = [3, 2, 1]`: two predecessor steps, while `3` is one
hop from `1`.  The expansion of `2` found `3` queued but not yet in `visited`
and assigned `pred[3]` again. -/
theorem peer_visited_longer_than_distance :
    isVisited (peerRun (PeerCtx.init 1 [(1, [2, 3]), (2, [1, 3]), (3, [1, 2])])
        [M, M, M, M, M, M, M, M, M, M, M, M]).me.visited 3 = true ∧
      pathFrom (peerRun (PeerCtx.init 1 [(1, [2, 3]), (2, [1, 3]), (3, [1, 2])])
        [M, M, M, M, M, M, M, M, M, M, M, M]).me.pred 3 1 = PathResult.path [3, 2, 1] ∧
      IsHopDistance [(1, [2, 3]), (2, [1, 3]), (3, [1, 2])] 1 3 1 :=
  ⟨by decide, by decide, triangle_hop_distance⟩

/-- **C13 (the code breaks it).** The case `other := <-peerIn` takes what it
receives for a notification without asking whether the channel is closed, and
a closed, drained channel yields `0`.  On the graph `1 → 0 → 5` searched from
`1` to `2`: the u-peer expands `1` and `0`; the v-peer reads the notifications
`0` and `5`, expands `2`, reports nil and closes its channel without having
sent anything; the u-peer then receives `0`, which it has visited, and
announces `0` on `done`, though `0` is neither the start node of the v-peer nor
a key of its `pred`.  It reports the half-path `[0, 1]`. -/
theorem Bfs_announces_unsent_zero :
    (run (Bfs.init [(1, [0]), (0, [5])] 1 2)
        [U, U, U, U, U, U, V, V, V, V, V]).uChan = { buf := [], closed := true } ∧
      (run (Bfs.init [(1, [0]), (0, [5])] 1 2)
        [U, U, U, U, U, U, V, V, V, V, V, U]).uPeer.pc = Pc.announce 0 ∧
      (run (Bfs.init [(1, [0]), (0, [5])] 1 2)
        [U, U, U, U, U, U, V, V, V, V, V, U, U]).done = some 0 ∧
      isVisited (run (Bfs.init [(1, [0]), (0, [5])] 1 2)
        [U, U, U, U, U, U, V, V, V, V, V, U, U]).uPeer.visited 0 = true ∧
      (run (Bfs.init [(1, [0]), (0, [5])] 1 2)
        [U, U, U, U, U, U, V, V, V, V, V, U, U]).vPeer.start = 2 ∧
      (run (Bfs.init [(1, [0]), (0, [5])] 1 2)
        [U, U, U, U, U, U, V, V, V, V, V, U, U]).vPeer.pred = [] ∧
      (run (Bfs.init [(1, [0]), (0, [5])] 1 2)
        [U, U, U, U, U, U, V, V, V, V, V, U, U, U]).uResult = some (some [0, 1]) := by
  refine ⟨by decide, by decide, by decide, by decide, by decide, by decide, by decide⟩

/-- **C14 (the code breaks it).** On the triangle `1 - 2 - 3 - 1` a peer started
at `1` that only expands sets `pred[3] = 1` in the expansion of `1`, and the
expansion of `2`, a later expansion step, changes it to `pred[3] = 2`: node `3`
is queued then, but not yet in `visited`.  The same step queues `3` a second
time and notifies it a second time. -/
theorem peer_pred_reassigned :
    (peerRun (PeerCtx.init 1 [(1, [2, 3]), (2, [1, 3]), (3, [1, 2])])
        [M, M, M, M]).me.pred.get? 3 = some 1 ∧
      (peerRun (PeerCtx.init 1 [(1, [2, 3]), (2, [1, 3]), (3, [1, 2])])
        [M, M, M, M]).me.pc = Pc.select ∧
      (peerRun (PeerCtx.init 1 [(1, [2, 3]), (2, [1, 3]), (3, [1, 2])])
        [M, M, M, M, M, M, M, M]).me.pred.get? 3 = some 2 ∧
      (peerRun (PeerCtx.init 1 [(1, [2, 3]), (2, [1, 3]), (3, [1, 2])])
        [M, M, M, M, M, M, M, M]).me.frontier = [3, 3] ∧
      (peerRun (PeerCtx.init 1 [(1, [2, 3]), (2, [1, 3]), (3, [1, 2])])
        [M, M, M, M, M, M, M, M]).peerOut.buf = [2, 3, 3] := by
  refine ⟨by decide, by decide, by decide, by decide, by decide⟩

/-! ## One whole expansion -/

theorem GoMap.del_del {β : Type} (m : GoMap β) (k : Int) : (m.del k).del k = m.del k := by
  unfold GoMap.del
  rw [List.filter_filter]
  congr 1
  funext e
  simp

theorem peerSteps_cons (c : PeerCtx) (p : Bool) (ps : List Bool) :
    peerSteps c (p :: ps) = peerSteps (peerStep p c) ps := rfl

/-- The `for` loop over `neighbors`, from a state that has `l` of it left to
the state that has none of it left: one transition for each element. -/
theorem expandLoop_steps (n : Int) :
    ∀ (l : List Int) (picks : List Bool) (c : PeerCtx),
      c.fault = none → c.me.pc = Pc.expand n l → picks.length = l.length →
      c.peerOut.buf.length + (unvisitedNeighbors c.me.visited l).length ≤ chanCap →
      peerSteps c picks =
        { c with
          peerOut := { c.peerOut with
            buf := c.peerOut.buf ++ unvisitedNeighbors c.me.visited l },
          me := { c.me with
            edgeCount := c.me.edgeCount + (unvisitedNeighbors c.me.visited l).length,
            pred := (unvisitedNeighbors c.me.visited l).foldl (fun p w => p.set w n) c.me.pred,
            frontier := c.me.frontier ++ unvisitedNeighbors c.me.visited l,
            graph := if unvisitedNeighbors c.me.visited l = [] then c.me.graph
                     else c.me.graph.del n,
            pc := Pc.expand n [] } } := by
  intro l
  induction l with
  | nil =>
    intro picks c hf hpc hlen _
    obtain ⟨⟨start, frontier, visited, pred, graph, edgeCount, pc⟩, ⟨buf, closed⟩, peerOut, done,
      result, fault⟩ := c
    simp only at hf hpc
    subst hf hpc
    have : picks = [] := List.length_eq_zero.mp hlen
    subst this
    simp [peerSteps, unvisitedNeighbors]
  | cons w l ih =>
    intro picks c hf hpc hlen hroom
    obtain ⟨⟨start, frontier, visited, pred, graph, edgeCount, pc⟩, peerIn, ⟨buf, closed⟩, done,
      result, fault⟩ := c
    simp only at hf hpc hroom
    subst hf hpc
    match picks, hlen with
    | p :: ps, hlen =>
      simp only [List.length_cons, Nat.add_right_cancel_iff] at hlen
      rw [peerSteps_cons]
      by_cases hv : hasKey visited w = true
      · have hU : unvisitedNeighbors visited (w :: l) = unvisitedNeighbors visited l := by
          simp [unvisitedNeighbors, List.filter, hv]
        rw [hU] at hroom
        have hstep : peerStep p
            { me := { start := start, frontier := frontier, visited := visited, pred := pred,
                      graph := graph, edgeCount := edgeCount, pc := Pc.expand n (w :: l) },
              peerIn := peerIn, peerOut := { buf := buf, closed := closed }, done := done,
              result := result, fault := none }
            = { me := { start := start, frontier := frontier, visited := visited, pred := pred,
                        graph := graph, edgeCount := edgeCount, pc := Pc.expand n l },
                  peerIn := peerIn, peerOut := { buf := buf, closed := closed }, done := done,
                result := result, fault := none } := by
          simp [peerStep, hv]
        rw [hstep, ih ps _ rfl rfl hlen hroom, hU]
      · have hv2 : hasKey visited w = false := by simpa using hv
        have hU : unvisitedNeighbors visited (w :: l) = w :: unvisitedNeighbors visited l := by
          simp [unvisitedNeighbors, List.filter, hv2]
        rw [hU] at hroom
        simp only [List.length_cons] at hroom
        have hr : (Chan.hasRoom { buf := buf, closed := closed }) = true := by
          simp only [Chan.hasRoom, decide_eq_true_eq]
          omega
        have hstep : peerStep p
            { me := { start := start, frontier := frontier, visited := visited, pred := pred,
                      graph := graph, edgeCount := edgeCount, pc := Pc.expand n (w :: l) },
              peerIn := peerIn, peerOut := { buf := buf, closed := closed }, done := done,
              result := result, fault := none }
            = { me := { start := start, frontier := frontier ++ [w], visited := visited,
                        pred := pred.set w n, graph := graph.del n, edgeCount := edgeCount + 1,
                        pc := Pc.expand n l },
                peerIn := peerIn, peerOut := { buf := buf ++ [w], closed := closed }, done := done,
                result := result, fault := none } := by
          simp [peerStep, hv2, hr, Chan.push]
        rw [hstep, ih ps _ rfl rfl hlen (by simp only [List.length_append, List.length_singleton]; omega), hU]
        simp [GoMap.del_del, Nat.add_assoc, Nat.add_comm 1]


theorem peerSteps_concat (c : PeerCtx) (ps : List Bool) (p : Bool) :
    peerSteps c (ps ++ [p]) = peerStep p (peerSteps c ps) := by
  simp [peerSteps, List.foldl_append]

/-- One whole expansion, from the `select` that takes `default` to the end of
the loop body: one transition for `frontier[0]`, one for each neighbor, one for
`visited[next] = true` and the test of `len(frontier)`. -/
theorem expansion_steps (c : PeerCtx) (n : Int) (rest : List Int) (picks : List Bool)
    (hf : c.fault = none) (hpc : c.me.pc = Pc.select) (hd : c.done = none)
    (hr : c.peerIn.ready = false) (hfr : c.me.frontier = n :: rest)
    (hroom : c.peerOut.buf.length +
      (unvisitedNeighbors c.me.visited (neighborsOf c.me.graph n)).length ≤ chanCap)
    (hlen : picks.length = (neighborsOf c.me.graph n).length + 2) :
    peerSteps c picks =
      { c with
        peerOut := { c.peerOut with
          buf := c.peerOut.buf ++ unvisitedNeighbors c.me.visited (neighborsOf c.me.graph n) },
        result :=
          if (rest ++ unvisitedNeighbors c.me.visited (neighborsOf c.me.graph n)).isEmpty
          then some none else c.result,
        me := { c.me with
          frontier := rest ++ unvisitedNeighbors c.me.visited (neighborsOf c.me.graph n),
          visited := c.me.visited.set n true,
          pred := (unvisitedNeighbors c.me.visited (neighborsOf c.me.graph n)).foldl
            (fun p w => p.set w n) c.me.pred,
          graph := if unvisitedNeighbors c.me.visited (neighborsOf c.me.graph n) = []
                   then c.me.graph else c.me.graph.del n,
          edgeCount := c.me.edgeCount +
            (unvisitedNeighbors c.me.visited (neighborsOf c.me.graph n)).length,
          pc :=
            if (rest ++ unvisitedNeighbors c.me.visited (neighborsOf c.me.graph n)).isEmpty
            then Pc.exiting else Pc.select } } := by
  obtain ⟨⟨start, frontier, visited, pred, graph, edgeCount, pc⟩, peerIn, ⟨buf, closed⟩, done,
    result, fault⟩ := c
  simp only at hf hpc hd hr hfr hroom hlen
  subst hf hpc hd hfr
  match picks, hlen with
  | p0 :: ps, hlen =>
    simp only [List.length_cons, Nat.add_right_cancel_iff] at hlen
    rcases List.eq_nil_or_concat ps with hnil | ⟨mid, pl, rfl⟩
    · subst hnil; simp at hlen
    · rw [List.concat_eq_append] at hlen ⊢
      rw [List.length_append, List.length_singleton] at hlen
      have hlen : mid.length = (neighborsOf graph n).length := by omega
      rw [peerSteps_cons, peerSteps_concat]
      have h0 : peerStep p0
          { me := { start := start, frontier := n :: rest, visited := visited, pred := pred,
                    graph := graph, edgeCount := edgeCount, pc := Pc.select },
            peerIn := peerIn, peerOut := { buf := buf, closed := closed }, done := none,
            result := result, fault := none }
          = { me := { start := start, frontier := rest, visited := visited, pred := pred,
                      graph := graph, edgeCount := edgeCount,
                      pc := Pc.expand n (neighborsOf graph n) },
              peerIn := peerIn, peerOut := { buf := buf, closed := closed }, done := none,
              result := result, fault := none } := by
        simp [peerStep, hr]
      rw [h0, expandLoop_steps n (neighborsOf graph n) mid _ rfl rfl hlen hroom]
      by_cases he : (rest ++ unvisitedNeighbors visited (neighborsOf graph n)).isEmpty = true
      · simp [peerStep, he]
      · simp [peerStep, he]


/-- The lookups of `pred` after the assignments `pred[w] = n` for `w` in `us`. -/
theorem get?_foldl_set (n : Int) (us : List Int) :
    ∀ (pred : GoMap Int) (k : Int),
      (us.foldl (fun p w => p.set w n) pred).get? k
        = if k ∈ us then some n else pred.get? k := by
  induction us with
  | nil => intro pred k; simp
  | cons w us ih =>
    intro pred k
    rw [List.foldl_cons, ih, GoMap.get?_set]
    by_cases h1 : k ∈ us
    · simp [h1]
    · by_cases h2 : k = w
      · simp [h2]
      · simp [h1, h2]

/-- **C15.** One expansion step, the `default` branch of `bfsPeer`, taken from a
state at the `select` with nothing to receive, frontier `n :: rest`, and room
on `peerOut` for the sends.  With `U` the neighbors of `n`, in adjacency order,
that have no `visited` entry before the step, the step ends after
`len(neighbors) + 2` transitions in a state where: the frontier is
`rest ++ U`; `U` has been sent on `peerOut`, in that order, after what was
queued there; `pred[w] = n` for every `w` in `U` and `pred` is unchanged at
every other key; the entry of `n` is gone from the peer's graph exactly when
`U` is non-empty, and every other entry is unchanged; `visited` has gained `n`
and nothing else; the peer has reported nil and left the loop if the new
frontier is empty, and otherwise is back at the `select` with no report made;
`edgeCount` has grown by `len(U)`, and `peerIn`, `done` and the start node are
untouched. -/
theorem expansion_step_effect (c : PeerCtx) (n : Int) (rest U : List Int) (picks : List Bool)
    (hf : c.fault = none) (hpc : c.me.pc = Pc.select) (hd : c.done = none)
    (hr : c.peerIn.ready = false) (hfr : c.me.frontier = n :: rest)
    (hU : U = unvisitedNeighbors c.me.visited (neighborsOf c.me.graph n))
    (hroom : c.peerOut.buf.length + U.length ≤ chanCap)
    (hlen : picks.length = (neighborsOf c.me.graph n).length + 2) :
    (peerSteps c picks).me.frontier = rest ++ U ∧
      (peerSteps c picks).peerOut.buf = c.peerOut.buf ++ U ∧
      (peerSteps c picks).peerOut.closed = c.peerOut.closed ∧
      (∀ k, (peerSteps c picks).me.pred.get? k = if k ∈ U then some n else c.me.pred.get? k) ∧
      (∀ k, (peerSteps c picks).me.graph.get? k
        = if k = n ∧ U ≠ [] then none else c.me.graph.get? k) ∧
      (∀ k, hasKey (peerSteps c picks).me.visited k = (decide (k = n) || hasKey c.me.visited k)) ∧
      (∀ k, isVisited (peerSteps c picks).me.visited k
        = (decide (k = n) || isVisited c.me.visited k)) ∧
      (peerSteps c picks).result = (if rest ++ U = [] then some none else c.result) ∧
      (peerSteps c picks).me.pc = (if rest ++ U = [] then Pc.exiting else Pc.select) ∧
      (peerSteps c picks).me.edgeCount = c.me.edgeCount + U.length ∧
      (peerSteps c picks).peerIn = c.peerIn ∧ (peerSteps c picks).done = none ∧
      (peerSteps c picks).fault = none ∧ (peerSteps c picks).me.start = c.me.start := by
  subst hU
  rw [expansion_steps c n rest picks hf hpc hd hr hfr hroom hlen]
  refine ⟨rfl, rfl, rfl, ?_, ?_, ?_, ?_, ?_, ?_, rfl, rfl, hd, hf, rfl⟩
  · intro k
    exact get?_foldl_set n _ c.me.pred k
  · intro k
    by_cases hU : unvisitedNeighbors c.me.visited (neighborsOf c.me.graph n) = []
    · simp [hU]
    · simp only [hU, if_false, GoMap.get?_del, ne_eq, not_false_eq_true, and_true]
  · intro k
    exact hasKey_set _ _ _ _
  · intro k
    simp only [isVisited, GoMap.get?_set]
    by_cases hk : k = n <;> simp [hk]
  · simp only [List.isEmpty_iff]
  · simp only [List.isEmpty_iff]

theorem expansion_step_effect_witness :
    (peerSteps (PeerCtx.init 1 [(1, [2, 1, 2]), (2, [1])])
        [true, true, true, true, true]).me.frontier = [] ++ [2, 1, 2] ∧
      (peerSteps (PeerCtx.init 1 [(1, [2, 1, 2]), (2, [1])])
        [true, true, true, true, true]).peerOut.buf
        = (PeerCtx.init 1 [(1, [2, 1, 2]), (2, [1])]).peerOut.buf ++ [2, 1, 2] ∧
      (peerSteps (PeerCtx.init 1 [(1, [2, 1, 2]), (2, [1])])
        [true, true, true, true, true]).peerOut.closed
        = (PeerCtx.init 1 [(1, [2, 1, 2]), (2, [1])]).peerOut.closed ∧
      (∀ k, (peerSteps (PeerCtx.init 1 [(1, [2, 1, 2]), (2, [1])])
        [true, true, true, true, true]).me.pred.get? k
        = if k ∈ [2, 1, 2] then some 1
          else (PeerCtx.init 1 [(1, [2, 1, 2]), (2, [1])]).me.pred.get? k) ∧
      (∀ k, (peerSteps (PeerCtx.init 1 [(1, [2, 1, 2]), (2, [1])])
        [true, true, true, true, true]).me.graph.get? k
        = if k = 1 ∧ ([2, 1, 2] : List Int) ≠ [] then none
          else (PeerCtx.init 1 [(1, [2, 1, 2]), (2, [1])]).me.graph.get? k) ∧
      (∀ k, hasKey (peerSteps (PeerCtx.init 1 [(1, [2, 1, 2]), (2, [1])])
        [true, true, true, true, true]).me.visited k
        = (decide (k = 1) || hasKey (PeerCtx.init 1 [(1, [2, 1, 2]), (2, [1])]).me.visited k)) ∧
      (∀ k, isVisited (peerSteps (PeerCtx.init 1 [(1, [2, 1, 2]), (2, [1])])
        [true, true, true, true, true]).me.visited k
        = (decide (k = 1)
            || isVisited (PeerCtx.init 1 [(1, [2, 1, 2]), (2, [1])]).me.visited k)) ∧
      (peerSteps (PeerCtx.init 1 [(1, [2, 1, 2]), (2, [1])])
        [true, true, true, true, true]).result
        = (if ([] : List Int) ++ [2, 1, 2] = [] then some none
           else (PeerCtx.init 1 [(1, [2, 1, 2]), (2, [1])]).result) ∧
      (peerSteps (PeerCtx.init 1 [(1, [2, 1, 2]), (2, [1])])
        [true, true, true, true, true]).me.pc
        = (if ([] : List Int) ++ [2, 1, 2] = [] then Pc.exiting else Pc.select) ∧
      (peerSteps (PeerCtx.init 1 [(1, [2, 1, 2]), (2, [1])])
        [true, true, true, true, true]).me.edgeCount
        = (PeerCtx.init 1 [(1, [2, 1, 2]), (2, [1])]).me.edgeCount + ([2, 1, 2] : List Int).length ∧
      (peerSteps (PeerCtx.init 1 [(1, [2, 1, 2]), (2, [1])])
        [true, true, true, true, true]).peerIn
        = (PeerCtx.init 1 [(1, [2, 1, 2]), (2, [1])]).peerIn ∧
      (peerSteps (PeerCtx.init 1 [(1, [2, 1, 2]), (2, [1])])
        [true, true, true, true, true]).done = none ∧
      (peerSteps (PeerCtx.init 1 [(1, [2, 1, 2]), (2, [1])])
        [true, true, true, true, true]).fault = none ∧
      (peerSteps (PeerCtx.init 1 [(1, [2, 1, 2]), (2, [1])])
        [true, true, true, true, true]).me.start
        = (PeerCtx.init 1 [(1, [2, 1, 2]), (2, [1])]).me.start :=
  expansion_step_effect (PeerCtx.init 1 [(1, [2, 1, 2]), (2, [1])]) 1 [] [2, 1, 2]
    [true, true, true, true, true] rfl rfl rfl rfl rfl rfl (by decide) rfl

/-! ## `pathFrom` always ends -/

/-- A read of `pred` yields `0` or one of the values of the map. -/
theorem predOf_mem_values (pred : GoMap Int) (x : Int) :
    predOf pred x ∈ (0 : Int) :: predValues pred := by
  cases hg : pred.get? x with
  | none => simp [predOf, hg]
  | some b =>
    have hx : x ∈ pred.keys := by
      unfold GoMap.keys
      rw [List.mem_dedup]
      by_contra hno
      have hnone : List.lookup x pred = none := by
        rw [List.lookup_eq_none_iff]
        intro p hp
        have : x ≠ p.1 := fun h => hno (List.mem_map.mpr ⟨p, hp, h.symm⟩)
        simpa using this
      unfold GoMap.get? at hg
      rw [hnone] at hg
      cases hg
    exact List.mem_cons_of_mem _ (List.mem_map.mpr ⟨x, hx, rfl⟩)

/-- Every node of the walk is `u`, `0`, or a value of the map. -/
theorem follow_mem_walkNodes (pred : GoMap Int) (u : Int) (i : Nat) :
    follow pred u i ∈ walkNodes pred u := by
  unfold walkNodes
  rw [List.mem_dedup]
  cases i with
  | zero => simp [follow_zero]
  | succ i =>
    rw [follow_succ_last]
    exact List.mem_cons_of_mem _ (predOf_mem_values pred _)

/-- A walk whose first `n` positions hold different nodes has at most as many
positions as there are nodes among `u`, `0` and the values of `pred`. -/
theorem follow_distinct_le_nodes (pred : GoMap Int) (u : Int) (n : Nat)
    (hd : ∀ i j, i < j → j < n → follow pred u i ≠ follow pred u j) :
    n ≤ (walkNodes pred u).length := by
  have hnd : ((List.range n).map (follow pred u)).Nodup := by
    rw [List.nodup_map_iff_inj_on (List.nodup_range n)]
    intro i hi j hj hij
    rw [List.mem_range] at hi hj
    by_contra hne
    rcases Nat.lt_or_gt_of_ne hne with h | h
    · exact hd i j h hj hij
    · exact hd j i h hi hij.symm
  have hsub : (List.range n).map (follow pred u) ⊆ walkNodes pred u := by
    intro x hx
    rw [List.mem_map] at hx
    obtain ⟨i, _, rfl⟩ := hx
    exact follow_mem_walkNodes pred u i
  have := (List.subperm_of_subset hnd hsub).length_le
  simpa using this

/-- The loop begins `n + 1` iterations when, after `n` fresh nodes none of
which is `v`, it stands on `v` or on a node it has seen. -/
theorem pathFromIters_eq (pred : GoMap Int) (v : Int) :
    ∀ (n fuel : Nat) (seen : GoMap Bool) (curr : Int),
      n < fuel →
      (∀ k < n, follow pred curr k ≠ v ∧ isVisited seen (follow pred curr k) = false) →
      (∀ i j, i < j → j < n → follow pred curr i ≠ follow pred curr j) →
      (follow pred curr n = v ∨ isVisited seen (follow pred curr n) = true
        ∨ ∃ i < n, follow pred curr i = follow pred curr n) →
      pathFromIters pred v fuel seen curr = n + 1 := by
  intro n
  induction n with
  | zero =>
    intro fuel seen curr hf _ _ hlast
    obtain ⟨fuel, rfl⟩ : ∃ f, fuel = f + 1 := ⟨fuel - 1, by omega⟩
    rw [follow_zero] at hlast
    rcases hlast with h | h | ⟨i, hi, _⟩
    · by_cases hs : isVisited seen curr = true
      · simp [pathFromIters, hs]
      · simp [pathFromIters, hs, h]
    · simp [pathFromIters, h]
    · omega
  | succ n ih =>
    intro fuel seen curr hf hne hd hlast
    obtain ⟨fuel, rfl⟩ : ∃ f, fuel = f + 1 := ⟨fuel - 1, by omega⟩
    have h0 : isVisited seen curr = false := (hne 0 (Nat.succ_pos _)).2
    have hv0 : curr ≠ v := (hne 0 (Nat.succ_pos _)).1
    have hrec := ih fuel (seen.set curr true) (predOf pred curr) (by omega)
      (fun k hk => by
        rw [← follow_succ, isVisited_set]
        have h1 := hne (k + 1) (by omega)
        have h2 : follow pred curr (k + 1) ≠ curr := fun h =>
          hd 0 (k + 1) (by omega) (by omega) (by rw [follow_zero]; exact h.symm)
        exact ⟨h1.1, by simp [h1.2, h2]⟩)
      (fun i j hij hj => by
        rw [← follow_succ, ← follow_succ]
        exact hd (i + 1) (j + 1) (by omega) (by omega))
      (by
        rw [← follow_succ, isVisited_set]
        rcases hlast with h | h | ⟨i, hi, h⟩
        · left; exact h
        · right; left; simp [h]
        · cases i with
          | zero => right; left; rw [follow_zero] at h; simp [h.symm]
          | succ i =>
            right; right
            exact ⟨i, by omega, by rw [← follow_succ, h]⟩)
    simp only [pathFromIters, h0, hv0, if_false, Bool.false_eq_true]
    rw [hrec]


/-- **C16.** `pathFrom` is total.  For every predecessor map `pred` (keys may
be missing, the map may contain cycles) and all nodes `u`, `v`, the call
`pathFrom(pred, u, v)` returns a path or raises the cycle fault, and its loop
ends after a number `n` of iterations that is at most the number of distinct
nodes among `u`, `0` and the values of `pred`, plus one: run with any bound
of at least `n` iterations, the loop begins exactly `n` iterations and ends
with the outcome of `pathFrom`. -/
theorem pathFrom_total (pred : GoMap Int) (u v : Int) :
    (pathFrom pred u v = PathResult.cycleFault ∨ ∃ p, pathFrom pred u v = PathResult.path p) ∧
      ∃ n, n ≤ (walkNodes pred u).length + 1 ∧
        ∀ fuel, n ≤ fuel →
          pathFromLoop pred v fuel [] u [] = pathFrom pred u v ∧
          pathFromIters pred v fuel [] u = n := by
  obtain ⟨j, hj, hstop, hne, hd⟩ := follow_stops pred u v
  have hjn : j ≤ (walkNodes pred u).length := follow_distinct_le_nodes pred u j hd
  have hiters : ∀ fuel, j + 1 ≤ fuel → pathFromIters pred v fuel [] u = j + 1 := by
    intro fuel hfuel
    refine pathFromIters_eq pred v j fuel [] u (by omega) (fun k hk => ⟨hne k hk, rfl⟩) hd ?_
    rcases hstop with h | h
    · exact Or.inl h
    · exact Or.inr (Or.inr h)
  by_cases hrep : ∃ i < j, follow pred u i = follow pred u j
  · have hloop : ∀ fuel, j + 1 ≤ fuel →
        pathFromLoop pred v fuel [] u [] = PathResult.cycleFault := fun fuel hfuel =>
      pathFromLoop_fault pred v j fuel [] u [] (by omega)
        (fun k hk => ⟨hne k hk, rfl⟩) hd (Or.inr hrep)
    have hf : pathFrom pred u v = PathResult.cycleFault := hloop (pred.length + 3) (by omega)
    refine ⟨Or.inl hf, j + 1, by omega, fun fuel hfuel => ⟨?_, hiters fuel hfuel⟩⟩
    rw [hf]
    exact hloop fuel hfuel
  · have hv : follow pred u j = v := hstop.resolve_right hrep
    have hd2 : ∀ i k, i < k → k ≤ j → follow pred u i ≠ follow pred u k := by
      intro i k hik hk h
      rcases Nat.lt_or_eq_of_le hk with hlt | heq
      · exact hd i k hik hlt h
      · subst heq
        exact hrep ⟨i, hik, h⟩
    have hloop : ∀ fuel, j + 1 ≤ fuel →
        pathFromLoop pred v fuel [] u []
          = PathResult.path ([] ++ (List.range (j + 1)).map (follow pred u)) := fun fuel hfuel =>
      pathFromLoop_path pred v j fuel [] u [] (by omega) hne hv (fun _ _ => rfl) hd2
    have hp := hloop (pred.length + 3) (by omega)
    refine ⟨Or.inr ⟨_, hp⟩, j + 1, by omega, fun fuel hfuel => ⟨?_, hiters fuel hfuel⟩⟩
    rw [hloop fuel hfuel]
    exact hp.symm

/-! ## The invariant of one peer on its own -/

theorem neighborsOf_del_ne (g : GoMap (List Int)) (n k : Int) (h : k ≠ n) :
    neighborsOf (g.del n) k = neighborsOf g k := by
  unfold neighborsOf
  rw [GoMap.get?_del, if_neg h]

/-- A transition of the peer keeps the invariant. -/
theorem Solo.solo_trans {graph : GoMap (List Int)} {c c2 : PeerCtx} (hS : Solo graph c)
    (ht : PeerTrans c c2) : Solo graph c2 := by
  cases ht with
  | recvDone m hf hpc hd =>
    refine ⟨hS.graph_sub, hS.pred_edge, ?_, hS.frontier_known, ?_, hS.no_index_fault,
      hS.visited_spent, ?_, hS.visited_true, hS.out_bound⟩
    · intro next rest h; cases h
    · intro h; cases h
    · intro next rest h; cases h
  | recvPeer hf hpc hr =>
    refine ⟨hS.graph_sub, hS.pred_edge, ?_, hS.frontier_known, ?_, hS.no_index_fault,
      hS.visited_spent, ?_, hS.visited_true, hS.out_bound⟩
    · intro next rest h
      simp only at h
      split at h <;> cases h
    · intro _; exact hS.select_frontier hpc
    · intro next rest h
      simp only at h
      split at h <;> cases h
  | dequeue next rest hf hpc hd hr hfr =>
    refine ⟨hS.graph_sub, hS.pred_edge, ?_, ?_, ?_, hS.no_index_fault, hS.visited_spent, ?_, hS.visited_true, hS.out_bound⟩
    · intro next2 rest2 h
      cases h
      exact ⟨hS.frontier_known next (by rw [hfr]; simp), fun x hx => hS.graph_sub _ _ hx⟩
    · intro x hx
      exact hS.frontier_known x (by rw [hfr]; exact List.mem_cons_of_mem _ hx)
    · intro h; cases h
    · intro next2 rest2 h
      cases h
      exact Or.inr (fun w hw => Or.inl hw)
  | frontierFault hf hpc hd hr hfr => exact absurd hfr (hS.select_frontier hpc)
  | skip next n rest hf hpc hv =>
    refine ⟨hS.graph_sub, hS.pred_edge, ?_, hS.frontier_known, ?_, hS.no_index_fault,
      hS.visited_spent, ?_, hS.visited_true, hS.out_bound⟩
    · intro next2 rest2 h
      cases h
      have := hS.expand_ok _ _ hpc
      exact ⟨this.1, fun x hx => this.2 x (List.mem_cons_of_mem _ hx)⟩
    · intro h; cases h
    · intro next2 rest2 h
      cases h
      rcases hS.expand_spent _ _ hpc with h | h
      · exact Or.inl h
      · right
        intro w hw
        rcases h w hw with h2 | h2
        · rcases List.mem_cons.mp h2 with h3 | h3
          · right; rw [h3]; exact hv
          · left; exact h3
        · right; exact h2
  | discover next n rest hf hpc hv hroom =>
    have hexp := hS.expand_ok _ _ hpc
    have hmono : ∀ x, Known c.me x → Known
        { c.me with edgeCount := c.me.edgeCount + 1, pred := c.me.pred.set n next,
                    frontier := c.me.frontier ++ [n], graph := c.me.graph.del next,
                    pc := Pc.expand next rest } x :=
      fun x hx => hx.set n next _ rfl rfl
    refine ⟨?_, ?_, ?_, ?_, ?_, hS.no_index_fault, ?_, ?_, hS.visited_true, ?_⟩
    · intro k x hx
      exact hS.graph_sub _ _ (neighborsOf_del_sub _ _ _ _ hx)
    · intro k n2 h
      simp only [GoMap.get?_set] at h
      split at h
      · rename_i hk
        cases h
        subst hk
        exact ⟨hexp.2 _ (by simp), hmono _ hexp.1⟩
      · exact ⟨(hS.pred_edge _ _ h).1, hmono _ (hS.pred_edge _ _ h).2⟩
    · intro next2 rest2 h
      cases h
      exact ⟨hmono _ hexp.1, fun x hx => hexp.2 x (List.mem_cons_of_mem _ hx)⟩
    · intro x hx
      simp only [List.mem_append, List.mem_singleton] at hx
      rcases hx with hx | hx
      · exact hmono _ (hS.frontier_known x hx)
      · subst hx
        exact Or.inr (by simp [hasKey_set])
    · intro h; cases h
    · intro x hx
      by_cases hxn : x = next
      · left
        show (c.me.graph.del next).get? x = none
        rw [GoMap.get?_del, if_pos hxn]
      · rcases hS.visited_spent x hx with h | h
        · left
          show (c.me.graph.del next).get? x = none
          rw [GoMap.get?_del, if_neg hxn]
          exact h
        · right
          intro w hw
          have hw2 : w ∈ neighborsOf (c.me.graph.del next) x := hw
          rw [neighborsOf_del_ne _ _ _ hxn] at hw2
          exact h w hw2
    · intro next2 rest2 h
      cases h
      left
      show (c.me.graph.del next).get? next = none
      rw [GoMap.get?_del, if_pos rfl]
    · show (c.peerOut.buf ++ [n]).length ≤ chanCap
      have : c.peerOut.buf.length < chanCap := by simpa [Chan.hasRoom] using hroom
      rw [List.length_append, List.length_singleton]
      omega
  | exhausted next hf hpc hfr =>
    refine ⟨hS.graph_sub, hS.pred_edge, ?_, hS.frontier_known, ?_, hS.no_index_fault, ?_, ?_, ?_, hS.out_bound⟩
    · intro next2 rest2 h; cases h
    · intro h; cases h
    · intro x hx
      have hx2 : hasKey (c.me.visited.set next true) x = true := hx
      simp only [hasKey_set, Bool.or_eq_true, decide_eq_true_eq] at hx2
      have hgrow : ∀ w, hasKey c.me.visited w = true →
          hasKey (c.me.visited.set next true) w = true := fun w hw => by
        simp [hasKey_set, hw]
      rcases hx2 with hx2 | hx2
      · subst hx2
        rcases hS.expand_spent _ _ hpc with h | h
        · exact Or.inl h
        · right
          intro w hw
          rcases h w hw with h2 | h2
          · cases h2
          · exact hgrow w h2
      · rcases hS.visited_spent x hx2 with h | h
        · exact Or.inl h
        · exact Or.inr (fun w hw => hgrow w (h w hw))
    · intro next2 rest2 h; cases h
    · intro x b hx
      have hx2 : (c.me.visited.set next true).get? x = some b := hx
      rw [GoMap.get?_set] at hx2
      split at hx2
      · cases hx2; rfl
      · exact hS.visited_true x b hx2
  | expanded next hf hpc hfr =>
    refine ⟨hS.graph_sub, hS.pred_edge, ?_, hS.frontier_known, ?_, hS.no_index_fault, ?_, ?_, ?_, hS.out_bound⟩
    · intro next2 rest2 h; cases h
    · intro _ h
      have : c.me.frontier = [] := h
      rw [this] at hfr; cases hfr
    · intro x hx
      have hx2 : hasKey (c.me.visited.set next true) x = true := hx
      simp only [hasKey_set, Bool.or_eq_true, decide_eq_true_eq] at hx2
      have hgrow : ∀ w, hasKey c.me.visited w = true →
          hasKey (c.me.visited.set next true) w = true := fun w hw => by
        simp [hasKey_set, hw]
      rcases hx2 with hx2 | hx2
      · subst hx2
        rcases hS.expand_spent _ _ hpc with h | h
        · exact Or.inl h
        · right
          intro w hw
          rcases h w hw with h2 | h2
          · cases h2
          · exact hgrow w h2
      · rcases hS.visited_spent x hx2 with h | h
        · exact Or.inl h
        · exact Or.inr (fun w hw => hgrow w (h w hw))
    · intro next2 rest2 h; cases h
    · intro x b hx
      have hx2 : (c.me.visited.set next true).get? x = some b := hx
      rw [GoMap.get?_set] at hx2
      split at hx2
      · cases hx2; rfl
      · exact hS.visited_true x b hx2
  | announce other hf hpc hd =>
    refine ⟨hS.graph_sub, hS.pred_edge, ?_, hS.frontier_known, ?_, hS.no_index_fault,
      hS.visited_spent, ?_, hS.visited_true, hS.out_bound⟩
    · intro next rest h; cases h
    · intro h; cases h
    · intro next rest h; cases h
  | report meet p hf hpc hp =>
    refine ⟨hS.graph_sub, hS.pred_edge, ?_, hS.frontier_known, ?_, hS.no_index_fault,
      hS.visited_spent, ?_, hS.visited_true, hS.out_bound⟩
    · intro next rest h; cases h
    · intro h; cases h
    · intro next rest h; cases h
  | reportFault meet hf hpc hp =>
    refine ⟨hS.graph_sub, hS.pred_edge, hS.expand_ok, hS.frontier_known, hS.select_frontier, ?_,
      hS.visited_spent, hS.expand_spent, hS.visited_true, hS.out_bound⟩
    intro h; cases h
  | close hf hpc =>
    refine ⟨hS.graph_sub, hS.pred_edge, ?_, hS.frontier_known, ?_, hS.no_index_fault,
      hS.visited_spent, ?_, hS.visited_true, hS.out_bound⟩
    · intro next rest h; cases h
    · intro h; cases h
    · intro next rest h; cases h

/-- An event keeps the invariant. -/
theorem Solo.solo_event {graph : GoMap (List Int)} {c : PeerCtx} (hS : Solo graph c)
    (e : Event) : Solo graph (peerEvent c e) := by
  have hsame : ∀ d : PeerCtx, d.me = c.me → d.fault = c.fault →
      d.peerOut.buf.length ≤ chanCap → Solo graph d := by
    intro d hme hfault hout
    refine ⟨?_, ?_, ?_, ?_, ?_, ?_, ?_, ?_, ?_, hout⟩
    · rw [hme]; exact hS.graph_sub
    · rw [hme]; exact hS.pred_edge
    · rw [hme]; exact hS.expand_ok
    · rw [hme]; exact hS.frontier_known
    · rw [hme]; exact hS.select_frontier
    · rw [hfault]; exact hS.no_index_fault
    · rw [hme]; exact hS.visited_spent
    · rw [hme]; exact hS.expand_spent
    · rw [hme]; exact hS.visited_true
  cases e with
  | move pickDone =>
    rcases peerStep_trans pickDone c with h | h
    · show Solo graph (peerStep pickDone c)
      rw [h]; exact hS
    · exact hS.solo_trans h
  | notify x =>
    show Solo graph (if c.peerIn.closed || !c.peerIn.hasRoom then c
      else { c with peerIn := c.peerIn.push x })
    split
    · exact hS
    · exact hsame _ rfl rfl hS.out_bound
  | hangUp => exact hsame _ rfl rfl hS.out_bound
  | drain =>
    refine hsame _ rfl rfl ?_
    show c.peerOut.buf.tail.length ≤ chanCap
    rw [List.length_tail]
    exact Nat.le_trans (Nat.sub_le _ _) hS.out_bound
  | meet m =>
    show Solo graph (match c.done with
      | none => { c with done := some m }
      | some _ => c)
    split
    · exact hsame _ rfl rfl hS.out_bound
    · exact hS
  | unmeet => exact hsame _ rfl rfl hS.out_bound

/-- The invariant holds when the goroutine starts. -/
theorem Solo.solo_init (start : Int) (graph : GoMap (List Int)) :
    Solo graph (PeerCtx.init start graph) := by
  refine ⟨fun _ _ h => h, ?_, ?_, ?_, ?_, ?_, ?_, ?_, ?_, Nat.zero_le _⟩
  · intro k n h; cases h
  · intro next rest h; cases h
  · intro x hx
    have : x = start := by simpa [PeerCtx.init, Peer.init] using hx
    exact Or.inl this
  · intro _ h; cases h
  · intro h; cases h
  · intro n h; cases h
  · intro next rest h; cases h
  · intro n b h; cases h

/-- The invariant holds in every state the peer can reach. -/
theorem Solo.solo_run (start : Int) (graph : GoMap (List Int)) (evs : List Event) :
    Solo graph (peerRun (PeerCtx.init start graph) evs) := by
  have h : ∀ (evs : List Event) (c : PeerCtx), Solo graph c → Solo graph (peerRun c evs) := by
    intro evs
    induction evs with
    | nil => intro c hc; exact hc
    | cons e rest ih => intro c hc; exact ih _ (hc.solo_event e)
  exact h evs _ (Solo.solo_init start graph)

/-- No event changes the start node of the peer. -/
theorem peerRun_start (evs : List Event) :
    ∀ c : PeerCtx, (peerRun c evs).me.start = c.me.start := by
  induction evs with
  | nil => intro c; rfl
  | cons e rest ih =>
    intro c
    show (peerRun (peerEvent c e) rest).me.start = c.me.start
    rw [ih]
    cases e with
    | move pickDone =>
      rcases peerStep_trans pickDone c with h | h
      · show (peerStep pickDone c).me.start = c.me.start
        rw [h]
      · exact h.start_eq
    | notify x =>
      show (if c.peerIn.closed || !c.peerIn.hasRoom then c
        else { c with peerIn := c.peerIn.push x }).me.start = c.me.start
      split <;> rfl
    | hangUp => rfl
    | drain => rfl
    | meet m =>
      show (match c.done with
        | none => { c with done := some m }
        | some _ => c).me.start = c.me.start
      split <;> rfl
    | unmeet => rfl

/-! ## What the invariant of one peer gives -/

/-- **C17.** The read `frontier[0]` in the `default` branch of `bfsPeer` is safe.
For every graph, every start node and every sequence of events (transitions of
the peer, notifications arriving or being taken, the partner closing its
channel, a meeting point put on `done` or taken from it): whenever the peer
stands at the `select` at the top of its loop its frontier is not empty, and
the out-of-range panic of `frontier[0]` has not happened.  The same holds of
both peers in every state of a run of `Bfs`. -/
theorem frontier_read_safe (graph : GoMap (List Int)) (start : Int) (evs : List Event) :
    ((peerRun (PeerCtx.init start graph) evs).me.pc = Pc.select →
        (peerRun (PeerCtx.init start graph) evs).me.frontier ≠ []) ∧
      (peerRun (PeerCtx.init start graph) evs).fault ≠ some Fault.frontierIndex ∧
      (∀ pick, (peerStep pick (peerRun (PeerCtx.init start graph) evs)).fault
        ≠ some Fault.frontierIndex) ∧
      ∀ (v : Int) (sched : List Label),
        ((run (Bfs.init graph start v) sched).uPeer.pc = Pc.select →
          (run (Bfs.init graph start v) sched).uPeer.frontier ≠ []) ∧
        ((run (Bfs.init graph start v) sched).vPeer.pc = Pc.select →
          (run (Bfs.init graph start v) sched).vPeer.frontier ≠ []) := by
  have hS := Solo.solo_run start graph evs
  refine ⟨hS.select_frontier, hS.no_index_fault, ?_, ?_⟩
  · intro pick
    exact (hS.solo_event (Event.move pick)).no_index_fault
  · intro v sched
    have hI : Inv graph (run (Bfs.init graph start v) sched) :=
      Inv.holds_run sched (Inv.holds_init graph start v)
    exact ⟨hI.1.left.select_frontier, hI.1.right.select_frontier⟩

/-- A slice that walks against the edges, read backwards, is a walk along
them. -/
theorem BackWalk.reverse_walk {graph : GoMap (List Int)} {p : List Int} {w start : Int}
    (hb : BackWalk graph p) (hhead : p.head? = some w) (hlast : p.getLast? = some start) :
    IsWalk graph start w p.reverse := by
  refine ⟨by rw [List.head?_reverse, hlast], by rw [List.getLast?_reverse, hhead], ?_⟩
  unfold ForwardPath
  rw [List.chain'_reverse]
  exact hb

/-- **C18.** In every state a single peer can reach on `graph` from start node
`start`, every `pred` entry is an edge of `graph` in the direction of the
search: `k` occurs in `graph[pred[k]]`.  So for every node `w` the peer has met
(its start node or a key of `pred`), a half-path `[w, ..., start]` returned by
`pathFrom(pred, w, start)` is, read backwards, a walk from `start` to `w` along
edges of `graph`.  In a run of `Bfs` every half-path a peer sends on its result
channel is of this kind. -/
theorem pred_entries_are_edges (graph : GoMap (List Int)) (start : Int) (evs : List Event) :
    (∀ k n, (peerRun (PeerCtx.init start graph) evs).me.pred.get? k = some n →
        k ∈ neighborsOf graph n) ∧
      (∀ w p, Known (peerRun (PeerCtx.init start graph) evs).me w →
        pathFrom (peerRun (PeerCtx.init start graph) evs).me.pred w start = PathResult.path p →
        IsWalk graph start w p.reverse) ∧
      ∀ (v : Int) (sched : List Label) (p : List Int),
        ((run (Bfs.init graph start v) sched).uResult = some (some p) →
          ∃ w, p.head? = some w ∧ IsWalk graph start w p.reverse) ∧
        ((run (Bfs.init graph start v) sched).vResult = some (some p) →
          ∃ w, p.head? = some w ∧ IsWalk graph v w p.reverse) := by
  have hS := Solo.solo_run start graph evs
  have hstart : (peerRun (PeerCtx.init start graph) evs).me.start = start :=
    peerRun_start evs _
  refine ⟨fun k n h => (hS.pred_edge k n h).1, ?_, ?_⟩
  · intro w p hw hp
    have hp2 : pathFrom (peerRun (PeerCtx.init start graph) evs).me.pred w
        (peerRun (PeerCtx.init start graph) evs).me.start = PathResult.path p := by
      rw [hstart]; exact hp
    obtain ⟨_, hwalk, hlast⟩ := pathFrom_backWalk graph _ w p hS.pred_edge hw hp2
    rw [hstart] at hlast
    exact hwalk.reverse_walk (pathFrom_path_props _ _ _ _ hp).1 hlast
  · intro v sched p
    have hI : Inv graph (run (Bfs.init graph start v) sched) :=
      Inv.holds_run sched (Inv.holds_init graph start v)
    have hst := run_start sched (Bfs.init graph start v)
    have hhead : ∀ q : List Int, q ≠ [] → ∃ w, q.head? = some w := by
      intro q hq
      cases q with
      | nil => exact absurd rfl hq
      | cons a t => exact ⟨a, rfl⟩
    constructor
    · intro h
      obtain ⟨hne, hwalk, hlast⟩ := hI.1.left.result_walk p h
      obtain ⟨w, hw⟩ := hhead p hne
      have hl : p.getLast? = some start := by rw [hlast]; exact congrArg some hst.1
      exact ⟨w, hw, hwalk.reverse_walk hw hl⟩
    · intro h
      obtain ⟨hne, hwalk, hlast⟩ := hI.1.right.result_walk p h
      obtain ⟨w, hw⟩ := hhead p hne
      have hl : p.getLast? = some v := by rw [hlast]; exact congrArg some hst.2
      exact ⟨w, hw, hwalk.reverse_walk hw hl⟩

/-- A node with a `visited` entry has nothing left to discover. -/
theorem Solo.spent_unvisited {graph : GoMap (List Int)} {c : PeerCtx} (hS : Solo graph c)
    (n : Int) (hv : hasKey c.me.visited n = true) :
    unvisitedNeighbors c.me.visited (neighborsOf c.me.graph n) = [] := by
  unfold unvisitedNeighbors
  rw [List.filter_eq_nil_iff]
  intro w hw
  rcases hS.visited_spent n hv with h | h
  · simp [neighborsOf, h] at hw
  · simp [h w hw]

/-- The assignment `visited[n] = true` changes no lookup when `n` has an entry
and all entries hold `true`. -/
theorem Solo.visited_set_get? {graph : GoMap (List Int)} {c : PeerCtx} (hS : Solo graph c)
    (n : Int) (hv : hasKey c.me.visited n = true) (k : Int) :
    (c.me.visited.set n true).get? k = c.me.visited.get? k := by
  rw [GoMap.get?_set]
  by_cases hk : k = n
  · subst hk
    obtain ⟨b, hb⟩ := hasKey_get? _ _ hv
    rw [if_pos rfl, hb, hS.visited_true k b hb]
  · rw [if_neg hk]

/-- **C19.** Re-expansion is a no-op.  In every state a single peer can reach,
every node with a `visited` entry has no entry left in the peer's graph or has
only neighbors there that have a `visited` entry themselves.  Therefore an
expansion step (the `default` branch, taken at the `select` with nothing to
receive) whose frontier head `n` is already visited ends after
`len(graph[n]) + 2` transitions having done no more than remove `n` from the
frontier: nothing is sent on `peerOut`, and `pred`, the peer's graph,
`edgeCount` and every lookup of `visited` are as before.  As after any
expansion, the peer then reports nil if the frontier has become empty and is
back at the `select` otherwise. -/
theorem reexpansion_is_noop (graph : GoMap (List Int)) (start : Int) (evs : List Event) :
    (∀ n, hasKey (peerRun (PeerCtx.init start graph) evs).me.visited n = true →
        (peerRun (PeerCtx.init start graph) evs).me.graph.get? n = none ∨
        ∀ w ∈ neighborsOf (peerRun (PeerCtx.init start graph) evs).me.graph n,
          hasKey (peerRun (PeerCtx.init start graph) evs).me.visited w = true) ∧
      ∀ (n : Int) (rest : List Int) (picks : List Bool),
        (peerRun (PeerCtx.init start graph) evs).fault = none →
        (peerRun (PeerCtx.init start graph) evs).me.pc = Pc.select →
        (peerRun (PeerCtx.init start graph) evs).done = none →
        (peerRun (PeerCtx.init start graph) evs).peerIn.ready = false →
        (peerRun (PeerCtx.init start graph) evs).me.frontier = n :: rest →
        hasKey (peerRun (PeerCtx.init start graph) evs).me.visited n = true →
        picks.length
          = (neighborsOf (peerRun (PeerCtx.init start graph) evs).me.graph n).length + 2 →
        (peerSteps (peerRun (PeerCtx.init start graph) evs) picks).me.frontier = rest ∧
        (peerSteps (peerRun (PeerCtx.init start graph) evs) picks).peerOut
          = (peerRun (PeerCtx.init start graph) evs).peerOut ∧
        (peerSteps (peerRun (PeerCtx.init start graph) evs) picks).me.pred
          = (peerRun (PeerCtx.init start graph) evs).me.pred ∧
        (peerSteps (peerRun (PeerCtx.init start graph) evs) picks).me.graph
          = (peerRun (PeerCtx.init start graph) evs).me.graph ∧
        (∀ k, (peerSteps (peerRun (PeerCtx.init start graph) evs) picks).me.visited.get? k
          = (peerRun (PeerCtx.init start graph) evs).me.visited.get? k) ∧
        (peerSteps (peerRun (PeerCtx.init start graph) evs) picks).me.edgeCount
          = (peerRun (PeerCtx.init start graph) evs).me.edgeCount ∧
        (peerSteps (peerRun (PeerCtx.init start graph) evs) picks).result
          = (if rest = [] then some none
             else (peerRun (PeerCtx.init start graph) evs).result) ∧
        (peerSteps (peerRun (PeerCtx.init start graph) evs) picks).me.pc
          = (if rest = [] then Pc.exiting else Pc.select) := by
  have hS := Solo.solo_run start graph evs
  refine ⟨hS.visited_spent, ?_⟩
  intro n rest picks hf hpc hd hr hfr hv hlen
  have hU := hS.spent_unvisited n hv
  have hroom : (peerRun (PeerCtx.init start graph) evs).peerOut.buf.length +
      (unvisitedNeighbors (peerRun (PeerCtx.init start graph) evs).me.visited
        (neighborsOf (peerRun (PeerCtx.init start graph) evs).me.graph n)).length
      ≤ chanCap := by
    rw [hU]
    exact hS.out_bound
  rw [expansion_steps _ n rest picks hf hpc hd hr hfr hroom hlen, hU]
  refine ⟨by simp, by simp, rfl, by simp, ?_, by simp, by simp, by simp⟩
  intro k
  exact hS.visited_set_get? n hv k

/-- On the triangle `1 - 2 - 3 - 1` node `3` is queued twice; when its second
copy comes up it is visited, and its expansion changes nothing but the
frontier (which becomes empty, so the peer reports nil). -/
theorem reexpansion_is_noop_witness :
    (peerSteps (peerRun (PeerCtx.init 1 [(1, [2, 3]), (2, [1, 3]), (3, [1, 2])])
          [M, M, M, M, M, M, M, M, M, M, M, M])
        [true, true, true, true]).me.frontier = [] ∧
      (peerSteps (peerRun (PeerCtx.init 1 [(1, [2, 3]), (2, [1, 3]), (3, [1, 2])])
          [M, M, M, M, M, M, M, M, M, M, M, M])
        [true, true, true, true]).peerOut
        = (peerRun (PeerCtx.init 1 [(1, [2, 3]), (2, [1, 3]), (3, [1, 2])])
          [M, M, M, M, M, M, M, M, M, M, M, M]).peerOut ∧
      (peerSteps (peerRun (PeerCtx.init 1 [(1, [2, 3]), (2, [1, 3]), (3, [1, 2])])
          [M, M, M, M, M, M, M, M, M, M, M, M])
        [true, true, true, true]).me.pred
        = (peerRun (PeerCtx.init 1 [(1, [2, 3]), (2, [1, 3]), (3, [1, 2])])
          [M, M, M, M, M, M, M, M, M, M, M, M]).me.pred ∧
      (peerSteps (peerRun (PeerCtx.init 1 [(1, [2, 3]), (2, [1, 3]), (3, [1, 2])])
          [M, M, M, M, M, M, M, M, M, M, M, M])
        [true, true, true, true]).me.graph
        = (peerRun (PeerCtx.init 1 [(1, [2, 3]), (2, [1, 3]), (3, [1, 2])])
          [M, M, M, M, M, M, M, M, M, M, M, M]).me.graph ∧
      (∀ k, (peerSteps (peerRun (PeerCtx.init 1 [(1, [2, 3]), (2, [1, 3]), (3, [1, 2])])
          [M, M, M, M, M, M, M, M, M, M, M, M])
        [true, true, true, true]).me.visited.get? k
        = (peerRun (PeerCtx.init 1 [(1, [2, 3]), (2, [1, 3]), (3, [1, 2])])
          [M, M, M, M, M, M, M, M, M, M, M, M]).me.visited.get? k) ∧
      (peerSteps (peerRun (PeerCtx.init 1 [(1, [2, 3]), (2, [1, 3]), (3, [1, 2])])
          [M, M, M, M, M, M, M, M, M, M, M, M])
        [true, true, true, true]).me.edgeCount
        = (peerRun (PeerCtx.init 1 [(1, [2, 3]), (2, [1, 3]), (3, [1, 2])])
          [M, M, M, M, M, M, M, M, M, M, M, M]).me.edgeCount ∧
      (peerSteps (peerRun (PeerCtx.init 1 [(1, [2, 3]), (2, [1, 3]), (3, [1, 2])])
          [M, M, M, M, M, M, M, M, M, M, M, M])
        [true, true, true, true]).result
        = (if ([] : List Int) = [] then some none
           else (peerRun (PeerCtx.init 1 [(1, [2, 3]), (2, [1, 3]), (3, [1, 2])])
          [M, M, M, M, M, M, M, M, M, M, M, M]).result) ∧
      (peerSteps (peerRun (PeerCtx.init 1 [(1, [2, 3]), (2, [1, 3]), (3, [1, 2])])
          [M, M, M, M, M, M, M, M, M, M, M, M])
        [true, true, true, true]).me.pc
        = (if ([] : List Int) = [] then Pc.exiting else Pc.select) :=
  (reexpansion_is_noop [(1, [2, 3]), (2, [1, 3]), (3, [1, 2])] 1
    [M, M, M, M, M, M, M, M, M, M, M, M]).2 3 [] [true, true, true, true]
    (by decide) (by decide) (by decide) (by decide) (by decide) (by decide) (by decide)

/-! ## `copyMap` returns a map of its own -/

/-- The keys of a map are the keys a lookup finds. -/
theorem GoMap.mem_keys {β : Type} (m : GoMap β) (k : Int) :
    k ∈ m.keys ↔ hasKey m k = true := by
  unfold GoMap.keys hasKey GoMap.get?
  rw [List.mem_dedup]
  constructor
  · intro hk
    rw [List.mem_map] at hk
    obtain ⟨⟨a, b⟩, hmem, rfl⟩ := hk
    cases hl : List.lookup a m with
    | none =>
      rw [List.lookup_eq_none_iff] at hl
      have := hl (a, b) hmem
      simp at this
    | some v => rfl
  · intro hk
    by_contra hno
    have hnone : List.lookup k m = none := by
      rw [List.lookup_eq_none_iff]
      intro p hp
      have : k ≠ p.1 := fun h => hno (List.mem_map.mpr ⟨p, hp, h.symm⟩)
      simpa using this
    rw [hnone] at hk
    cases hk

theorem Heap.read_append_left (h : Heap) (m : GoMap (List Int)) (ref : Nat)
    (hr : ref < h.length) : Heap.read (h ++ [m]) ref = Heap.read h ref := by
  unfold Heap.read
  rw [List.getD_append _ _ _ _ hr]

theorem Heap.read_append_new (h : Heap) (m : GoMap (List Int)) :
    Heap.read (h ++ [m]) h.length = m := by
  unfold Heap.read
  rw [List.getD_append_right _ _ _ _ (Nat.le_refl _)]
  simp

theorem Heap.set_append_new (h : Heap) (m m2 : GoMap (List Int)) :
    List.set (h ++ [m]) h.length m2 = h ++ [m2] := by
  rw [List.set_append_right _ _ (Nat.le_refl _)]
  simp

/-- The loop of `copyMap` writes to the new map only. -/
theorem copyMapRef_fold (h : Heap) (source : Nat) (hs : source < h.length) :
    ∀ (ks : List Int) (m : GoMap (List Int)),
      ks.foldl
          (fun acc k => Heap.assign acc h.length k
            (neighborsOf (Heap.read acc h.length) k ++ neighborsOf (Heap.read acc source) k))
          (h ++ [m])
        = h ++ [ks.foldl
            (fun result k => result.set k (neighborsOf result k ++ neighborsOf (Heap.read h source) k))
            m] := by
  intro ks
  induction ks with
  | nil => intro m; rfl
  | cons k ks ih =>
    intro m
    rw [List.foldl_cons, List.foldl_cons]
    have hstep : Heap.assign (h ++ [m]) h.length k
        (neighborsOf (Heap.read (h ++ [m]) h.length) k
          ++ neighborsOf (Heap.read (h ++ [m]) source) k)
        = h ++ [m.set k (neighborsOf m k ++ neighborsOf (Heap.read h source) k)] := by
      unfold Heap.assign
      rw [Heap.read_append_new, Heap.read_append_left h m source hs, Heap.set_append_new]
    rw [hstep, ih]

/-- On references, `copyMap` leaves the store as it was and adds one map, the
one the function `copyMap` computes. -/
theorem copyMapRef_eq (h : Heap) (source : Nat) (hs : source < h.length) :
    copyMapRef h source = (h ++ [copyMap (Heap.read h source)], h.length) := by
  unfold copyMapRef Heap.make
  simp only
  rw [copyMapRef_fold h source hs]
  rfl


/-- **C20.** `copyMap(source)` is an equal, independent copy.  The map it
returns is a new one (its reference differs from `source` and from every
reference in use); it has exactly the keys of `source`, and every key maps to
the neighbor sequence `source` maps it to; making the copy changes no map that
existed before; and `delete(copy, k)`, the pruning a peer does, removes the
entry of `k` from the copy and changes no other map: every entry of `source`
is as it was. -/
theorem copyMap_equal_independent (h : Heap) (source : Nat) (hs : source < h.length) :
    (copyMapRef h source).2 ≠ source ∧
      Heap.read (copyMapRef h source).1 (copyMapRef h source).2 = copyMap (Heap.read h source) ∧
      (∀ k, k ∈ (Heap.read (copyMapRef h source).1 (copyMapRef h source).2).keys
        ↔ k ∈ (Heap.read h source).keys) ∧
      (∀ k, (Heap.read (copyMapRef h source).1 (copyMapRef h source).2).get? k
        = (Heap.read h source).get? k) ∧
      (∀ ref, ref < h.length → Heap.read (copyMapRef h source).1 ref = Heap.read h ref) ∧
      (∀ k ref, ref < h.length →
        Heap.read (Heap.delete (copyMapRef h source).1 (copyMapRef h source).2 k) ref
          = Heap.read h ref) ∧
      (∀ k, (Heap.read (Heap.delete (copyMapRef h source).1 (copyMapRef h source).2 k)
          (copyMapRef h source).2).get? k = none) ∧
      (∀ k j, (Heap.read (Heap.delete (copyMapRef h source).1 (copyMapRef h source).2 k)
          source).get? j = (Heap.read h source).get? j) := by
  rw [copyMapRef_eq h source hs]
  have hdel : ∀ k, Heap.delete (h ++ [copyMap (Heap.read h source)]) h.length k
      = h ++ [(copyMap (Heap.read h source)).del k] := by
    intro k
    unfold Heap.delete
    rw [Heap.read_append_new, Heap.set_append_new]
  refine ⟨?_, ?_, ?_, ?_, ?_, ?_, ?_, ?_⟩
  · exact fun heq => absurd hs (by rw [← heq]; exact Nat.lt_irrefl _)
  · exact Heap.read_append_new h _
  · intro k
    simp only [Heap.read_append_new]
    rw [GoMap.mem_keys, GoMap.mem_keys]
    unfold hasKey
    rw [copyMap_get?]
  · intro k
    simp only [Heap.read_append_new]
    exact copyMap_get? _ k
  · intro ref hr
    exact Heap.read_append_left h _ ref hr
  · intro k ref hr
    simp only [hdel]
    exact Heap.read_append_left h _ ref hr
  · intro k
    simp only [hdel, Heap.read_append_new]
    rw [GoMap.get?_del, if_pos rfl]
  · intro k j
    simp only [hdel]
    rw [Heap.read_append_left h _ source hs]

theorem copyMap_equal_independent_witness :
    (copyMapRef [[(1, [2, 3]), (2, [1])]] 0).2 ≠ 0 ∧
      Heap.read (copyMapRef [[(1, [2, 3]), (2, [1])]] 0).1 (copyMapRef [[(1, [2, 3]), (2, [1])]] 0).2
        = copyMap (Heap.read [[(1, [2, 3]), (2, [1])]] 0) ∧
      (∀ k, k ∈ (Heap.read (copyMapRef [[(1, [2, 3]), (2, [1])]] 0).1
          (copyMapRef [[(1, [2, 3]), (2, [1])]] 0).2).keys
        ↔ k ∈ (Heap.read [[(1, [2, 3]), (2, [1])]] 0).keys) ∧
      (∀ k, (Heap.read (copyMapRef [[(1, [2, 3]), (2, [1])]] 0).1
          (copyMapRef [[(1, [2, 3]), (2, [1])]] 0).2).get? k
        = (Heap.read [[(1, [2, 3]), (2, [1])]] 0).get? k) ∧
      (∀ ref, ref < List.length [[((1 : Int), [(2 : Int), 3]), (2, [1])]] →
        Heap.read (copyMapRef [[(1, [2, 3]), (2, [1])]] 0).1 ref
          = Heap.read [[(1, [2, 3]), (2, [1])]] ref) ∧
      (∀ k ref, ref < List.length [[((1 : Int), [(2 : Int), 3]), (2, [1])]] →
        Heap.read (Heap.delete (copyMapRef [[(1, [2, 3]), (2, [1])]] 0).1
          (copyMapRef [[(1, [2, 3]), (2, [1])]] 0).2 k) ref
          = Heap.read [[(1, [2, 3]), (2, [1])]] ref) ∧
      (∀ k, (Heap.read (Heap.delete (copyMapRef [[(1, [2, 3]), (2, [1])]] 0).1
          (copyMapRef [[(1, [2, 3]), (2, [1])]] 0).2 k)
          (copyMapRef [[(1, [2, 3]), (2, [1])]] 0).2).get? k = none) ∧
      (∀ k j, (Heap.read (Heap.delete (copyMapRef [[(1, [2, 3]), (2, [1])]] 0).1
          (copyMapRef [[(1, [2, 3]), (2, [1])]] 0).2 k) 0).get? j
        = (Heap.read [[(1, [2, 3]), (2, [1])]] 0).get? j) :=
  copyMap_equal_independent [[(1, [2, 3]), (2, [1])]] 0 (by decide)

/-- The copy of the map `1: [2, 3], 2: [1]` holds the same two entries. -/
theorem copyMap_example :
    copyMap [(1, [2, 3]), (2, [1])] = [(2, [1]), (1, [2, 3])] ∧
      (copyMapRef [[(1, [2, 3]), (2, [1])]] 0)
        = ([[(1, [2, 3]), (2, [1])], [(2, [1]), (1, [2, 3])]], 1) := by
  refine ⟨by decide, by decide⟩

/-! ## What the late `visited[next] = true` leaves intact

`pred[k]` can be assigned again as long as `k` has no `visited` entry; from
then on it stays.  And whatever `pred` holds, a half-path is a walk of the
graph, so it is never shorter than the hop distance. -/

/-- A transition of the peer keeps the `visited` entries, and the `pred` entry
of every node that has one. -/
theorem PeerTrans.pred_stable {c c2 : PeerCtx} (ht : PeerTrans c c2) (k : Int)
    (hv : hasKey c.me.visited k = true) :
    c2.me.pred.get? k = c.me.pred.get? k ∧ hasKey c2.me.visited k = true := by
  cases ht with
  | discover next n rest hf hpc hvn hroom =>
    refine ⟨?_, hv⟩
    have hkn : k ≠ n := fun h => by rw [h, hvn] at hv; cases hv
    show (c.me.pred.set n next).get? k = c.me.pred.get? k
    rw [GoMap.get?_set, if_neg hkn]
  | exhausted next hf hpc hfr =>
    refine ⟨rfl, ?_⟩
    show hasKey (c.me.visited.set next true) k = true
    simp [hasKey_set, hv]
  | expanded next hf hpc hfr =>
    refine ⟨rfl, ?_⟩
    show hasKey (c.me.visited.set next true) k = true
    simp [hasKey_set, hv]
  | recvDone m hf hpc hd => exact ⟨rfl, hv⟩
  | recvPeer hf hpc hr => exact ⟨rfl, hv⟩
  | dequeue next rest hf hpc hd hr hfr => exact ⟨rfl, hv⟩
  | frontierFault hf hpc hd hr hfr => exact ⟨rfl, hv⟩
  | skip next n rest hf hpc hvn => exact ⟨rfl, hv⟩
  | announce other hf hpc hd => exact ⟨rfl, hv⟩
  | report meet p hf hpc hp => exact ⟨rfl, hv⟩
  | reportFault meet hf hpc hp => exact ⟨rfl, hv⟩
  | close hf hpc => exact ⟨rfl, hv⟩

/-- No event changes the `pred` entry of a node that has a `visited` entry. -/
theorem peerEvent_pred_stable (c : PeerCtx) (e : Event) (k : Int)
    (hv : hasKey c.me.visited k = true) :
    (peerEvent c e).me.pred.get? k = c.me.pred.get? k ∧
      hasKey (peerEvent c e).me.visited k = true := by
  cases e with
  | move pickDone =>
    rcases peerStep_trans pickDone c with h | h
    · show (peerStep pickDone c).me.pred.get? k = c.me.pred.get? k ∧
        hasKey (peerStep pickDone c).me.visited k = true
      rw [h]; exact ⟨rfl, hv⟩
    · exact h.pred_stable k hv
  | notify x =>
    show (if c.peerIn.closed || !c.peerIn.hasRoom then c
        else { c with peerIn := c.peerIn.push x }).me.pred.get? k = c.me.pred.get? k ∧
      hasKey (if c.peerIn.closed || !c.peerIn.hasRoom then c
        else { c with peerIn := c.peerIn.push x }).me.visited k = true
    split <;> exact ⟨rfl, hv⟩
  | hangUp => exact ⟨rfl, hv⟩
  | drain => exact ⟨rfl, hv⟩
  | meet m =>
    show (match c.done with
        | none => { c with done := some m }
        | some _ => c).me.pred.get? k = c.me.pred.get? k ∧
      hasKey (match c.done with
        | none => { c with done := some m }
        | some _ => c).me.visited k = true
    split <;> exact ⟨rfl, hv⟩
  | unmeet => exact ⟨rfl, hv⟩

/-- Once a node is in `visited`, its `pred` entry is final: whatever the peer
and its partner do afterwards, `pred[k]` reads the same. -/
theorem peer_pred_stable_once_visited (k : Int) (later : List Event) :
    ∀ c : PeerCtx, hasKey c.me.visited k = true →
      (peerRun c later).me.pred.get? k = c.me.pred.get? k ∧
        hasKey (peerRun c later).me.visited k = true := by
  induction later with
  | nil => intro c hv; exact ⟨rfl, hv⟩
  | cons e rest ih =>
    intro c hv
    have h1 := peerEvent_pred_stable c e k hv
    have h2 := ih (peerEvent c e) h1.2
    exact ⟨h2.1.trans h1.1, h2.2⟩

/-- The half-path of a node the peer has met is never shorter than the hop
distance: when `pathFrom(pred, w, start)` returns, it returns at least
`d + 1` nodes, `d` being the hop distance from `start` to `w`. -/
theorem peer_path_at_least_distance (graph : GoMap (List Int)) (start : Int)
    (evs : List Event) (w : Int) (p : List Int) (d : Nat)
    (hw : Known (peerRun (PeerCtx.init start graph) evs).me w)
    (hp : pathFrom (peerRun (PeerCtx.init start graph) evs).me.pred w start = PathResult.path p)
    (hd : IsHopDistance graph start w d) : d + 1 ≤ p.length := by
  have hS := Solo.solo_run start graph evs
  have hstart : (peerRun (PeerCtx.init start graph) evs).me.start = start :=
    peerRun_start evs _
  have hp2 : pathFrom (peerRun (PeerCtx.init start graph) evs).me.pred w
      (peerRun (PeerCtx.init start graph) evs).me.start = PathResult.path p := by
    rw [hstart]; exact hp
  obtain ⟨_, hwalk, hlast⟩ := pathFrom_backWalk graph _ w p hS.pred_edge hw hp2
  rw [hstart] at hlast
  have := hd.2 p.reverse (hwalk.reverse_walk (pathFrom_path_props _ _ _ _ hp).1 hlast)
  simpa using this

/-! ## `pred` on graphs without a self-loop away from the start node -/

/-- A transition of the peer keeps `pred` ranked. -/
theorem Ranked.ranked_trans {graph : GoMap (List Int)} {c c2 : PeerCtx} (hS : Solo graph c)
    (hno : NoSelfLoopOff graph c.me.start) (hR : Ranked c) (ht : PeerTrans c c2) :
    Ranked c2 := by
  have hquiet : ∀ d : PeerCtx, d.me.pred = c.me.pred → d.me.start = c.me.start →
      d.me.visited = c.me.visited → (∀ n rest, c.me.pc ≠ Pc.expand n rest) → Ranked d := by
    intro d hp hs hv hpc
    refine ⟨?_, ?_⟩
    · rw [hp, hs]; exact hR.rank
    · intro k n h
      rw [hp] at h
      rcases hR.spent k n h with h2 | ⟨rest, h2⟩
      · left; rw [hv]; exact h2
      · exact absurd h2 (hpc n rest)
  cases ht with
  | recvDone m hf hpc hd => exact hquiet _ rfl rfl rfl (fun n rest h => by rw [hpc] at h; cases h)
  | recvPeer hf hpc hr => exact hquiet _ rfl rfl rfl (fun n rest h => by rw [hpc] at h; cases h)
  | dequeue next rest hf hpc hd hr hfr =>
    exact hquiet _ rfl rfl rfl (fun n rest h => by rw [hpc] at h; cases h)
  | frontierFault hf hpc hd hr hfr =>
    exact hquiet _ rfl rfl rfl (fun n rest h => by rw [hpc] at h; cases h)
  | announce other hf hpc hd =>
    exact hquiet _ rfl rfl rfl (fun n rest h => by rw [hpc] at h; cases h)
  | report meet p hf hpc hp =>
    exact hquiet _ rfl rfl rfl (fun n rest h => by rw [hpc] at h; cases h)
  | reportFault meet hf hpc hp =>
    exact hquiet _ rfl rfl rfl (fun n rest h => by rw [hpc] at h; cases h)
  | close hf hpc => exact hquiet _ rfl rfl rfl (fun n rest h => by rw [hpc] at h; cases h)
  | skip next n rest hf hpc hv =>
    refine ⟨hR.rank, ?_⟩
    intro k n2 h
    rcases hR.spent k n2 h with h2 | ⟨rest2, h2⟩
    · exact Or.inl h2
    · right
      rw [hpc] at h2
      cases h2
      exact ⟨rest, rfl⟩
  | exhausted next hf hpc hfr =>
    refine ⟨hR.rank, ?_⟩
    intro k n2 h
    left
    show hasKey (c.me.visited.set next true) n2 = true
    rcases hR.spent k n2 h with h2 | ⟨rest2, h2⟩
    · simp [hasKey_set, h2]
    · rw [hpc] at h2
      cases h2
      simp [hasKey_set]
  | expanded next hf hpc hfr =>
    refine ⟨hR.rank, ?_⟩
    intro k n2 h
    left
    show hasKey (c.me.visited.set next true) n2 = true
    rcases hR.spent k n2 h with h2 | ⟨rest2, h2⟩
    · simp [hasKey_set, h2]
    · rw [hpc] at h2
      cases h2
      simp [hasKey_set]
  | discover next n rest hf hpc hv hroom =>
    have hexp := hS.expand_ok _ _ hpc
    refine ⟨?_, ?_⟩
    · obtain ⟨r, hr⟩ := hR.rank
      show ∃ r : Int → Nat, ∀ k n2, (c.me.pred.set n next).get? k = some n2 →
        k ≠ c.me.start → r n2 < r k
      by_cases hn : n = c.me.start
      · refine ⟨r, ?_⟩
        intro k n2 h hk
        rw [GoMap.get?_set] at h
        split at h
        · rename_i hkn
          exact absurd (hkn.trans hn) hk
        · exact hr k n2 h hk
      · have hnn : n ≠ next := by
          intro heq
          have hmem : n ∈ neighborsOf graph next := hexp.2 n (by simp)
          rw [← heq] at hmem
          exact hn (hno n hmem)
        have hnoval : ∀ k, c.me.pred.get? k ≠ some n := by
          intro k h
          rcases hR.spent k n h with h2 | ⟨rest2, h2⟩
          · rw [hv] at h2; cases h2
          · rw [hpc] at h2
            cases h2
            exact hnn rfl
        refine ⟨fun x => if x = n then r next + 1 else r x, ?_⟩
        intro k n2 h hk
        rw [GoMap.get?_set] at h
        split at h
        · rename_i hkn
          cases h
          subst hkn
          simp [hnn.symm]
        · rename_i hkn
          have hn2 : n2 ≠ n := fun heq => hnoval k (by rw [h, heq])
          simp only [hn2, hkn, if_false]
          exact hr k n2 h hk
    · intro k n2 h
      have h' : (c.me.pred.set n next).get? k = some n2 := h
      rw [GoMap.get?_set] at h'
      split at h'
      · cases h'
        exact Or.inr ⟨rest, rfl⟩
      · rcases hR.spent k n2 h' with h2 | ⟨rest2, h2⟩
        · exact Or.inl h2
        · right
          rw [hpc] at h2
          cases h2
          exact ⟨rest, rfl⟩


theorem Ranked.of_me {c d : PeerCtx} (hR : Ranked c) (h : d.me = c.me) : Ranked d := by
  refine ⟨?_, ?_⟩
  · rw [h]; exact hR.rank
  · rw [h]; exact hR.spent

/-- An event keeps `pred` ranked. -/
theorem Ranked.ranked_event {graph : GoMap (List Int)} {c : PeerCtx} (hS : Solo graph c)
    (hno : NoSelfLoopOff graph c.me.start) (hR : Ranked c) (e : Event) :
    Ranked (peerEvent c e) := by
  cases e with
  | move pickDone =>
    rcases peerStep_trans pickDone c with h | h
    · show Ranked (peerStep pickDone c)
      rw [h]; exact hR
    · exact hR.ranked_trans hS hno h
  | notify x =>
    show Ranked (if c.peerIn.closed || !c.peerIn.hasRoom then c
      else { c with peerIn := c.peerIn.push x })
    split
    · exact hR
    · exact hR.of_me rfl
  | hangUp => exact hR.of_me rfl
  | drain => exact hR.of_me rfl
  | meet m =>
    show Ranked (match c.done with
      | none => { c with done := some m }
      | some _ => c)
    split
    · exact hR.of_me rfl
    · exact hR
  | unmeet => exact hR.of_me rfl

/-- On a graph without a self-loop away from the start node, `pred` is ranked
in every state the peer can reach. -/
theorem Ranked.ranked_run (graph : GoMap (List Int)) (start : Int)
    (hno : NoSelfLoopOff graph start) (evs : List Event) :
    Ranked (peerRun (PeerCtx.init start graph) evs) := by
  have h : ∀ (evs : List Event) (c : PeerCtx), Solo graph c → c.me.start = start → Ranked c →
      Ranked (peerRun c evs) := by
    intro evs
    induction evs with
    | nil => intro c _ _ hR; exact hR
    | cons e rest ih =>
      intro c hS hst hR
      refine ih _ (hS.solo_event e) ?_ (hR.ranked_event hS (by rw [hst]; exact hno) e)
      have := peerRun_start [e] c
      exact this.trans hst
  refine h evs _ (Solo.solo_init start graph) rfl ⟨⟨fun _ => 0, ?_⟩, ?_⟩
  · intro k n hk; cases hk
  · intro k n hk; cases hk

/-- In a ranked predecessor map whose values are met nodes, the walk from a
met node reaches the start node, and the numbers fall along it. -/
theorem ranked_walk (pred : GoMap Int) (start : Int) (r : Int → Nat)
    (hr : ∀ k n, pred.get? k = some n → k ≠ start → r n < r k)
    (hclosed : ∀ k n, pred.get? k = some n → n = start ∨ hasKey pred n = true) :
    ∀ (m : Nat) (x : Int), (x = start ∨ hasKey pred x = true) → r x ≤ m →
      ∃ i, follow pred x i = start ∧ (∀ j < i, follow pred x j ≠ start) ∧
        ∀ j < i, r (follow pred x (j + 1)) < r (follow pred x j) := by
  intro m
  induction m with
  | zero =>
    intro x hx hrx
    by_cases hxs : x = start
    · exact ⟨0, hxs, fun j hj => absurd hj (Nat.not_lt_zero _),
        fun j hj => absurd hj (Nat.not_lt_zero _)⟩
    · obtain ⟨n, hn⟩ := hasKey_get? _ _ (hx.resolve_left hxs)
      have := hr x n hn hxs
      omega
  | succ m ih =>
    intro x hx hrx
    by_cases hxs : x = start
    · exact ⟨0, hxs, fun j hj => absurd hj (Nat.not_lt_zero _),
        fun j hj => absurd hj (Nat.not_lt_zero _)⟩
    · obtain ⟨n, hn⟩ := hasKey_get? _ _ (hx.resolve_left hxs)
      have hlt := hr x n hn hxs
      have hpn : predOf pred x = n := predOf_of_get? pred x n hn
      obtain ⟨i, hi1, hi2, hi3⟩ := ih n (hclosed x n hn) (by omega)
      refine ⟨i + 1, ?_, ?_, ?_⟩
      · rw [follow_succ, hpn]; exact hi1
      · intro j hj
        cases j with
        | zero => exact hxs
        | succ j => rw [follow_succ, hpn]; exact hi2 j (by omega)
      · intro j hj
        cases j with
        | zero =>
          rw [follow_succ, hpn, follow_zero, follow_zero]
          exact hlt
        | succ j =>
          rw [follow_succ, follow_succ pred x j, hpn]
          exact hi3 j (by omega)

/-- Along a walk on which the numbers fall, no node comes twice. -/
theorem falling_distinct (pred : GoMap Int) (x : Int) (r : Int → Nat) (i : Nat)
    (hfall : ∀ j < i, r (follow pred x (j + 1)) < r (follow pred x j)) :
    ∀ a b, a < b → b ≤ i → follow pred x a ≠ follow pred x b := by
  have hlt : ∀ b, b ≤ i → ∀ a, a < b → r (follow pred x b) < r (follow pred x a) := by
    intro b
    induction b with
    | zero => intro _ a ha; omega
    | succ b ih =>
      intro hb a ha
      have h1 := hfall b (by omega)
      rcases Nat.lt_or_eq_of_le (Nat.lt_succ_iff.mp ha) with h | h
      · exact Nat.lt_trans h1 (ih (by omega) a h)
      · subst h; exact h1
  intro a b hab hb heq
  have := hlt b hb a hab
  rw [heq] at this
  exact Nat.lt_irrefl _ this

/-- On a graph in which no node other than the start node lists itself as a
neighbor, `pred` is acyclic in every state a single peer can reach: from every
key `k` of `pred` the predecessors lead to the start node without a repeated
node, and `pathFrom(pred, k, start)` returns a path. -/
theorem peer_pred_acyclic (graph : GoMap (List Int)) (start : Int) (evs : List Event)
    (hno : NoSelfLoopOff graph start) (k : Int)
    (hk : Known (peerRun (PeerCtx.init start graph) evs).me k) :
    ∃ i, follow (peerRun (PeerCtx.init start graph) evs).me.pred k i = start ∧
      (∀ a b, a < b → b ≤ i →
        follow (peerRun (PeerCtx.init start graph) evs).me.pred k a
          ≠ follow (peerRun (PeerCtx.init start graph) evs).me.pred k b) ∧
      pathFrom (peerRun (PeerCtx.init start graph) evs).me.pred k start
        = PathResult.path ((List.range (i + 1)).map
            (follow (peerRun (PeerCtx.init start graph) evs).me.pred k)) := by
  have hS := Solo.solo_run start graph evs
  have hR := Ranked.ranked_run graph start hno evs
  have hstart : (peerRun (PeerCtx.init start graph) evs).me.start = start :=
    peerRun_start evs _
  obtain ⟨r, hr⟩ := hR.rank
  rw [hstart] at hr
  have hclosed : ∀ a n, (peerRun (PeerCtx.init start graph) evs).me.pred.get? a = some n →
      n = start ∨ hasKey (peerRun (PeerCtx.init start graph) evs).me.pred n = true := by
    intro a n h
    have := (hS.pred_edge a n h).2
    unfold Known at this
    rw [hstart] at this
    exact this
  have hk2 : k = start ∨ hasKey (peerRun (PeerCtx.init start graph) evs).me.pred k = true := by
    unfold Known at hk
    rw [hstart] at hk
    exact hk
  obtain ⟨i, hi1, hi2, hi3⟩ := ranked_walk _ start r hr hclosed (r k) k hk2 (Nat.le_refl _)
  have hd := falling_distinct _ k r i hi3
  have hlen : i + 1 ≤ (peerRun (PeerCtx.init start graph) evs).me.pred.length + 2 :=
    follow_distinct_bound _ k (i + 1) (fun a b hab hb => hd a b hab (by omega))
  refine ⟨i, hi1, hd, ?_⟩
  have := pathFromLoop_path (peerRun (PeerCtx.init start graph) evs).me.pred start i
    ((peerRun (PeerCtx.init start graph) evs).me.pred.length + 3) [] k [] (by omega)
    hi2 hi1 (fun _ _ => rfl) hd
  simpa [pathFrom] using this

/-! ## What a peer announces while the channel of its partner is open -/

/-- A transition of the peer announces visited nodes only. -/
theorem PeerTrans.announces_visited {c c2 : PeerCtx} (ht : PeerTrans c c2)
    (h : AnnouncesVisited c.me) : AnnouncesVisited c2.me := by
  cases ht with
  | recvPeer hf hpc hr =>
    intro m hm
    simp only at hm
    split at hm
    · rename_i hv
      cases hm
      exact hv
    · cases hm
  | recvDone m hf hpc hd => intro m2 hm; cases hm
  | dequeue next rest hf hpc hd hr hfr => intro m2 hm; cases hm
  | frontierFault hf hpc hd hr hfr => exact h
  | skip next n rest hf hpc hv => intro m2 hm; cases hm
  | discover next n rest hf hpc hv hroom => intro m2 hm; cases hm
  | exhausted next hf hpc hfr => intro m2 hm; cases hm
  | expanded next hf hpc hfr => intro m2 hm; cases hm
  | announce other hf hpc hd => intro m2 hm; cases hm
  | report meet p hf hpc hp => intro m2 hm; cases hm
  | reportFault meet hf hpc hp => exact h
  | close hf hpc => intro m2 hm; cases hm

/-- A transition of the program announces visited nodes only. -/
theorem step_announces_visited (s : Sys) (l : Label)
    (h : AnnouncesVisited s.uPeer ∧ AnnouncesVisited s.vPeer) :
    AnnouncesVisited (step s l).uPeer ∧ AnnouncesVisited (step s l).vPeer := by
  unfold step
  cases l.actor with
  | u =>
    simp only
    rcases peerStep_trans l.pick s.ctxU with heq | ht
    · rw [heq]; exact h
    · exact ⟨ht.announces_visited h.1, h.2⟩
  | v =>
    simp only
    rcases peerStep_trans l.pick s.ctxV with heq | ht
    · rw [heq]; exact h
    · exact ⟨h.1, ht.announces_visited h.2⟩
  | coord =>
    simp only
    obtain ⟨c, f, heq⟩ := coordStep_frame l.pick s
    rw [heq]
    exact h

/-- In every state of a run of `Bfs`, the node a peer is about to send on
`done` has the value `true` in its own `visited`, and is a key of the `pred`
of its partner unless the partner has closed its channel. -/
theorem Bfs_announced_overlap (graph : GoMap (List Int)) (u v : Int) (sched : List Label)
    (m : Int) :
    ((run (Bfs.init graph u v) sched).uPeer.pc = Pc.announce m →
        isVisited (run (Bfs.init graph u v) sched).uPeer.visited m = true ∧
        (hasKey (run (Bfs.init graph u v) sched).vPeer.pred m = true ∨
          (run (Bfs.init graph u v) sched).uChan.closed = true)) ∧
      ((run (Bfs.init graph u v) sched).vPeer.pc = Pc.announce m →
        isVisited (run (Bfs.init graph u v) sched).vPeer.visited m = true ∧
        (hasKey (run (Bfs.init graph u v) sched).uPeer.pred m = true ∨
          (run (Bfs.init graph u v) sched).vChan.closed = true)) := by
  have hI : Inv graph (run (Bfs.init graph u v) sched) :=
    Inv.holds_run sched (Inv.holds_init graph u v)
  have hA : ∀ (sched : List Label) (s : Sys),
      AnnouncesVisited s.uPeer ∧ AnnouncesVisited s.vPeer →
      AnnouncesVisited (run s sched).uPeer ∧ AnnouncesVisited (run s sched).vPeer := by
    intro sched
    induction sched with
    | nil => intro s h; exact h
    | cons l rest ih => intro s h; exact ih _ (step_announces_visited s l h)
  have hV := hA sched (Bfs.init graph u v)
    ⟨fun m h => (by cases h), fun m h => (by cases h)⟩
  exact ⟨fun h => ⟨hV.1 m h, hI.1.announce_left m h⟩,
    fun h => ⟨hV.2 m h, hI.1.announce_right m h⟩⟩

/-! ## Searches the code gets wrong on graphs that list every edge both ways -/

/-- A lookup that succeeds has found an entry of the map. -/
theorem GoMap.get?_mem {β : Type} (m : GoMap β) (k : Int) (v : β) (h : m.get? k = some v) :
    (k, v) ∈ m := by
  unfold GoMap.get? at h
  induction m with
  | nil => cases h
  | cons e m ih =>
    obtain ⟨a, b⟩ := e
    by_cases hk : k = a
    · subst hk
      simp [List.lookup] at h
      subst h
      exact List.mem_cons_self _ _
    · have hka : (k == a) = false := by simpa using hk
      simp only [List.lookup, hka] at h
      exact List.mem_cons_of_mem _ (ih h)

/-- A neighbor read from the map stands in one of its entries. -/
theorem neighborsOf_mem_entry (graph : GoMap (List Int)) (x y : Int)
    (h : y ∈ neighborsOf graph x) : ∃ l, (x, l) ∈ graph ∧ y ∈ l := by
  unfold neighborsOf at h
  cases hg : graph.get? x with
  | none => rw [hg] at h; simp at h
  | some l =>
    rw [hg] at h
    exact ⟨l, GoMap.get?_mem graph x l hg, h⟩

/-- A map lists every edge in both directions when each entry does. -/
theorem symmetric_of_entries (graph : GoMap (List Int))
    (h : ∀ e ∈ graph, ∀ y ∈ e.2, e.1 ∈ neighborsOf graph y) : SymmetricGraph graph := by
  intro a b hab
  obtain ⟨l, hl, hb⟩ := neighborsOf_mem_entry graph a b hab
  exact h (a, l) hl b hb

/-- A node outside a set of nodes that no entry of the map leaves is not
reachable from a node inside. -/
theorem not_reach_of_closed (graph : GoMap (List Int)) (S : Int → Bool)
    (h : ∀ e ∈ graph, S e.1 = true → ∀ y ∈ e.2, S y = true) (a b : Int)
    (ha : S a = true) (hb : S b = false) : ¬ Reach graph a b := by
  intro hr
  have this : S b = true := Reach.closed (fun x => S x = true) (fun x y hx hxy => by
    obtain ⟨l, hl, hy⟩ := neighborsOf_mem_entry graph x y hxy
    exact h (x, l) hl hx y hy) ha hr
  rw [hb] at this
  cases this

/-- **C1 (the code breaks it).** On the triangle `1 - 2 - 3 - 1`, which lists
every edge in both directions, node `3` is one hop from `1`, and
`Bfs(graph, 1, 3)` returns `[1, 2, 3]`, a path of two edges, under the schedule
shown: the v-peer expands `3`; the u-peer expands `1` and then `2`, and the
expansion of `2` overwrites `pred[3] = 1` with `pred[3] = 2` while `3` is
queued but not yet in `visited`; the v-peer then reads `3`, which it has
visited, and announces it. -/
theorem Bfs_triangle_detour :
    SymmetricGraph [(1, [2, 3]), (2, [1, 3]), (3, [1, 2])] ∧
      IsHopDistance [(1, [2, 3]), (2, [1, 3]), (3, [1, 2])] 1 3 1 ∧
      (run (Bfs.init [(1, [2, 3]), (2, [1, 3]), (3, [1, 2])] 1 3)
        [V, V, V, V, U, U, U, U, U, U]).uPeer.pred.get? 3 = some 1 ∧
      (run (Bfs.init [(1, [2, 3]), (2, [1, 3]), (3, [1, 2])] 1 3)
        [V, V, V, V, U, U, U, U, U, U, U, U, U, U]).uPeer.pred.get? 3 = some 2 ∧
      (run (Bfs.init [(1, [2, 3]), (2, [1, 3]), (3, [1, 2])] 1 3)
        [V, V, V, V, U, U, U, U, U, U, U, U, U, U, V, V, V, V, V, U, U, U, C, C]).coord
        = Coord.returned (some [1, 2, 3]) ∧
      ([1, 2, 3] : List Int).length - 1 = 2 := by
  refine ⟨symmetric_of_entries _ (by decide), triangle_hop_distance, by decide, by decide,
    by decide, rfl⟩

/-- **C3 (the code breaks it).** On the graph `1 - 0, 1 - 3`, which lists every
edge in both directions, node `2` is not reachable from `1`, nor `1` from `2`.
`Bfs(graph, 1, 2)` panics under the schedule shown: the u-peer expands `1` and
`0`; the v-peer reads the notifications `0` and `3`, expands `2`, reports nil
and closes its channel; the u-peer receives `0` from the closed channel, has
visited it, announces it and reports `[0, 1]`; the coordinator receives
`[0, 1]` first and nil second, and `vPath[1:]` panics.  With the two nodes
swapped, `Bfs(graph, 2, 1)` returns the non-empty sequence `[1]`.  When the
coordinator receives the nil first, `Bfs` returns nil. -/
theorem Bfs_unreachable_symmetric_fails :
    SymmetricGraph [(1, [0, 3]), (0, [1]), (3, [1])] ∧
      ¬ Reach [(1, [0, 3]), (0, [1]), (3, [1])] 1 2 ∧
      ¬ Reach [(1, [0, 3]), (0, [1]), (3, [1])] 2 1 ∧
      (run (Bfs.init [(1, [0, 3]), (0, [1]), (3, [1])] 1 2)
        [U, U, U, U, U, U, U, V, V, V, V, V, U, U, U]).uResult = some (some [0, 1]) ∧
      (run (Bfs.init [(1, [0, 3]), (0, [1]), (3, [1])] 1 2)
        [U, U, U, U, U, U, U, V, V, V, V, V, U, U, U]).vResult = some none ∧
      (run (Bfs.init [(1, [0, 3]), (0, [1]), (3, [1])] 1 2)
        [U, U, U, U, U, U, U, V, V, V, V, V, U, U, U, C, C]).fault
        = some Fault.sliceBounds ∧
      (run (Bfs.init [(1, [0, 3]), (0, [1]), (3, [1])] 2 1)
        [V, V, V, V, V, V, V, U, U, U, U, U, V, V, V,
          { actor := Actor.coord, pick := false }, C]).coord
        = Coord.returned (some [1]) ∧
      (run (Bfs.init [(1, [0, 3]), (0, [1]), (3, [1])] 1 2)
        [U, U, U, U, U, U, U, V, V, V, V, V, U, U, U,
          { actor := Actor.coord, pick := false }]).coord
        = Coord.returned none := by
  refine ⟨symmetric_of_entries _ (by decide), ?_, ?_, by decide, by decide, by decide,
    by decide, by decide⟩
  · exact not_reach_of_closed _ (fun x => x != 2) (by decide) 1 2 (by decide) (by decide)
  · exact not_reach_of_closed _ (fun x => x == 2) (by decide) 2 1 (by decide) (by decide)

end BidirectionalBfs
